import Mathlib

/-!
# go-dailyco: request plumbing of the Daily.co client

A shallow embedding of `client.go`.  The repository code is three thin
operations (`CreateRoom`, `DeleteRoom`, `CreateMeetingToken`) over one
dispatcher (`call`); everything they compute is delegated to the Go standard
library (`path.Join`, `net/url`, `net/http`, `fmt`, `encoding/json`,
`unicode/utf8`, `strconv`).  The library functions are embedded here as
executable definitions of their documented behaviour, the repository functions
are translated statement by statement on top of them.

Conventions
* a Go `string` / `[]byte` is a list of bytes (`GoString`), so strings that are
  not valid UTF-8 are representable, as they are in Go;
* `int64` is `Int`, `uint` is `Nat` (64-bit platform), with the range checks of
  the library made explicit;
* the HTTP client is a function from the request to what `client.Do` and
  `ioutil.ReadAll` produce; every operation also reports the requests it handed
  to the client, so that the wire contract can be stated;
* a Go result pair `(value, error)` is a Lean pair with `Option` for `nil`;
* `json.Marshal` is documented to replace bytes that are not valid UTF-8 by the
  replacement rune without fixing how the rune is written; the encoder and the
  client therefore take the form as a parameter (`Replacement`), and the
  statements hold for both forms.
-/

set_option autoImplicit false
set_option maxRecDepth 100000

namespace Dailyco

/-! ## Bytes and strings -/

/-- A Go `string` (or `[]byte`): a finite sequence of bytes; a byte is a natural
number below 256. -/
abbrev GoString := List Nat

/-- Rune constant `utf8.RuneError` (U+FFFD). -/
def RuneError : Nat := 0xFFFD

/-- Rune constant `utf8.RuneSelf`: bytes below it are single-byte runes. -/
def RuneSelf : Nat := 0x80

/-- Classification of a leading byte, the table `first` of `unicode/utf8`
together with `acceptRanges`: `none` for an invalid leading byte, otherwise the
sequence length and the accepted range of the second byte.  ASCII is handled
before the table is consulted. -/
def first (p0 : Nat) : Option (Nat × Nat × Nat) :=
  if 0xC2 ≤ p0 ∧ p0 ≤ 0xDF then some (2, 0x80, 0xBF)
  else if p0 = 0xE0 then some (3, 0xA0, 0xBF)
  else if 0xE1 ≤ p0 ∧ p0 ≤ 0xEC then some (3, 0x80, 0xBF)
  else if p0 = 0xED then some (3, 0x80, 0x9F)
  else if 0xEE ≤ p0 ∧ p0 ≤ 0xEF then some (3, 0x80, 0xBF)
  else if p0 = 0xF0 then some (4, 0x90, 0xBF)
  else if 0xF1 ≤ p0 ∧ p0 ≤ 0xF3 then some (4, 0x80, 0xBF)
  else if p0 = 0xF4 then some (4, 0x80, 0x8F)
  else none

/-- Continuation byte test (`locb ≤ b ≤ hicb`). -/
def isCont (b : Nat) : Bool := 0x80 ≤ b && b ≤ 0xBF

/-- Function `utf8.DecodeRune`: the first rune of `p` and its width in bytes;
`(RuneError, 0)` on empty input and `(RuneError, 1)` on an invalid encoding. -/
def decodeRune (p : GoString) : Nat × Nat :=
  match p with
  | [] => (RuneError, 0)
  | p0 :: _ =>
    if p0 < RuneSelf then (p0, 1)
    else
      match first p0 with
      | none => (RuneError, 1)
      | some (sz, lo, hi) =>
        if p.length < sz then (RuneError, 1)
        else
          let b1 := p.getD 1 0
          if b1 < lo ∨ hi < b1 then (RuneError, 1)
          else if sz ≤ 2 then ((p0 % 32) * 64 + b1 % 64, 2)
          else
            let b2 := p.getD 2 0
            if !isCont b2 then (RuneError, 1)
            else if sz ≤ 3 then ((p0 % 16) * 4096 + (b1 % 64) * 64 + b2 % 64, 3)
            else
              let b3 := p.getD 3 0
              if !isCont b3 then (RuneError, 1)
              else ((p0 % 8) * 262144 + (b1 % 64) * 4096 + (b2 % 64) * 64 + b3 % 64, 4)

/-- Function `utf8.EncodeRune` / `utf8.AppendRune`: the UTF-8 encoding of a
rune; surrogates and values above U+10FFFF are encoded as U+FFFD. -/
def encodeRune (r : Nat) : GoString :=
  if r ≤ 0x7F then [r]
  else if r ≤ 0x7FF then [0xC0 + r / 64, 0x80 + r % 64]
  else if r > 0x10FFFF ∨ (0xD800 ≤ r ∧ r ≤ 0xDFFF) then [0xEF, 0xBF, 0xBD]
  else if r ≤ 0xFFFF then [0xE0 + r / 4096, 0x80 + (r / 64) % 64, 0x80 + r % 64]
  else [0xF0 + r / 262144, 0x80 + (r / 4096) % 64, 0x80 + (r / 64) % 64, 0x80 + r % 64]

/-- The bytes of a string literal of the Go source (UTF-8, as the Go compiler
stores it). -/
def bytes (s : String) : GoString := s.toList.flatMap (fun c => encodeRune c.toNat)

/-- Loop of `utf8.Valid`, one byte per step: `skip` counts the bytes of the
current rune still to be passed over (`i += size`). -/
def validLoop : Nat → GoString → Bool
  | _, [] => true
  | skip + 1, _ :: rest => validLoop skip rest
  | 0, b :: rest =>
    let d := decodeRune (b :: rest)
    if d.1 = RuneError ∧ d.2 = 1 then false else validLoop (d.2 - 1) rest

/-- Function `utf8.Valid`: the bytes are entirely valid UTF-8. -/
def utf8Valid (s : GoString) : Bool := validLoop 0 s

/-! ## strconv -/

/-- Decimal digits of `n`, most significant first; `fuel` bounds the number of
digits (20 suffice for 64 bits).  This is `strconv.formatBits` in base 10. -/
def formatDigits : Nat → Nat → GoString
  | 0, _ => []
  | fuel + 1, n => if n < 10 then [48 + n] else formatDigits fuel (n / 10) ++ [48 + n % 10]

/-- Function `strconv.FormatUint(n, 10)` for a 64-bit value. -/
def formatUint (n : Nat) : GoString := formatDigits 20 n

/-- Function `strconv.FormatInt(i, 10)` for a 64-bit value. -/
def formatInt (i : Int) : GoString :=
  if i < 0 then 45 :: formatDigits 20 i.natAbs else formatDigits 20 i.natAbs

/-- Digit loop of `strconv.ParseUint` in base 10: `none` on a byte that is not
a decimal digit. -/
def parseDigits : Nat → GoString → Option Nat
  | acc, [] => some acc
  | acc, c :: rest => if 48 ≤ c ∧ c ≤ 57 then parseDigits (acc * 10 + (c - 48)) rest else none

/-- Function `strconv.ParseUint(s, 10, 64)`, `none` for any error (empty input,
a byte that is not a digit, a value that does not fit 64 bits). -/
def parseUint (s : GoString) : Option Nat :=
  match s with
  | [] => none
  | _ =>
    match parseDigits 0 s with
    | none => none
    | some n => if n < 2 ^ 64 then some n else none

/-- Function `strconv.ParseInt(s, 10, 64)`, `none` for any error. -/
def parseInt (s : GoString) : Option Int :=
  match s with
  | [] => none
  | c :: rest =>
    let neg := c = 45
    let digits := if c = 43 ∨ c = 45 then rest else s
    match digits with
    | [] => none
    | _ =>
      match parseDigits 0 digits with
      | none => none
      | some un =>
        if !neg ∧ un ≥ 2 ^ 63 then none
        else if neg ∧ un > 2 ^ 63 then none
        else some (if neg then -(un : Int) else (un : Int))

/-! ## fmt -/

/-- Function `fmt.Sprintf` for formats whose only verb is `%s` and string
operands: an operand is copied verbatim, a verb without operand prints
`%!s(MISSING)`. -/
def Sprintf : GoString → List GoString → GoString
  | [], _ => []
  | c :: rest, args =>
    if c = 37 ∧ rest.head? = some 115 then
      match rest with
      | [] => []
      | _ :: rest1 => args.headD (bytes "%!s(MISSING)") ++ Sprintf rest1 args.tail
    else c :: Sprintf rest args

/-! ## path -/

/-- The `..` case of `path.Clean` when it can backtrack: after `out.w--` the
loop `for out.w > dotdot && out.index(out.w) != '/' { out.w-- }`.  The buffer is
kept reversed (last written byte first); `c` is the byte at index `out.w`, the
one removed last. -/
def backtrack (dotdot : Nat) : Nat → GoString → GoString
  | _, [] => []
  | c, c1 :: rout =>
    if (c1 :: rout).length > dotdot ∧ c ≠ 47 then backtrack dotdot c1 rout else c1 :: rout

/-- The statement `out.w--` followed by the loop of `backtrack`. -/
def backtrackFrom (dotdot : Nat) (rout : GoString) : GoString :=
  match rout with
  | [] => []
  | last :: rout1 => backtrack dotdot last rout1

/-- Main loop of `path.Clean` over the unread part of the path.  `rout` is the
output buffer reversed, `copying` says that the loop is inside the inner
`for ; r < n && path[r] != '/'; r++` of a real path element. -/
def cleanLoop (rooted : Bool) : Bool → Nat → GoString → GoString → GoString
  | _, _, rout, [] => rout
  | true, dotdot, rout, c :: rest =>
    if c ≠ 47 then cleanLoop rooted true dotdot (c :: rout) rest
    else cleanLoop rooted false dotdot rout rest
  | false, dotdot, rout, c :: rest =>
    if c = 47 then
      -- empty path element
      cleanLoop rooted false dotdot rout rest
    else if c = 46 ∧ (rest = [] ∨ rest.head? = some 47) then
      -- . element
      cleanLoop rooted false dotdot rout rest
    else if c = 46 ∧ rest.head? = some 46 ∧ (rest.tail = [] ∨ rest.tail.head? = some 47) then
      -- .. element: remove to last /
      match rest with
      | [] => rout
      | _ :: rest2 =>
        if rout.length > dotdot then
          -- can backtrack
          cleanLoop rooted false dotdot (backtrackFrom dotdot rout) rest2
        else if !rooted then
          -- cannot backtrack, but not rooted, so append .. element
          let rout1 := if rout.length > 0 then 47 :: rout else rout
          cleanLoop rooted false (rout1.length + 2) (46 :: 46 :: rout1) rest2
        else cleanLoop rooted false dotdot rout rest2
    else
      -- real path element: add slash if needed, then copy the element
      let w := rout.length
      let rout1 := if (rooted ∧ w ≠ 1) ∨ (!rooted ∧ w ≠ 0) then 47 :: rout else rout
      cleanLoop rooted true dotdot (c :: rout1) rest

/-- Function `path.Clean`. -/
def Clean (path : GoString) : GoString :=
  match path with
  | [] => bytes "."
  | c :: rest =>
    let out :=
      if c = 47 then (cleanLoop true false 1 [47] rest).reverse
      else (cleanLoop false false 0 [] (c :: rest)).reverse
    if out = [] then bytes "." else out

/-- Buffer loop of `path.Join`: once the buffer is non-empty every further
element is appended after a `/`, empty or not. -/
def joinBuf : GoString → List GoString → GoString
  | buf, [] => buf
  | buf, e :: es =>
    if buf ≠ [] ∨ e ≠ [] then
      joinBuf ((if buf ≠ [] then buf ++ [47] else buf) ++ e) es
    else joinBuf buf es

/-- Function `path.Join`. -/
def Join (elem : List GoString) : GoString :=
  if (elem.map List.length).sum = 0 then [] else Clean (joinBuf [] elem)

/-! ## net/url -/

/-- The fields of `url.URL` that the client uses. -/
structure URL where
  Scheme : GoString
  Host : GoString
  Path : GoString
  deriving DecidableEq, Repr

/-- Function `shouldEscape(c, encodePath)` of `net/url`: unreserved characters
and the reserved characters other than `?` stay, everything else is escaped. -/
def shouldEscape (c : Nat) : Bool :=
  if (97 ≤ c ∧ c ≤ 122) ∨ (65 ≤ c ∧ c ≤ 90) ∨ (48 ≤ c ∧ c ≤ 57) then false
  else if c = 45 ∨ c = 95 ∨ c = 46 ∨ c = 126 then false
  else if c = 36 ∨ c = 38 ∨ c = 43 ∨ c = 44 ∨ c = 47 ∨ c = 58 ∨ c = 59 ∨ c = 61 ∨ c = 64 then false
  else true

/-- The table `upperhex` of `net/url`, for a value below 16. -/
def upperhex (d : Nat) : Nat := if d < 10 then 48 + d else 55 + d

/-- Function `escape(s, encodePath)` of `net/url`. -/
def escape : GoString → GoString
  | [] => []
  | c :: rest =>
    if shouldEscape c then 37 :: upperhex (c / 16) :: upperhex (c % 16) :: escape rest
    else c :: escape rest

/-- Method `(*URL).EscapedPath` for a URL whose `RawPath` is empty (the client
assigns `Path` only). -/
def URL.EscapedPath (u : URL) : GoString :=
  if u.Path = bytes "*" then bytes "*" else escape u.Path

/-- Method `(*URL).String` for a URL with a scheme and a host and neither user
information, query nor fragment. -/
def URL.String (u : URL) : GoString :=
  let path := u.EscapedPath
  u.Scheme ++ bytes ":" ++ bytes "//" ++ u.Host ++
    (if path ≠ [] ∧ path.head? ≠ some 47 then bytes "/" else []) ++ path

/-! ## encoding/json: values and scanner -/

/-- A parsed JSON value.  Numbers keep their literal, strings are unquoted. -/
inductive Value where
  | null
  | bool (b : Bool)
  | number (lit : GoString)
  | string (s : GoString)
  | array (elems : List Value)
  | object (members : List (GoString × Value))

/-- Function `isSpace` of the scanner. -/
def isSpace (c : Nat) : Bool := c = 32 || c = 9 || c = 13 || c = 10

/-- Skips insignificant white space. -/
def skipSpace : GoString → GoString
  | [] => []
  | c :: rest => if isSpace c then skipSpace rest else c :: rest

/-- Hexadecimal digit test of the scanner (`stateInStringEscU`). -/
def isHex (c : Nat) : Bool :=
  (48 ≤ c && c ≤ 57) || (97 ≤ c && c ≤ 102) || (65 ≤ c && c ≤ 70)

/-- The scanner states inside a string literal. -/
inductive StringState where
  | inString
  | inStringEsc
  | inStringEscU
  | inStringEscU1
  | inStringEscU12
  | inStringEscU123
  deriving DecidableEq, Repr

/-- The step functions `stateInString`, `stateInStringEsc`, `stateInStringEscU`,
`stateInStringEscU1`, `stateInStringEscU12` and `stateInStringEscU123` of the
scanner on a byte other than the closing quote: the next state, `none` for a
syntax error. -/
def stringStep (st : StringState) (c : Nat) : Option StringState :=
  match st with
  | StringState.inString =>
    if c = 92 then some StringState.inStringEsc
    else if c < 32 then none
    else some StringState.inString
  | StringState.inStringEsc =>
    if c = 98 ∨ c = 102 ∨ c = 110 ∨ c = 114 ∨ c = 116 ∨ c = 92 ∨ c = 47 ∨ c = 34 then
      some StringState.inString
    else if c = 117 then some StringState.inStringEscU
    else none
  | StringState.inStringEscU => if isHex c then some StringState.inStringEscU1 else none
  | StringState.inStringEscU1 => if isHex c then some StringState.inStringEscU12 else none
  | StringState.inStringEscU12 => if isHex c then some StringState.inStringEscU123 else none
  | StringState.inStringEscU123 => if isHex c then some StringState.inString else none

/-- The scanner inside a string literal, from state `st`: the raw text up to
the closing quote and the input after it; `none` for a syntax error or a
literal that does not end. -/
def scanStringFrom : StringState → GoString → Option (GoString × GoString)
  | _, [] => none
  | st, c :: rest =>
    if st = StringState.inString ∧ c = 34 then some ([], rest)
    else
      match stringStep st c with
      | none => none
      | some st1 =>
        match scanStringFrom st1 rest with
        | none => none
        | some (raw, r) => some (c :: raw, r)

/-- Reads a string literal after its opening quote and returns the raw text
between the quotes and the input after the closing quote. -/
def scanString (s : GoString) : Option (GoString × GoString) :=
  scanStringFrom StringState.inString s

/-- Decimal digit test. -/
def isDigit (c : Nat) : Bool := 48 ≤ c && c ≤ 57

/-- The longest prefix of decimal digits and the rest. -/
def spanDigits : GoString → GoString × GoString
  | [] => ([], [])
  | c :: rest =>
    if isDigit c then ((spanDigits rest).1.cons c, (spanDigits rest).2) else ([], c :: rest)

/-- Scanner states `stateNeg`, `state0`, `state1`, `stateDot`, `stateDot0`,
`stateE`, `stateESign`, `stateE0`: reads a number literal and returns it with
the input that follows. -/
def scanNumber (s : GoString) : Option (GoString × GoString) :=
  let sign : GoString := if s.head? = some 45 then [45] else []
  let s1 := if s.head? = some 45 then s.tail else s
  match s1 with
  | [] => none
  | c :: r1 =>
    let intPart : Option (GoString × GoString) :=
      if c = 48 then some ([48], r1)
      else if 49 ≤ c ∧ c ≤ 57 then some (c :: (spanDigits r1).1, (spanDigits r1).2)
      else none
    match intPart with
    | none => none
    | some (ip, s2) =>
      let frac : Option (GoString × GoString) :=
        match s2 with
        | 46 :: r2 =>
          if (spanDigits r2).1 = [] then none else some (46 :: (spanDigits r2).1, (spanDigits r2).2)
        | _ => some ([], s2)
      match frac with
      | none => none
      | some (fp, s3) =>
        let exp : Option (GoString × GoString) :=
          match s3 with
          | e :: r3 =>
            if e = 101 ∨ e = 69 then
              let sg : GoString := if r3.head? = some 43 ∨ r3.head? = some 45 then r3.take 1 else []
              let r4 := if r3.head? = some 43 ∨ r3.head? = some 45 then r3.tail else r3
              if (spanDigits r4).1 = [] then none
              else some (e :: sg ++ (spanDigits r4).1, (spanDigits r4).2)
            else some ([], s3)
          | [] => some ([], s3)
        match exp with
        | none => none
        | some (ep, s4) => some (sign ++ ip ++ fp ++ ep, s4)

/-- Value of a hexadecimal digit, `none` for another byte. -/
def hexVal (c : Nat) : Option Nat :=
  if 48 ≤ c ∧ c ≤ 57 then some (c - 48)
  else if 97 ≤ c ∧ c ≤ 102 then some (c - 97 + 10)
  else if 65 ≤ c ∧ c ≤ 70 then some (c - 65 + 10)
  else none

/-- Function `getu4`: the value of a leading `\uXXXX`, `none` for Go's `-1`. -/
def getu4 (s : GoString) : Option Nat :=
  match s with
  | 92 :: 117 :: h1 :: h2 :: h3 :: h4 :: _ =>
    match hexVal h1, hexVal h2, hexVal h3, hexVal h4 with
    | some a, some b, some c, some d => some (((a * 16 + b) * 16 + c) * 16 + d)
    | _, _, _, _ => none
  | _ => none

/-- Function `utf16.IsSurrogate`. -/
def isSurrogate (r : Nat) : Bool := 0xD800 ≤ r && r < 0xE000

/-- Function `utf16.DecodeRune`, with `none` for Go's `-1` as second half. -/
def utf16DecodeRune (r1 : Nat) (r2 : Option Nat) : Nat :=
  match r2 with
  | none => RuneError
  | some r2 =>
    if 0xD800 ≤ r1 ∧ r1 < 0xDC00 ∧ 0xDC00 ≤ r2 ∧ r2 < 0xE000 then
      (r1 - 0xD800) * 1024 + (r2 - 0xDC00) + 0x10000
    else RuneError

/-- One iteration of the rewriting loop of `unquoteBytes` at byte `c` followed
by `rest`: the bytes written and the number of input bytes consumed; `none`
when the function gives up (`ok = false`). -/
def unquoteStep (c : Nat) (rest : GoString) : Option (GoString × Nat) :=
  if c = 92 then
    match rest with
    | [] => none
    | e :: _ =>
      if e = 34 ∨ e = 92 ∨ e = 47 ∨ e = 39 then some ([e], 2)
      else if e = 98 then some ([8], 2)
      else if e = 102 then some ([12], 2)
      else if e = 110 then some ([10], 2)
      else if e = 114 then some ([13], 2)
      else if e = 116 then some ([9], 2)
      else if e = 117 then
        match getu4 (c :: rest) with
        | none => none
        | some rr =>
          if isSurrogate rr then
            let dec := utf16DecodeRune rr (getu4 (rest.drop 5))
            if dec ≠ RuneError then some (encodeRune dec, 12)
            else some (encodeRune RuneError, 6)
          else some (encodeRune rr, 6)
      else none
  else if c = 34 ∨ c < 32 then none
  else if c < RuneSelf then some ([c], 1)
  else some (encodeRune (decodeRune (c :: rest)).1, (decodeRune (c :: rest)).2)

/-- The rewriting loop of `unquoteBytes`, one byte per step; `skip` counts the
input bytes of the current item still to be passed over. -/
def unquoteLoop : Nat → GoString → Option GoString
  | _, [] => some []
  | skip + 1, _ :: rest => unquoteLoop skip rest
  | 0, c :: rest =>
    match unquoteStep c rest with
    | none => none
    | some (out, size) =>
      match unquoteLoop (size - 1) rest with
      | none => none
      | some t => some (out ++ t)

/-- The first loop of `unquoteBytes`: the length of the prefix that needs no
rewriting (no escape, quote or control character, no invalid UTF-8). -/
def plainPrefix : Nat → GoString → Nat
  | _, [] => 0
  | skip + 1, _ :: rest => 1 + plainPrefix skip rest
  | 0, c :: rest =>
    if c = 92 ∨ c = 34 ∨ c < 32 then 0
    else if c < RuneSelf then 1 + plainPrefix 0 rest
    else if (decodeRune (c :: rest)).1 = RuneError ∧ (decodeRune (c :: rest)).2 = 1 then 0
    else 1 + plainPrefix ((decodeRune (c :: rest)).2 - 1) rest

/-- Function `unquoteBytes` on the text between the quotes: the text itself
when nothing needs rewriting, otherwise the plain prefix followed by the
rewritten remainder. -/
def unquoteBytes (s : GoString) : Option GoString :=
  let r := plainPrefix 0 s
  if r = s.length then some s
  else
    match unquoteLoop 0 (s.drop r) with
    | none => none
    | some t => some (s.take r ++ t)

/-- Constant `maxNestingDepth` of the scanner. -/
def maxNestingDepth : Nat := 10000

mutual
/-- Reads one JSON value (scanner state `stateBeginValue`); `depth` is the
number of enclosing arrays and objects, `fuel` bounds the number of nested and
sequential reads (the length of the input suffices). -/
def parseValue : Nat → Nat → GoString → Option (Value × GoString)
  | 0, _, _ => none
  | fuel + 1, depth, s =>
    match skipSpace s with
    | [] => none
    | c :: r =>
      if c = 123 then
        if depth + 1 > maxNestingDepth then none
        else
          match skipSpace r with
          | 125 :: r1 => some (Value.object [], r1)
          | _ =>
            match parseMembers fuel (depth + 1) r with
            | none => none
            | some (ms, r1) => some (Value.object ms, r1)
      else if c = 91 then
        if depth + 1 > maxNestingDepth then none
        else
          match skipSpace r with
          | 93 :: r1 => some (Value.array [], r1)
          | _ =>
            match parseElements fuel (depth + 1) r with
            | none => none
            | some (vs, r1) => some (Value.array vs, r1)
      else if c = 34 then
        match scanString r with
        | none => none
        | some (raw, r1) =>
          match unquoteBytes raw with
          | none => none
          | some t => some (Value.string t, r1)
      else if c = 45 ∨ (48 ≤ c ∧ c ≤ 57) then
        match scanNumber (c :: r) with
        | none => none
        | some (lit, r1) => some (Value.number lit, r1)
      else if (c :: r).take 4 = [116, 114, 117, 101] then some (Value.bool true, r.drop 3)
      else if (c :: r).take 5 = [102, 97, 108, 115, 101] then some (Value.bool false, r.drop 4)
      else if (c :: r).take 4 = [110, 117, 108, 108] then some (Value.null, r.drop 3)
      else none
/-- Reads the members of an object from the position of a key up to and
including the closing brace. -/
def parseMembers : Nat → Nat → GoString → Option (List (GoString × Value) × GoString)
  | 0, _, _ => none
  | fuel + 1, depth, s =>
    match skipSpace s with
    | 34 :: r =>
      match scanString r with
      | none => none
      | some (raw, r1) =>
        match unquoteBytes raw with
        | none => none
        | some key =>
          match skipSpace r1 with
          | 58 :: r2 =>
            match parseValue fuel depth r2 with
            | none => none
            | some (v, r3) =>
              match skipSpace r3 with
              | 44 :: r4 =>
                match parseMembers fuel depth r4 with
                | none => none
                | some (ms, r5) => some ((key, v) :: ms, r5)
              | 125 :: r4 => some ([(key, v)], r4)
              | _ => none
          | _ => none
    | _ => none
/-- Reads the elements of an array from the position of an element up to and
including the closing bracket. -/
def parseElements : Nat → Nat → GoString → Option (List Value × GoString)
  | 0, _, _ => none
  | fuel + 1, depth, s =>
    match parseValue fuel depth s with
    | none => none
    | some (v, r1) =>
      match skipSpace r1 with
      | 44 :: r2 =>
        match parseElements fuel depth r2 with
        | none => none
        | some (vs, r3) => some (v :: vs, r3)
      | 93 :: r2 => some ([v], r2)
      | _ => none
end

/-- Function `checkValid` together with the value it delimits: the input is one
JSON value surrounded by optional white space; `none` is a `SyntaxError`. -/
def parseJSON (data : GoString) : Option Value :=
  match parseValue (data.length + 1) 0 data with
  | none => none
  | some (v, rest) => if skipSpace rest = [] then some v else none

/-! ## encoding/json: encoder -/

/-- The table `hex` of the encoder, for a value below 16. -/
def hexDigit (d : Nat) : Nat := if d < 10 then 48 + d else 87 + d

/-- The table `htmlSafeSet`: the ASCII bytes written without escaping when
HTML escaping is on (the default of `json.Marshal`). -/
def htmlSafe (b : Nat) : Bool :=
  32 ≤ b && b < 128 && b ≠ 34 && b ≠ 92 && b ≠ 60 && b ≠ 62 && b ≠ 38

/-- How `appendString` writes a byte that is not part of a valid UTF-8 sequence.
The documentation of `json.Marshal` says that such bytes are replaced by the
Unicode replacement rune U+FFFD and does not say how the rune is written: as
the escape `\ufffd` or as its three bytes.  The encoder is modelled for either
form; on valid UTF-8 the two agree. -/
inductive Replacement where
  | escape
  | rune
  deriving DecidableEq, Repr

/-- The bytes written in place of an invalid byte. -/
def Replacement.text : Replacement → GoString
  | Replacement.escape => bytes "\\ufffd"
  | Replacement.rune => [0xEF, 0xBF, 0xBD]

/-- One iteration of the loop of `appendString` at byte `b` followed by `rest`:
the bytes written for the item and the number of input bytes consumed. -/
def appendStringStep (rep : Replacement) (b : Nat) (rest : GoString) : GoString × Nat :=
  if b < RuneSelf then
    if htmlSafe b then ([b], 1)
    else if b = 92 ∨ b = 34 then ([92, b], 1)
    else if b = 8 then ([92, 98], 1)
    else if b = 12 then ([92, 102], 1)
    else if b = 10 then ([92, 110], 1)
    else if b = 13 then ([92, 114], 1)
    else if b = 9 then ([92, 116], 1)
    else ([92, 117, 48, 48, hexDigit (b / 16), hexDigit (b % 16)], 1)
  else
    let d := decodeRune ((b :: rest).take 4)
    if d.1 = RuneError ∧ d.2 = 1 then (rep.text, 1)
    else if d.1 = 0x2028 ∨ d.1 = 0x2029 then ([92, 117, 50, 48, 50, hexDigit (d.1 % 16)], d.2)
    else ((b :: rest).take d.2, d.2)

/-- The loop of `appendString`, one byte per step; `skip` counts the input
bytes of the current rune still to be passed over. -/
def appendStringLoop (rep : Replacement) : Nat → GoString → GoString
  | _, [] => []
  | skip + 1, _ :: rest => appendStringLoop rep skip rest
  | 0, b :: rest =>
    (appendStringStep rep b rest).1 ++
      appendStringLoop rep ((appendStringStep rep b rest).2 - 1) rest

/-- Function `appendString(dst, src, escapeHTML = true)`: the JSON string
literal for `src`. -/
def appendString (rep : Replacement) (src : GoString) : GoString :=
  34 :: (appendStringLoop rep 0 src ++ [34])

/-- The field loop of `structEncoder.encode`.  A field is its JSON name and,
unless it is omitted (`omitempty` on an empty value), its encoded value;
`next` is the separator to write before the next field. -/
def encodeFields : Nat → List (GoString × Option GoString) → GoString
  | next, [] => if next = 123 then bytes "\x7b\x7d" else [125]
  | next, (_, none) :: fs => encodeFields next fs
  | next, (name, some v) :: fs =>
    next :: (34 :: name ++ [34, 58]) ++ v ++ encodeFields 44 fs

/-- Method `structEncoder.encode`. -/
def encodeStruct (fields : List (GoString × Option GoString)) : GoString :=
  encodeFields 123 fields

/-- Encoder of a bool. -/
def encodeBool (b : Bool) : GoString := if b then bytes "true" else bytes "false"

/-! ## encoding/json: decoder -/

/-- Function `foldRune` restricted to what a comparison with an ASCII name can
observe: the two runes outside ASCII whose simple-fold orbit contains an ASCII
letter (U+017F with `S`, U+212A with `K`) go to that letter, every other rune
outside ASCII stays outside ASCII. -/
def foldRune (r : Nat) : Nat := if r = 0x17F then 83 else if r = 0x212A then 75 else r

/-- One iteration of `appendFoldedName`. -/
def foldNameStep (c : Nat) (rest : GoString) : GoString × Nat :=
  if c < RuneSelf then ([if 97 ≤ c ∧ c ≤ 122 then c - 32 else c], 1)
  else (encodeRune (foldRune (decodeRune (c :: rest)).1), (decodeRune (c :: rest)).2)

/-- The loop of `appendFoldedName`, one byte per step. -/
def foldNameLoop : Nat → GoString → GoString
  | _, [] => []
  | skip + 1, _ :: rest => foldNameLoop skip rest
  | 0, c :: rest => (foldNameStep c rest).1 ++ foldNameLoop ((foldNameStep c rest).2 - 1) rest

/-- Function `foldName`: the key used for case-insensitive field lookup. -/
def foldName (s : GoString) : GoString := foldNameLoop 0 s

/-- A field of a struct type as the decoder sees it: its JSON name and how a
JSON value is stored into it (`none` is an `UnmarshalTypeError`). -/
structure Field (S : Type) where
  name : GoString
  store : Value → S → Option S

/-- Field lookup of `decodeState.object`: exact name first (`byExactName`),
then the first field with the same folded name (`byFoldedName`). -/
def findField {S : Type} (fields : List (Field S)) (key : GoString) : Option (Field S) :=
  match fields.find? (fun f => f.name = key) with
  | some f => some f
  | none => fields.find? (fun f => foldName f.name = foldName key)

/-- The member loop of `decodeState.object` into a struct: members are stored
in input order, a member without field is skipped, the first type error is the
error of the whole decoding. -/
def decodeObject {S : Type} (fields : List (Field S)) : List (GoString × Value) → S → Option S
  | [], st => some st
  | (key, v) :: ms, st =>
    match findField fields key with
    | none => decodeObject fields ms st
    | some f =>
      match f.store v st with
      | none => none
      | some st1 => decodeObject fields ms st1

/-- Decoding of a JSON value into a struct: `null` leaves the struct as it is,
an object is decoded member by member, anything else is a type error. -/
def decodeStruct {S : Type} (fields : List (Field S)) (v : Value) (st : S) : Option S :=
  match v with
  | Value.null => some st
  | Value.object ms => decodeObject fields ms st
  | _ => none

/-- Method `literalStore` into a `string` field. -/
def storeString {S : Type} (set : GoString → S → S) (v : Value) (st : S) : Option S :=
  match v with
  | Value.null => some st
  | Value.string s => some (set s st)
  | _ => none

/-- Method `literalStore` into a `bool` field. -/
def storeBool {S : Type} (set : Bool → S → S) (v : Value) (st : S) : Option S :=
  match v with
  | Value.null => some st
  | Value.bool b => some (set b st)
  | _ => none

/-- Storing into a pointer field of a scalar type: `null` sets the pointer to
nil, a value of the right kind is stored behind a (fresh or existing) pointer. -/
def storePtr {S α : Type} (conv : Value → Option α) (set : Option α → S → S)
    (v : Value) (st : S) : Option S :=
  match v with
  | Value.null => some (set none st)
  | _ =>
    match conv v with
    | none => none
    | some a => some (set (some a) st)

/-- A JSON number stored into an `int64`. -/
def asInt64 : Value → Option Int
  | Value.number lit => parseInt lit
  | _ => none

/-- A JSON number stored into a `uint`. -/
def asUint : Value → Option Nat
  | Value.number lit => parseUint lit
  | _ => none

/-- A JSON literal stored into a `bool`. -/
def asBool : Value → Option Bool
  | Value.bool b => some b
  | _ => none

/-- A JSON string stored into a `string`. -/
def asString : Value → Option GoString
  | Value.string s => some s
  | _ => none

/-- The errors the client can return. -/
inductive Error where
  | invalidMethod (method : GoString)
  | transport (msg : GoString)
  | read (msg : GoString)
  | syntaxError
  | unmarshalTypeError
  | errorf (msg : GoString)
  deriving DecidableEq, Repr

/-- Function `json.Unmarshal(data, &v)` for a struct `v` holding `zero`: the
decoded struct, or the error. -/
def Unmarshal {S : Type} (fields : List (Field S)) (zero : S) (data : GoString) : Except Error S :=
  match parseJSON data with
  | none => Except.error Error.syntaxError
  | some v =>
    match decodeStruct fields v zero with
    | none => Except.error Error.unmarshalTypeError
    | some st => Except.ok st

/-! ## The types of `client.go` -/

/-- The client: it holds the bearer token. -/
structure Client where
  AuthorizationToken : GoString
  deriving DecidableEq, Repr

/-- The error envelope of the API. -/
structure ErrorResponse where
  Error : GoString := []
  Info : GoString := []
  deriving DecidableEq, Repr

/-- Field `Error string` with tag `json:"error"`. -/
def ErrorResponse.errorField : Field ErrorResponse :=
  ⟨bytes "error", storeString (fun v p => { p with Error := v })⟩

/-- Field `Info string` with tag `json:"info"`. -/
def ErrorResponse.infoField : Field ErrorResponse :=
  ⟨bytes "info", storeString (fun v p => { p with Info := v })⟩

/-- The fields of `ErrorResponse` as the decoder sees them. -/
def ErrorResponse.fields : List (Field ErrorResponse) :=
  [ErrorResponse.errorField, ErrorResponse.infoField]

/-- Room properties: every field is a pointer, `none` is the nil pointer. -/
structure RoomProperties where
  Nbf : Option Int := none
  Exp : Option Int := none
  MaxParticipants : Option Nat := none
  Autojoin : Option Bool := none
  EnableKnocking : Option Bool := none
  EnableScreenshare : Option Bool := none
  EnableChat : Option Bool := none
  StartVideoOff : Option Bool := none
  StartAudioOff : Option Bool := none
  OwnerOnlyBroadcast : Option Bool := none
  EnableRecording : Option GoString := none
  EjectAtRoomExp : Option Bool := none
  EjectAfterElapsed : Option Nat := none
  Lang : Option GoString := none
  deriving DecidableEq, Repr

/-- The fields of `RoomProperties` in declaration order with their JSON names; every
field is tagged `omitempty`, so a nil pointer is omitted. -/
def RoomProperties.encodeList (rep : Replacement) (p : RoomProperties) : List (GoString × Option GoString) :=
  [(bytes "nbf", p.Nbf.map formatInt),
   (bytes "exp", p.Exp.map formatInt),
   (bytes "max_participants", p.MaxParticipants.map formatUint),
   (bytes "autojoin", p.Autojoin.map encodeBool),
   (bytes "enable_knocking", p.EnableKnocking.map encodeBool),
   (bytes "enable_screenshare", p.EnableScreenshare.map encodeBool),
   (bytes "enable_chat", p.EnableChat.map encodeBool),
   (bytes "start_video_off", p.StartVideoOff.map encodeBool),
   (bytes "start_audio_off", p.StartAudioOff.map encodeBool),
   (bytes "owner_only_broadcast", p.OwnerOnlyBroadcast.map encodeBool),
   (bytes "enable_recording", p.EnableRecording.map (appendString rep)),
   (bytes "eject_at_room_exp", p.EjectAtRoomExp.map encodeBool),
   (bytes "eject_after_elapsed", p.EjectAfterElapsed.map formatUint),
   (bytes "lang", p.Lang.map (appendString rep))]

/-- Encoding of a `RoomProperties` by `json.Marshal`. -/
def RoomProperties.encode (rep : Replacement) (p : RoomProperties) : GoString :=
  encodeStruct (p.encodeList rep)

/-- The fields of `RoomProperties` as the decoder sees them. -/
def RoomProperties.fields : List (Field RoomProperties) :=
  [⟨bytes "nbf", storePtr asInt64 (fun v p => { p with Nbf := v })⟩,
   ⟨bytes "exp", storePtr asInt64 (fun v p => { p with Exp := v })⟩,
   ⟨bytes "max_participants", storePtr asUint (fun v p => { p with MaxParticipants := v })⟩,
   ⟨bytes "autojoin", storePtr asBool (fun v p => { p with Autojoin := v })⟩,
   ⟨bytes "enable_knocking", storePtr asBool (fun v p => { p with EnableKnocking := v })⟩,
   ⟨bytes "enable_screenshare", storePtr asBool (fun v p => { p with EnableScreenshare := v })⟩,
   ⟨bytes "enable_chat", storePtr asBool (fun v p => { p with EnableChat := v })⟩,
   ⟨bytes "start_video_off", storePtr asBool (fun v p => { p with StartVideoOff := v })⟩,
   ⟨bytes "start_audio_off", storePtr asBool (fun v p => { p with StartAudioOff := v })⟩,
   ⟨bytes "owner_only_broadcast", storePtr asBool (fun v p => { p with OwnerOnlyBroadcast := v })⟩,
   ⟨bytes "enable_recording", storePtr asString (fun v p => { p with EnableRecording := v })⟩,
   ⟨bytes "eject_at_room_exp", storePtr asBool (fun v p => { p with EjectAtRoomExp := v })⟩,
   ⟨bytes "eject_after_elapsed", storePtr asUint (fun v p => { p with EjectAfterElapsed := v })⟩,
   ⟨bytes "lang", storePtr asString (fun v p => { p with Lang := v })⟩]

/-- The body of a room creation request. -/
structure createRoomRequest where
  Name : GoString
  Privacy : GoString
  Properties : Option RoomProperties
  deriving DecidableEq, Repr

/-- Encoding of a `createRoomRequest` by `json.Marshal`: `name` and `privacy`
are always written, `properties` is tagged `omitempty`. -/
def createRoomRequest.encode (rep : Replacement) (r : createRoomRequest) : GoString :=
  encodeStruct
    [(bytes "name", some (appendString rep r.Name)),
     (bytes "privacy", some (appendString rep r.Privacy)),
     (bytes "properties", r.Properties.map (RoomProperties.encode rep))]

/-- The response to a room creation. -/
structure RoomResponse where
  Id : GoString := []
  Name : GoString := []
  ApiCreated : Bool := false
  Privacy : GoString := []
  Url : GoString := []
  CreatedAt : GoString := []
  Config : Option RoomProperties := none
  deriving DecidableEq, Repr

/-- Storing into the field `Config *RoomProperties`: `null` sets the pointer to
nil, an object is decoded into the struct behind the pointer (a fresh one when
the pointer is nil), anything else is a type error. -/
def storeConfig (v : Value) (st : RoomResponse) : Option RoomResponse :=
  match v with
  | Value.null => some { st with Config := none }
  | _ =>
    match decodeStruct RoomProperties.fields v (st.Config.getD {}) with
    | none => none
    | some p => some { st with Config := some p }

/-- The fields of `RoomResponse` as the decoder sees them. -/
def RoomResponse.fields : List (Field RoomResponse) :=
  [⟨bytes "id", storeString (fun v p => { p with Id := v })⟩,
   ⟨bytes "name", storeString (fun v p => { p with Name := v })⟩,
   ⟨bytes "api_created", storeBool (fun v p => { p with ApiCreated := v })⟩,
   ⟨bytes "privacy", storeString (fun v p => { p with Privacy := v })⟩,
   ⟨bytes "url", storeString (fun v p => { p with Url := v })⟩,
   ⟨bytes "created_at", storeString (fun v p => { p with CreatedAt := v })⟩,
   ⟨bytes "config", storeConfig⟩]

/-- Meeting token properties: every field is a pointer, `none` is the nil pointer. -/
structure MeetingTokenProperties where
  Nbf : Option Int := none
  Exp : Option Int := none
  RoomName : Option GoString := none
  IsOwner : Option Bool := none
  UserName : Option GoString := none
  UserId : Option GoString := none
  EnableScreenshare : Option Bool := none
  StartVideoOff : Option Bool := none
  StartAudioOff : Option Bool := none
  EnableRecording : Option GoString := none
  StartCloudRecording : Option Bool := none
  CloseTabOnExit : Option Bool := none
  EjectAtTokenExp : Option Bool := none
  EjectAfterElapsed : Option GoString := none
  Lang : Option GoString := none
  deriving DecidableEq, Repr

/-- The fields of `MeetingTokenProperties` in declaration order with their JSON names; every
field is tagged `omitempty`, so a nil pointer is omitted. -/
def MeetingTokenProperties.encodeList (rep : Replacement) (p : MeetingTokenProperties) : List (GoString × Option GoString) :=
  [(bytes "nbf", p.Nbf.map formatInt),
   (bytes "exp", p.Exp.map formatInt),
   (bytes "room_name", p.RoomName.map (appendString rep)),
   (bytes "is_owner", p.IsOwner.map encodeBool),
   (bytes "user_name", p.UserName.map (appendString rep)),
   (bytes "user_id", p.UserId.map (appendString rep)),
   (bytes "enable_screenshare", p.EnableScreenshare.map encodeBool),
   (bytes "start_video_off", p.StartVideoOff.map encodeBool),
   (bytes "start_audio_off", p.StartAudioOff.map encodeBool),
   (bytes "enable_recording", p.EnableRecording.map (appendString rep)),
   (bytes "start_cloud_recording", p.StartCloudRecording.map encodeBool),
   (bytes "close_tab_on_exit", p.CloseTabOnExit.map encodeBool),
   (bytes "eject_at_token_exp", p.EjectAtTokenExp.map encodeBool),
   (bytes "eject_after_elapsed", p.EjectAfterElapsed.map (appendString rep)),
   (bytes "lang", p.Lang.map (appendString rep))]

/-- Encoding of a `MeetingTokenProperties` by `json.Marshal`. -/
def MeetingTokenProperties.encode (rep : Replacement) (p : MeetingTokenProperties) : GoString :=
  encodeStruct (p.encodeList rep)

/-- The fields of `MeetingTokenProperties` as the decoder sees them. -/
def MeetingTokenProperties.fields : List (Field MeetingTokenProperties) :=
  [⟨bytes "nbf", storePtr asInt64 (fun v p => { p with Nbf := v })⟩,
   ⟨bytes "exp", storePtr asInt64 (fun v p => { p with Exp := v })⟩,
   ⟨bytes "room_name", storePtr asString (fun v p => { p with RoomName := v })⟩,
   ⟨bytes "is_owner", storePtr asBool (fun v p => { p with IsOwner := v })⟩,
   ⟨bytes "user_name", storePtr asString (fun v p => { p with UserName := v })⟩,
   ⟨bytes "user_id", storePtr asString (fun v p => { p with UserId := v })⟩,
   ⟨bytes "enable_screenshare", storePtr asBool (fun v p => { p with EnableScreenshare := v })⟩,
   ⟨bytes "start_video_off", storePtr asBool (fun v p => { p with StartVideoOff := v })⟩,
   ⟨bytes "start_audio_off", storePtr asBool (fun v p => { p with StartAudioOff := v })⟩,
   ⟨bytes "enable_recording", storePtr asString (fun v p => { p with EnableRecording := v })⟩,
   ⟨bytes "start_cloud_recording", storePtr asBool (fun v p => { p with StartCloudRecording := v })⟩,
   ⟨bytes "close_tab_on_exit", storePtr asBool (fun v p => { p with CloseTabOnExit := v })⟩,
   ⟨bytes "eject_at_token_exp", storePtr asBool (fun v p => { p with EjectAtTokenExp := v })⟩,
   ⟨bytes "eject_after_elapsed", storePtr asString (fun v p => { p with EjectAfterElapsed := v })⟩,
   ⟨bytes "lang", storePtr asString (fun v p => { p with Lang := v })⟩]

/-- The body of a meeting token request. -/
structure createMeetingTokenRequest where
  Properties : Option MeetingTokenProperties
  deriving DecidableEq, Repr

/-- Encoding of a `createMeetingTokenRequest` by `json.Marshal`. -/
def createMeetingTokenRequest.encode (rep : Replacement) (r : createMeetingTokenRequest) :
    GoString :=
  encodeStruct [(bytes "properties", r.Properties.map (MeetingTokenProperties.encode rep))]

/-- The response to a meeting token request. -/
structure MeetingTokenResponse where
  Token : GoString := []
  deriving DecidableEq, Repr

/-- Field `Token string` with tag `json:"token"`. -/
def MeetingTokenResponse.tokenField : Field MeetingTokenResponse :=
  ⟨bytes "token", storeString (fun v _ => { Token := v })⟩

/-- The fields of `MeetingTokenResponse` as the decoder sees them. -/
def MeetingTokenResponse.fields : List (Field MeetingTokenResponse) :=
  [MeetingTokenResponse.tokenField]

/-- The response to a room deletion. -/
structure deleteMeetingResponse where
  Deleted : Bool := false
  Name : GoString := []
  deriving DecidableEq, Repr

/-- The fields of `deleteMeetingResponse` as the decoder sees them. -/
def deleteMeetingResponse.fields : List (Field deleteMeetingResponse) :=
  [⟨bytes "deleted", storeBool (fun v p => { p with Deleted := v })⟩,
   ⟨bytes "name", storeString (fun v p => { p with Name := v })⟩]

/-- The values the operations pass as `body interface{}`: a non-nil pointer to
one of the two request structs (`nil` is `none` at the call site). -/
inductive RequestBody where
  | createRoom (r : createRoomRequest)
  | createMeetingToken (r : createMeetingTokenRequest)
  deriving DecidableEq, Repr

/-- Function `json.Marshal` on a request body.  It cannot fail on these types
(strings, booleans, integers and pointers to them). -/
def Marshal (rep : Replacement) : RequestBody → GoString
  | RequestBody.createRoom r => r.encode rep
  | RequestBody.createMeetingToken r => r.encode rep

/-! ## net/http -/

/-- An outgoing request as built by `http.NewRequest` and `Header.Set`. -/
structure Request where
  Method : GoString
  URL : GoString
  Header : List (GoString × GoString)
  Body : GoString
  deriving DecidableEq, Repr

/-- What the server answered: the status code, the bytes `ioutil.ReadAll`
returns for the body and its error, if any. -/
structure Response where
  StatusCode : Nat
  Body : GoString
  ReadErr : Option GoString := none
  deriving DecidableEq, Repr

/-- The outcome of `client.Do`. -/
inductive DoResult where
  | failed (msg : GoString)
  | response (resp : Response)
  deriving DecidableEq, Repr

/-- The HTTP client with the network and the server behind it. -/
abbrev HTTPClient := Request → DoResult

/-- Token characters of RFC 7230 (`httpguts.IsTokenRune`). -/
def isTokenByte (c : Nat) : Bool :=
  (97 ≤ c && c ≤ 122) || (65 ≤ c && c ≤ 90) || (48 ≤ c && c ≤ 57) ||
  c = 33 || c = 35 || c = 36 || c = 37 || c = 38 || c = 39 || c = 42 || c = 43 ||
  c = 45 || c = 46 || c = 94 || c = 95 || c = 96 || c = 124 || c = 126

/-- Function `validMethod` of `net/http`. -/
def validMethod (method : GoString) : Bool := method ≠ [] && method.all isTokenByte

/-- Function `http.NewRequest(method, url, body)` for a URL that parses (the
output of `URL.String` does): an empty method means `GET`, a method that is
not a token is refused. -/
def NewRequest (method url body : GoString) : Except Error Request :=
  let m := if method = [] then bytes "GET" else method
  if !validMethod m then Except.error (Error.invalidMethod m)
  else Except.ok { Method := m, URL := url, Header := [], Body := body }

/-- Loop of `textproto.CanonicalMIMEHeaderKey`. -/
def canonicalLoop : Bool → GoString → GoString
  | _, [] => []
  | upper, c :: rest =>
    let c1 := if upper ∧ 97 ≤ c ∧ c ≤ 122 then c - 32
      else if !upper ∧ 65 ≤ c ∧ c ≤ 90 then c + 32 else c
    c1 :: canonicalLoop (c1 = 45) rest

/-- Function `textproto.CanonicalMIMEHeaderKey`. -/
def CanonicalMIMEHeaderKey (key : GoString) : GoString :=
  if key.all isTokenByte then canonicalLoop true key else key

/-- Method `Header.Set`. -/
def Request.setHeader (req : Request) (key value : GoString) : Request :=
  let k := CanonicalMIMEHeaderKey key
  { req with Header := req.Header.filter (fun kv => kv.1 ≠ k) ++ [(k, value)] }

/-! ## The client -/

/-- Constant `DAILYCO_API_ROOT`. -/
def DAILYCO_API_ROOT : GoString := bytes "https://api.daily.co/v1/"

/-- Constant `DAILYCO_ROOMS_FRAGMENT`. -/
def DAILYCO_ROOMS_FRAGMENT : GoString := bytes "/rooms"

/-- Constant `DAILYCO_ROOM_FRAGMENT`. -/
def DAILYCO_ROOM_FRAGMENT : GoString := bytes "/rooms/%s"

/-- Constant `DAILYCO_MEETING_TOKENS_FRAGMENT`. -/
def DAILYCO_MEETING_TOKENS_FRAGMENT : GoString := bytes "/meeting-tokens"

/-- The value of `url.Parse(DAILYCO_API_ROOT)`; the constant parses, so `uErr`
is nil. -/
def apiRoot : URL := { Scheme := bytes "https", Host := bytes "api.daily.co", Path := bytes "/v1/" }

/-- What an operation did and returned: the requests handed to `client.Do`, in
order, and the Go result pair. -/
structure Result (α : Type) where
  sent : List Request
  value : α
  err : Option Error

/-- Method `(*Client).call`; `rep` is the form in which the JSON library of
the installation writes invalid bytes. -/
def Client.call (rep : Replacement) (c : Client) (client : HTTPClient) (fragment verb : GoString)
    (body : Option RequestBody) : Result (Option GoString) :=
  -- Prepare URL
  let u : URL := { apiRoot with Path := Join [apiRoot.Path, fragment] }
  -- Prepare Body
  let requestJson : GoString :=
    match body with
    | none => bytes ""
    | some b => Marshal rep b
  -- Setup Request
  match NewRequest verb u.String requestJson with
  | Except.error reqErr => ⟨[], none, some reqErr⟩
  | Except.ok req0 =>
    let req := (req0.setHeader (bytes "authorization")
      (Sprintf (bytes "Bearer %s") [c.AuthorizationToken])).setHeader
      (bytes "Content-Type") (bytes "application/json")
    -- Send Request
    match client req with
    | DoResult.failed cErr => ⟨[req], none, some (Error.transport cErr)⟩
    | DoResult.response resp =>
      -- Read Response
      match resp.ReadErr with
      | some readErr => ⟨[req], none, some (Error.read readErr)⟩
      | none =>
        let rawBody := resp.Body
        match Unmarshal ErrorResponse.fields {} rawBody with
        | Except.error unErr => ⟨[req], none, some unErr⟩
        | Except.ok errorResponse =>
          if errorResponse.Error ≠ bytes "" then
            ⟨[req], none,
              some (Error.errorf (Sprintf (bytes "%s: %s") [errorResponse.Error, errorResponse.Info]))⟩
          else ⟨[req], some rawBody, none⟩

/-- Method `(*Client).CreateRoom`. -/
def Client.CreateRoom (rep : Replacement) (c : Client) (client : HTTPClient) (name privacy : GoString)
    (properties : Option RoomProperties) : Result (Option RoomResponse) :=
  let requestBody : createRoomRequest :=
    { Name := name, Privacy := privacy, Properties := properties }
  let r := c.call rep client DAILYCO_ROOMS_FRAGMENT (bytes "POST") (some (RequestBody.createRoom requestBody))
  match r.err with
  | some err => ⟨r.sent, none, some err⟩
  | none =>
    match Unmarshal RoomResponse.fields {} (r.value.getD []) with
    | Except.error uErr => ⟨r.sent, none, some uErr⟩
    | Except.ok roomResponse => ⟨r.sent, some roomResponse, none⟩

/-- Method `(*Client).DeleteRoom`. -/
def Client.DeleteRoom (rep : Replacement) (c : Client) (client : HTTPClient)
    (roomName : GoString) : Result Bool :=
  let urlFragment := Sprintf DAILYCO_ROOM_FRAGMENT [roomName]
  let r := c.call rep client urlFragment (bytes "DELETE") none
  match r.err with
  | some err => ⟨r.sent, false, some err⟩
  | none =>
    match Unmarshal deleteMeetingResponse.fields {} (r.value.getD []) with
    | Except.error uErr => ⟨r.sent, false, some uErr⟩
    | Except.ok response => ⟨r.sent, response.Deleted, none⟩

/-- Method `(*Client).CreateMeetingToken`. -/
def Client.CreateMeetingToken (rep : Replacement) (c : Client) (client : HTTPClient)
    (properties : Option MeetingTokenProperties) : Result (Option MeetingTokenResponse) :=
  let requestBody : createMeetingTokenRequest := { Properties := properties }
  let r := c.call rep client DAILYCO_MEETING_TOKENS_FRAGMENT (bytes "POST")
    (some (RequestBody.createMeetingToken requestBody))
  match r.err with
  | some err => ⟨r.sent, none, some err⟩
  | none =>
    match Unmarshal MeetingTokenResponse.fields {} (r.value.getD []) with
    | Except.error uErr => ⟨r.sent, none, some uErr⟩
    | Except.ok tokenResponse => ⟨r.sent, some tokenResponse, none⟩


/-! ## Notions used in the statements -/

/-- A server that answers every request with the same body, fully read, under
a status code that may depend on the request. -/
def fixedBody (status : Request → Nat) (body : GoString) : HTTPClient :=
  fun req => DoResult.response { StatusCode := status req, Body := body, ReadErr := none }

/-- The client `client` with the status code of every response replaced by
`f` of it; bodies and failures are untouched. -/
def withStatus (f : Nat → Nat) (client : HTTPClient) : HTTPClient :=
  fun req =>
    match client req with
    | DoResult.failed msg => DoResult.failed msg
    | DoResult.response resp => DoResult.response { resp with StatusCode := f resp.StatusCode }

/-- The effect of one path element on the stack of elements kept so far, for a
rooted path: an empty element and `.` are dropped, `..` removes the last
element kept (none at the root), any other element is kept. -/
def cleanSegment (stack : List GoString) (seg : GoString) : List GoString :=
  if seg = [] ∨ seg = [46] then stack
  else if seg = [46, 46] then stack.dropLast
  else stack ++ [seg]

/-- The rooted path made of the given elements: `/` followed by the elements
separated by `/`. -/
def rootedPath (stack : List GoString) : GoString := 47 :: [47].intercalate stack

/-- A path element that `path.Clean` keeps as it is: not empty, not `.`, not
`..`. -/
def plainSegment (seg : GoString) : Prop := seg ≠ [] ∧ seg ≠ bytes "." ∧ seg ≠ bytes ".."

/-- Elements kept on the stack are not empty and contain no slash. -/
def goodStack (stack : List GoString) : Prop := ∀ s ∈ stack, s ≠ [] ∧ (47 : Nat) ∉ s

/-- What follows a value inside an object: `,` or the closing brace. -/
def endsValue (tail : GoString) : Prop := tail.head? = some 44 ∨ tail.head? = some 125

/-- The shape of a well-formed multi-byte UTF-8 sequence at the head of `p`,
with the rune it encodes and its length. -/
def wellFormedAt (p : GoString) (r n : Nat) : Prop :=
  (∃ b0 b1 t, p = b0 :: b1 :: t ∧ 0xC2 ≤ b0 ∧ b0 ≤ 0xDF ∧ 0x80 ≤ b1 ∧ b1 ≤ 0xBF ∧
    r = (b0 % 32) * 64 + b1 % 64 ∧ n = 2) ∨
  (∃ b0 b1 b2 t, p = b0 :: b1 :: b2 :: t ∧ 0xE0 ≤ b0 ∧ b0 ≤ 0xEF ∧ 0x80 ≤ b1 ∧ b1 ≤ 0xBF ∧
    (b0 = 0xE0 → 0xA0 ≤ b1) ∧ (b0 = 0xED → b1 ≤ 0x9F) ∧ 0x80 ≤ b2 ∧ b2 ≤ 0xBF ∧
    r = (b0 % 16) * 4096 + (b1 % 64) * 64 + b2 % 64 ∧ n = 3) ∨
  (∃ b0 b1 b2 b3 t, p = b0 :: b1 :: b2 :: b3 :: t ∧ 0xF0 ≤ b0 ∧ b0 ≤ 0xF4 ∧ 0x80 ≤ b1 ∧ b1 ≤ 0xBF ∧
    (b0 = 0xF0 → 0x90 ≤ b1) ∧ (b0 = 0xF4 → b1 ≤ 0x8F) ∧ 0x80 ≤ b2 ∧ b2 ≤ 0xBF ∧
    0x80 ≤ b3 ∧ b3 ≤ 0xBF ∧
    r = (b0 % 8) * 262144 + (b1 % 64) * 4096 + (b2 % 64) * 64 + b3 % 64 ∧ n = 4)

/-- A piece of string-literal text that the scanner passes over as a whole. -/
def scanChunk (out : GoString) : Prop :=
  ∀ Z, scanString (out ++ Z) = (scanString Z).map (fun p => (out ++ p.1, p.2))

/-- A piece of string-literal text that `unquoteBytes` rewrites to `u`. -/
def unquoteChunk (out u : GoString) : Prop :=
  ∀ Z, unquoteLoop 0 (out ++ Z) = (unquoteLoop 0 Z).map (fun t => u ++ t)

/-- The loop of `coerceUTF8`, one byte per step. -/
def coerceLoop : Nat → GoString → GoString
  | _, [] => []
  | skip + 1, _ :: rest => coerceLoop skip rest
  | 0, b :: rest =>
    if (decodeRune (b :: rest)).1 = RuneError ∧ (decodeRune (b :: rest)).2 = 1 then
      [0xEF, 0xBF, 0xBD] ++ coerceLoop 0 rest
    else (b :: rest).take (decodeRune (b :: rest)).2 ++ coerceLoop ((decodeRune (b :: rest)).2 - 1) rest

/-- The string with every byte that does not start a well-formed UTF-8 sequence
replaced by the encoding of U+FFFD. -/
def coerceUTF8 (s : GoString) : GoString := coerceLoop 0 s

/-- A struct field as the encoder writes it and the decoder reads it: the JSON
name and, unless the field is omitted, the encoded value with the JSON value it
stands for. -/
abbrev WrittenField := GoString × Option (GoString × Value)

/-- The input of the field loop of the encoder for the given fields. -/
def writtenEncoding (fs : List WrittenField) : List (GoString × Option GoString) :=
  fs.map (fun f => (f.1, f.2.map Prod.fst))

/-- The members of the object the fields stand for: the fields that are not
omitted, in order. -/
def writtenMembers (fs : List WrittenField) : List (GoString × Value) :=
  fs.filterMap (fun f => f.2.map (fun ev => (f.1, ev.2)))

/-- The text `e` is read by the parser as the value `v`, whatever follows it
inside an object, given fuel for its length and room for `h` levels of
nesting. -/
def valueReadsBack (h : Nat) (e : GoString) (v : Value) : Prop :=
  ∀ fuel depth tail, e.length ≤ fuel → depth + h ≤ maxNestingDepth → endsValue tail →
    parseValue fuel depth (e ++ tail) = some (v, tail)

/-- A field name that is written between quotes as it is: printable ASCII
without quote and backslash. -/
def plainName (name : GoString) : Prop := ∀ c ∈ name, 32 ≤ c ∧ c < 128 ∧ c ≠ 34 ∧ c ≠ 92

/-- Every field has a plain name and a value that is read back. -/
def fieldsReadBack (h : Nat) (fs : List WrittenField) : Prop :=
  ∀ f ∈ fs, plainName f.1 ∧ ∀ ev ∈ f.2, valueReadsBack h ev.1 ev.2 ∧ ev.1 ≠ []

/-- The fields of a `RoomProperties` as they are written and read back. -/
def RoomProperties.written (rep : Replacement) (p : RoomProperties) : List WrittenField :=
  [(bytes "nbf", p.Nbf.map (fun i => (formatInt i, Value.number (formatInt i)))),
   (bytes "exp", p.Exp.map (fun i => (formatInt i, Value.number (formatInt i)))),
   (bytes "max_participants", p.MaxParticipants.map (fun n => (formatUint n, Value.number (formatUint n)))),
   (bytes "autojoin", p.Autojoin.map (fun b => (encodeBool b, Value.bool b))),
   (bytes "enable_knocking", p.EnableKnocking.map (fun b => (encodeBool b, Value.bool b))),
   (bytes "enable_screenshare", p.EnableScreenshare.map (fun b => (encodeBool b, Value.bool b))),
   (bytes "enable_chat", p.EnableChat.map (fun b => (encodeBool b, Value.bool b))),
   (bytes "start_video_off", p.StartVideoOff.map (fun b => (encodeBool b, Value.bool b))),
   (bytes "start_audio_off", p.StartAudioOff.map (fun b => (encodeBool b, Value.bool b))),
   (bytes "owner_only_broadcast", p.OwnerOnlyBroadcast.map (fun b => (encodeBool b, Value.bool b))),
   (bytes "enable_recording", p.EnableRecording.map (fun s => (appendString rep s, Value.string (coerceUTF8 s)))),
   (bytes "eject_at_room_exp", p.EjectAtRoomExp.map (fun b => (encodeBool b, Value.bool b))),
   (bytes "eject_after_elapsed", p.EjectAfterElapsed.map (fun n => (formatUint n, Value.number (formatUint n)))),
   (bytes "lang", p.Lang.map (fun s => (appendString rep s, Value.string (coerceUTF8 s))))]

/-- The integer fields hold values of their Go types (`int64`, 64-bit `uint`). -/
def RoomProperties.wellTyped (p : RoomProperties) : Prop :=
  (∀ i ∈ p.Nbf, -2 ^ 63 ≤ i ∧ i < 2 ^ 63) ∧
  (∀ i ∈ p.Exp, -2 ^ 63 ≤ i ∧ i < 2 ^ 63) ∧
  (∀ n ∈ p.MaxParticipants, n < 2 ^ 64) ∧
  (∀ n ∈ p.EjectAfterElapsed, n < 2 ^ 64)

/-- The string fields hold valid UTF-8. -/
def RoomProperties.validStrings (p : RoomProperties) : Prop :=
  (∀ s ∈ p.EnableRecording, utf8Valid s = true) ∧
  (∀ s ∈ p.Lang, utf8Valid s = true)

/-- The value with every string field coerced to valid UTF-8. -/
def RoomProperties.coerced (p : RoomProperties) : RoomProperties :=
  { p with
    EnableRecording := p.EnableRecording.map coerceUTF8,
    Lang := p.Lang.map coerceUTF8 }

/-- The fields of a `MeetingTokenProperties` as they are written and read back. -/
def MeetingTokenProperties.written (rep : Replacement) (p : MeetingTokenProperties) : List WrittenField :=
  [(bytes "nbf", p.Nbf.map (fun i => (formatInt i, Value.number (formatInt i)))),
   (bytes "exp", p.Exp.map (fun i => (formatInt i, Value.number (formatInt i)))),
   (bytes "room_name", p.RoomName.map (fun s => (appendString rep s, Value.string (coerceUTF8 s)))),
   (bytes "is_owner", p.IsOwner.map (fun b => (encodeBool b, Value.bool b))),
   (bytes "user_name", p.UserName.map (fun s => (appendString rep s, Value.string (coerceUTF8 s)))),
   (bytes "user_id", p.UserId.map (fun s => (appendString rep s, Value.string (coerceUTF8 s)))),
   (bytes "enable_screenshare", p.EnableScreenshare.map (fun b => (encodeBool b, Value.bool b))),
   (bytes "start_video_off", p.StartVideoOff.map (fun b => (encodeBool b, Value.bool b))),
   (bytes "start_audio_off", p.StartAudioOff.map (fun b => (encodeBool b, Value.bool b))),
   (bytes "enable_recording", p.EnableRecording.map (fun s => (appendString rep s, Value.string (coerceUTF8 s)))),
   (bytes "start_cloud_recording", p.StartCloudRecording.map (fun b => (encodeBool b, Value.bool b))),
   (bytes "close_tab_on_exit", p.CloseTabOnExit.map (fun b => (encodeBool b, Value.bool b))),
   (bytes "eject_at_token_exp", p.EjectAtTokenExp.map (fun b => (encodeBool b, Value.bool b))),
   (bytes "eject_after_elapsed", p.EjectAfterElapsed.map (fun s => (appendString rep s, Value.string (coerceUTF8 s)))),
   (bytes "lang", p.Lang.map (fun s => (appendString rep s, Value.string (coerceUTF8 s))))]

/-- The integer fields hold values of their Go types (`int64`, 64-bit `uint`). -/
def MeetingTokenProperties.wellTyped (p : MeetingTokenProperties) : Prop :=
  (∀ i ∈ p.Nbf, -2 ^ 63 ≤ i ∧ i < 2 ^ 63) ∧
  (∀ i ∈ p.Exp, -2 ^ 63 ≤ i ∧ i < 2 ^ 63)

/-- The string fields hold valid UTF-8. -/
def MeetingTokenProperties.validStrings (p : MeetingTokenProperties) : Prop :=
  (∀ s ∈ p.RoomName, utf8Valid s = true) ∧
  (∀ s ∈ p.UserName, utf8Valid s = true) ∧
  (∀ s ∈ p.UserId, utf8Valid s = true) ∧
  (∀ s ∈ p.EnableRecording, utf8Valid s = true) ∧
  (∀ s ∈ p.EjectAfterElapsed, utf8Valid s = true) ∧
  (∀ s ∈ p.Lang, utf8Valid s = true)

/-- The value with every string field coerced to valid UTF-8. -/
def MeetingTokenProperties.coerced (p : MeetingTokenProperties) : MeetingTokenProperties :=
  { p with
    RoomName := p.RoomName.map coerceUTF8,
    UserName := p.UserName.map coerceUTF8,
    UserId := p.UserId.map coerceUTF8,
    EnableRecording := p.EnableRecording.map coerceUTF8,
    EjectAfterElapsed := p.EjectAfterElapsed.map coerceUTF8,
    Lang := p.Lang.map coerceUTF8 }

/-- The JSON names of the fields of a `RoomProperties` that are not nil, in
declaration order. -/
def RoomProperties.presentKeys (p : RoomProperties) : List GoString :=
  (if p.Nbf.isSome then [bytes "nbf"] else []) ++
  (if p.Exp.isSome then [bytes "exp"] else []) ++
  (if p.MaxParticipants.isSome then [bytes "max_participants"] else []) ++
  (if p.Autojoin.isSome then [bytes "autojoin"] else []) ++
  (if p.EnableKnocking.isSome then [bytes "enable_knocking"] else []) ++
  (if p.EnableScreenshare.isSome then [bytes "enable_screenshare"] else []) ++
  (if p.EnableChat.isSome then [bytes "enable_chat"] else []) ++
  (if p.StartVideoOff.isSome then [bytes "start_video_off"] else []) ++
  (if p.StartAudioOff.isSome then [bytes "start_audio_off"] else []) ++
  (if p.OwnerOnlyBroadcast.isSome then [bytes "owner_only_broadcast"] else []) ++
  (if p.EnableRecording.isSome then [bytes "enable_recording"] else []) ++
  (if p.EjectAtRoomExp.isSome then [bytes "eject_at_room_exp"] else []) ++
  (if p.EjectAfterElapsed.isSome then [bytes "eject_after_elapsed"] else []) ++
  (if p.Lang.isSome then [bytes "lang"] else [])

/-- The fields of a `createRoomRequest` as they are written and read back. -/
def createRoomRequest.written (rep : Replacement) (r : createRoomRequest) : List WrittenField :=
  [(bytes "name", some (appendString rep r.Name, Value.string (coerceUTF8 r.Name))),
   (bytes "privacy", some (appendString rep r.Privacy, Value.string (coerceUTF8 r.Privacy))),
   (bytes "properties",
     r.Properties.map (fun p => (p.encode rep, Value.object (writtenMembers (p.written rep)))))]

/-- The text of the members an encoder input stands for: for every field that
is not omitted, the quoted name, a colon and the encoded value. -/
def memberTexts (fs : List (GoString × Option GoString)) : List GoString :=
  fs.filterMap (fun f => f.2.map (fun v => 34 :: f.1 ++ [34, 58] ++ v))


/-- The decimal numeral of an integer: the decimal digits of its absolute
value, most significant first (the single digit `0` for zero), after a minus
sign when it is negative. -/
def decimal (i : Int) : GoString :=
  (if i < 0 then [45] else []) ++
    (if i = 0 then [48] else (Nat.digits 10 i.natAbs).reverse.map (fun d => 48 + d))

/-- The members of the JSON object that stands for a `RoomProperties` value:
one member for every field that is not nil, in declaration order, under the
JSON name of the field and holding the value behind the pointer (a number, a
boolean or a string). -/
def RoomProperties.members (p : RoomProperties) : List (GoString × Value) :=
  (p.Nbf.map (fun i => (bytes "nbf", Value.number (decimal i)))).toList ++
  (p.Exp.map (fun i => (bytes "exp", Value.number (decimal i)))).toList ++
  (p.MaxParticipants.map
    (fun (n : Nat) => (bytes "max_participants", Value.number (decimal (n : Int))))).toList ++
  (p.Autojoin.map (fun b => (bytes "autojoin", Value.bool b))).toList ++
  (p.EnableKnocking.map (fun b => (bytes "enable_knocking", Value.bool b))).toList ++
  (p.EnableScreenshare.map (fun b => (bytes "enable_screenshare", Value.bool b))).toList ++
  (p.EnableChat.map (fun b => (bytes "enable_chat", Value.bool b))).toList ++
  (p.StartVideoOff.map (fun b => (bytes "start_video_off", Value.bool b))).toList ++
  (p.StartAudioOff.map (fun b => (bytes "start_audio_off", Value.bool b))).toList ++
  (p.OwnerOnlyBroadcast.map (fun b => (bytes "owner_only_broadcast", Value.bool b))).toList ++
  (p.EnableRecording.map (fun s => (bytes "enable_recording", Value.string s))).toList ++
  (p.EjectAtRoomExp.map (fun b => (bytes "eject_at_room_exp", Value.bool b))).toList ++
  (p.EjectAfterElapsed.map
    (fun (n : Nat) => (bytes "eject_after_elapsed", Value.number (decimal (n : Int))))).toList ++
  (p.Lang.map (fun s => (bytes "lang", Value.string s))).toList

/-- A string that a JSON string literal holds as it is: printable ASCII without
the characters that JSON or HTML escaping rewrites (quote, backslash, `<`, `>`
and `&`). -/
def plainText (s : GoString) : Prop :=
  ∀ c ∈ s, 32 ≤ c ∧ c < 128 ∧ c ≠ 34 ∧ c ≠ 92 ∧ c ≠ 60 ∧ c ≠ 62 ∧ c ≠ 38

/-- The set string fields hold plain text. -/
def RoomProperties.plainStrings (p : RoomProperties) : Prop :=
  (∀ s ∈ p.EnableRecording, plainText s) ∧
  (∀ s ∈ p.Lang, plainText s)

/-- The compact text of a scalar JSON value: the literal of a number, `true`,
`false`, `null`, a plain string between quotes. -/
def scalarText : Value → GoString
  | Value.null => bytes "null"
  | Value.bool b => if b then bytes "true" else bytes "false"
  | Value.number lit => lit
  | Value.string s => 34 :: s ++ [34]
  | _ => []

/-- The compact text of an object with scalar members: the members written as
`"name":value`, separated by commas, between braces. -/
def objectText (ms : List (GoString × Value)) : GoString :=
  bytes "\x7b" ++
    [44].intercalate (ms.map (fun m => 34 :: m.1 ++ [34, 58] ++ scalarText m.2)) ++
    bytes "\x7d"

/-! ## Reading a struct from the members of an object, field by field -/

/-- The JSON name `k` of a field matches the member name `key`: the two are
equal up to case, as the decoder compares names. -/
def nameMatches (k key : GoString) : Bool := decide (foldName k = foldName key)

/-- The values of the members whose name matches `k`, in input order. -/
def membersNamed (k : GoString) (ms : List (GoString × Value)) : List Value :=
  (ms.filter (fun m => nameMatches k m.1)).map Prod.snd

/-- A value that can be stored into a `string` field: a string or `null`. -/
def fitsString : Value → Bool
  | Value.null => true
  | Value.string _ => true
  | _ => false

/-- A value that can be stored into a `bool` field: a boolean or `null`. -/
def fitsBool : Value → Bool
  | Value.null => true
  | Value.bool _ => true
  | _ => false

/-- What a `string` field holds after the values `vs` were stored into it in
order: the last string among them, `null` leaving the field as it is. -/
def lastString (vs : List Value) (init : GoString) : GoString :=
  vs.foldl (fun a v => match v with | Value.string s => s | _ => a) init

/-- What a `bool` field holds after the values `vs` were stored into it in
order: the last boolean among them, `null` leaving the field as it is. -/
def lastBool (vs : List Value) (init : Bool) : Bool :=
  vs.foldl (fun a v => match v with | Value.bool b => b | _ => a) init

/-- The `int64` a JSON value stands for: a number whose literal
`strconv.ParseInt` reads. -/
def readInt64 : Value → Option Int
  | Value.number lit => parseInt lit
  | _ => none

/-- The `uint` a JSON value stands for: a number whose literal
`strconv.ParseUint` reads. -/
def readUint : Value → Option Nat
  | Value.number lit => parseUint lit
  | _ => none

/-- The `bool` a JSON value stands for. -/
def readBool : Value → Option Bool
  | Value.bool b => some b
  | _ => none

/-- The `string` a JSON value stands for. -/
def readString : Value → Option GoString
  | Value.string s => some s
  | _ => none

/-- A value that can be stored into a pointer field: `null` or a value that
stands for a value of the pointed-to type. -/
def fitsPointer {α : Type} (read : Value → Option α) : Value → Bool
  | Value.null => true
  | v => (read v).isSome

/-- What a pointer field holds after the values `vs` were stored into it in
order: nil after `null`, otherwise a pointer to what the last value stands
for. -/
def lastPointer {α : Type} (read : Value → Option α) (vs : List Value) (init : Option α) :
    Option α :=
  vs.foldl (fun _ v => read v) init

/-- Every value a member of the object holds under a name matching a field of the
room properties has the JSON type of that field (or is `null`). -/
def RoomProperties.fitsMember (m : GoString × Value) : Bool :=
  (!nameMatches (bytes "nbf") m.1 || fitsPointer readInt64 m.2) &&
  (!nameMatches (bytes "exp") m.1 || fitsPointer readInt64 m.2) &&
  (!nameMatches (bytes "max_participants") m.1 || fitsPointer readUint m.2) &&
  (!nameMatches (bytes "autojoin") m.1 || fitsPointer readBool m.2) &&
  (!nameMatches (bytes "enable_knocking") m.1 || fitsPointer readBool m.2) &&
  (!nameMatches (bytes "enable_screenshare") m.1 || fitsPointer readBool m.2) &&
  (!nameMatches (bytes "enable_chat") m.1 || fitsPointer readBool m.2) &&
  (!nameMatches (bytes "start_video_off") m.1 || fitsPointer readBool m.2) &&
  (!nameMatches (bytes "start_audio_off") m.1 || fitsPointer readBool m.2) &&
  (!nameMatches (bytes "owner_only_broadcast") m.1 || fitsPointer readBool m.2) &&
  (!nameMatches (bytes "enable_recording") m.1 || fitsPointer readString m.2) &&
  (!nameMatches (bytes "eject_at_room_exp") m.1 || fitsPointer readBool m.2) &&
  (!nameMatches (bytes "eject_after_elapsed") m.1 || fitsPointer readUint m.2) &&
  (!nameMatches (bytes "lang") m.1 || fitsPointer readString m.2)

/-- The room properties read field by field from the members of an object, on top
of the value `base`: every field holds what the members matching its JSON name
leave in it, taken in input order. -/
def RoomProperties.ofMembers (ms : List (GoString × Value)) (base : RoomProperties) : RoomProperties :=
  { Nbf := lastPointer readInt64 (membersNamed (bytes "nbf") ms) base.Nbf,
    Exp := lastPointer readInt64 (membersNamed (bytes "exp") ms) base.Exp,
    MaxParticipants := lastPointer readUint (membersNamed (bytes "max_participants") ms) base.MaxParticipants,
    Autojoin := lastPointer readBool (membersNamed (bytes "autojoin") ms) base.Autojoin,
    EnableKnocking := lastPointer readBool (membersNamed (bytes "enable_knocking") ms) base.EnableKnocking,
    EnableScreenshare := lastPointer readBool (membersNamed (bytes "enable_screenshare") ms) base.EnableScreenshare,
    EnableChat := lastPointer readBool (membersNamed (bytes "enable_chat") ms) base.EnableChat,
    StartVideoOff := lastPointer readBool (membersNamed (bytes "start_video_off") ms) base.StartVideoOff,
    StartAudioOff := lastPointer readBool (membersNamed (bytes "start_audio_off") ms) base.StartAudioOff,
    OwnerOnlyBroadcast := lastPointer readBool (membersNamed (bytes "owner_only_broadcast") ms) base.OwnerOnlyBroadcast,
    EnableRecording := lastPointer readString (membersNamed (bytes "enable_recording") ms) base.EnableRecording,
    EjectAtRoomExp := lastPointer readBool (membersNamed (bytes "eject_at_room_exp") ms) base.EjectAtRoomExp,
    EjectAfterElapsed := lastPointer readUint (membersNamed (bytes "eject_after_elapsed") ms) base.EjectAfterElapsed,
    Lang := lastPointer readString (membersNamed (bytes "lang") ms) base.Lang }

/-- A value that can be stored into the field `Config *RoomProperties`: `null`
or an object whose members fit the room properties. -/
def fitsConfig : Value → Bool
  | Value.null => true
  | Value.object ms => ms.all RoomProperties.fitsMember
  | _ => false

/-- The field `Config` after one value was stored into it: nil after `null`,
after an object the properties read from its members on top of the properties
the field pointed to before (fresh ones when it was nil). -/
def readConfig (v : Value) (cur : Option RoomProperties) : Option RoomProperties :=
  match v with
  | Value.object ms => some (RoomProperties.ofMembers ms (cur.getD {}))
  | _ => none

/-- What the field `Config` holds after the values `vs` were stored into it in
order. -/
def lastConfig (vs : List Value) (init : Option RoomProperties) : Option RoomProperties :=
  vs.foldl (fun cur v => readConfig v cur) init

/-- Every value a member of the object holds under a name matching a field of the
room response has the JSON type of that field (or is `null`). -/
def RoomResponse.fitsMember (m : GoString × Value) : Bool :=
  (!nameMatches (bytes "id") m.1 || fitsString m.2) &&
  (!nameMatches (bytes "name") m.1 || fitsString m.2) &&
  (!nameMatches (bytes "api_created") m.1 || fitsBool m.2) &&
  (!nameMatches (bytes "privacy") m.1 || fitsString m.2) &&
  (!nameMatches (bytes "url") m.1 || fitsString m.2) &&
  (!nameMatches (bytes "created_at") m.1 || fitsString m.2) &&
  (!nameMatches (bytes "config") m.1 || fitsConfig m.2)

/-- The room response read field by field from the members of an object, on top
of the value `base`: every field holds what the members matching its JSON name
leave in it, taken in input order. -/
def RoomResponse.ofMembers (ms : List (GoString × Value)) (base : RoomResponse) : RoomResponse :=
  { Id := lastString (membersNamed (bytes "id") ms) base.Id,
    Name := lastString (membersNamed (bytes "name") ms) base.Name,
    ApiCreated := lastBool (membersNamed (bytes "api_created") ms) base.ApiCreated,
    Privacy := lastString (membersNamed (bytes "privacy") ms) base.Privacy,
    Url := lastString (membersNamed (bytes "url") ms) base.Url,
    CreatedAt := lastString (membersNamed (bytes "created_at") ms) base.CreatedAt,
    Config := lastConfig (membersNamed (bytes "config") ms) base.Config }

/-- Every value a member of the object holds under a name matching a field of the
token response has the JSON type of that field (or is `null`). -/
def MeetingTokenResponse.fitsMember (m : GoString × Value) : Bool :=
  (!nameMatches (bytes "token") m.1 || fitsString m.2)

/-- The token response read field by field from the members of an object, on top
of the value `base`: every field holds what the members matching its JSON name
leave in it, taken in input order. -/
def MeetingTokenResponse.ofMembers (ms : List (GoString × Value)) (base : MeetingTokenResponse) : MeetingTokenResponse :=
  { Token := lastString (membersNamed (bytes "token") ms) base.Token }

/-- Every value a member of the object holds under a name matching a field of the
deletion response has the JSON type of that field (or is `null`). -/
def deleteMeetingResponse.fitsMember (m : GoString × Value) : Bool :=
  (!nameMatches (bytes "deleted") m.1 || fitsBool m.2) &&
  (!nameMatches (bytes "name") m.1 || fitsString m.2)

/-- The deletion response read field by field from the members of an object, on top
of the value `base`: every field holds what the members matching its JSON name
leave in it, taken in input order. -/
def deleteMeetingResponse.ofMembers (ms : List (GoString × Value)) (base : deleteMeetingResponse) : deleteMeetingResponse :=
  { Deleted := lastBool (membersNamed (bytes "deleted") ms) base.Deleted,
    Name := lastString (membersNamed (bytes "name") ms) base.Name }


/-! ## Basic facts about the dispatcher -/

theorem bytes_errfmt : bytes "%s: %s" = [37, 115, 58, 32, 37, 115] := by decide

theorem Sprintf_err (a b : GoString) : Sprintf (bytes "%s: %s") [a, b] = a ++ bytes ": " ++ b := by
  have h : bytes ": " = [58, 32] := by decide
  rw [bytes_errfmt, h]
  simp [Sprintf]

theorem Sprintf_room (n : GoString) : Sprintf DAILYCO_ROOM_FRAGMENT [n] = bytes "/rooms/" ++ n := by
  have h : DAILYCO_ROOM_FRAGMENT = [47, 114, 111, 111, 109, 115, 47, 37, 115] := by decide
  have h1 : bytes "/rooms/" = [47, 114, 111, 111, 109, 115, 47] := by decide
  rw [h, h1]
  simp [Sprintf]

theorem validMethod_POST : validMethod (bytes "POST") = true := by decide

theorem validMethod_DELETE : validMethod (bytes "DELETE") = true := by decide

theorem NewRequest_valid (m url body : GoString) (h : validMethod m = true) :
    NewRequest m url body = Except.ok { Method := m, URL := url, Header := [], Body := body } := by
  have hne : m ≠ [] := by
    intro h0; subst h0; simp [validMethod] at h
  simp [NewRequest, hne, h]

/-- The result pair of the dispatcher on a server that answers with `body`. -/
theorem call_fixedBody (rep : Replacement) (c : Client) (status : Request → Nat) (body fragment verb : GoString)
    (rb : Option RequestBody) (hv : validMethod verb = true) :
    ((c.call rep (fixedBody status body) fragment verb rb).value,
      (c.call rep (fixedBody status body) fragment verb rb).err) =
      match Unmarshal ErrorResponse.fields {} body with
      | Except.error unErr => (none, some unErr)
      | Except.ok er =>
        if er.Error ≠ [] then (none, some (Error.errorf (er.Error ++ bytes ": " ++ er.Info)))
        else (some body, none) := by
  have : bytes "" = [] := by decide
  simp only [Client.call, fixedBody, NewRequest_valid _ _ _ hv, Sprintf_err, this]
  cases h : Unmarshal ErrorResponse.fields {} body with
  | error e => simp
  | ok er =>
    by_cases he : er.Error = []
    · simp [he]
    · simp [he]

theorem call_fixedBody_error (rep : Replacement) (c : Client) (status : Request → Nat) (body fragment verb : GoString)
    (rb : Option RequestBody) (hv : validMethod verb = true) (e : Error)
    (h : Unmarshal ErrorResponse.fields {} body = Except.error e) :
    (c.call rep (fixedBody status body) fragment verb rb).value = none ∧
      (c.call rep (fixedBody status body) fragment verb rb).err = some e := by
  have := call_fixedBody rep c status body fragment verb rb hv
  rw [h] at this
  simpa [Prod.ext_iff] using this

theorem call_fixedBody_envelope (rep : Replacement) (c : Client) (status : Request → Nat) (body fragment verb : GoString)
    (rb : Option RequestBody) (hv : validMethod verb = true) (er : ErrorResponse)
    (h : Unmarshal ErrorResponse.fields {} body = Except.ok er) (he : er.Error ≠ []) :
    (c.call rep (fixedBody status body) fragment verb rb).value = none ∧
      (c.call rep (fixedBody status body) fragment verb rb).err =
        some (Error.errorf (er.Error ++ bytes ": " ++ er.Info)) := by
  have := call_fixedBody rep c status body fragment verb rb hv
  rw [h] at this
  simpa [Prod.ext_iff, he] using this

theorem call_fixedBody_accept (rep : Replacement) (c : Client) (status : Request → Nat) (body fragment verb : GoString)
    (rb : Option RequestBody) (hv : validMethod verb = true) (er : ErrorResponse)
    (h : Unmarshal ErrorResponse.fields {} body = Except.ok er) (he : er.Error = []) :
    (c.call rep (fixedBody status body) fragment verb rb).value = some body ∧
      (c.call rep (fixedBody status body) fragment verb rb).err = none := by
  have := call_fixedBody rep c status body fragment verb rb hv
  rw [h] at this
  simpa [Prod.ext_iff, he] using this

/-! ## C1: the error envelope -/

/-- C1: when the response body decodes as the error envelope with a non-empty
`error` string `e` and `info` string `i`, each of `CreateRoom`, `DeleteRoom` and
`CreateMeetingToken`, for every argument and status code, fails with the error
whose message is `e ++ ": " ++ i` and returns no success value (nil, false,
nil). -/
theorem error_envelope_fails (rep : Replacement) (c : Client) (status : Request → Nat) (body e i : GoString)
    (hdec : Unmarshal ErrorResponse.fields {} body = Except.ok { Error := e, Info := i })
    (he : e ≠ []) :
    (∀ name privacy properties,
      (c.CreateRoom rep (fixedBody status body) name privacy properties).value = none ∧
      (c.CreateRoom rep (fixedBody status body) name privacy properties).err =
        some (Error.errorf (e ++ bytes ": " ++ i))) ∧
    (∀ roomName,
      (c.DeleteRoom rep (fixedBody status body) roomName).value = false ∧
      (c.DeleteRoom rep (fixedBody status body) roomName).err =
        some (Error.errorf (e ++ bytes ": " ++ i))) ∧
    (∀ properties,
      (c.CreateMeetingToken rep (fixedBody status body) properties).value = none ∧
      (c.CreateMeetingToken rep (fixedBody status body) properties).err =
        some (Error.errorf (e ++ bytes ": " ++ i))) := by
  refine ⟨fun name privacy properties => ?_, fun roomName => ?_, fun properties => ?_⟩
  · have h := call_fixedBody_envelope rep c status body DAILYCO_ROOMS_FRAGMENT (bytes "POST")
      (some (RequestBody.createRoom ⟨name, privacy, properties⟩)) validMethod_POST _ hdec he
    simp only [Client.CreateRoom, h.2]
    simp
  · have h := call_fixedBody_envelope rep c status body (Sprintf DAILYCO_ROOM_FRAGMENT [roomName])
      (bytes "DELETE") none validMethod_DELETE _ hdec he
    simp only [Client.DeleteRoom, h.2]
    simp
  · have h := call_fixedBody_envelope rep c status body DAILYCO_MEETING_TOKENS_FRAGMENT (bytes "POST")
      (some (RequestBody.createMeetingToken ⟨properties⟩)) validMethod_POST _ hdec he
    simp only [Client.CreateMeetingToken, h.2]
    simp

/-- Witness for C1: the envelope `not-found` / `room r1 does not exist` under
status 404. -/
theorem error_envelope_fails_witness :
    Unmarshal ErrorResponse.fields {}
        (bytes "\x7b\"error\":\"not-found\",\"info\":\"room r1 does not exist\"\x7d") =
      Except.ok { Error := bytes "not-found", Info := bytes "room r1 does not exist" } ∧
    bytes "not-found" ≠ [] ∧
    (Client.DeleteRoom Replacement.rune ⟨bytes "secret"⟩
      (fixedBody (fun _ => 404)
        (bytes "\x7b\"error\":\"not-found\",\"info\":\"room r1 does not exist\"\x7d"))
      (bytes "r1")).err =
      some (Error.errorf (bytes "not-found" ++ bytes ": " ++ bytes "room r1 does not exist")) :=
  ⟨rfl, by decide,
    ((error_envelope_fails Replacement.rune ⟨bytes "secret"⟩ (fun _ => 404)
      (bytes "\x7b\"error\":\"not-found\",\"info\":\"room r1 does not exist\"\x7d")
      (bytes "not-found") (bytes "room r1 does not exist") rfl (by decide)).2.1 (bytes "r1")).2⟩

/-! ## C3: bodies that are not JSON -/

/-- C3: when the response body is not valid JSON, whatever the status code,
each of `CreateRoom`, `DeleteRoom` and `CreateMeetingToken` returns the syntax
error of the decoder and no success value (nil, false, nil). -/
theorem invalid_json_is_decode_error (rep : Replacement) (c : Client) (status : Request → Nat) (body : GoString)
    (hbad : parseJSON body = none) :
    (∀ name privacy properties,
      (c.CreateRoom rep (fixedBody status body) name privacy properties).value = none ∧
      (c.CreateRoom rep (fixedBody status body) name privacy properties).err =
        some Error.syntaxError) ∧
    (∀ roomName,
      (c.DeleteRoom rep (fixedBody status body) roomName).value = false ∧
      (c.DeleteRoom rep (fixedBody status body) roomName).err = some Error.syntaxError) ∧
    (∀ properties,
      (c.CreateMeetingToken rep (fixedBody status body) properties).value = none ∧
      (c.CreateMeetingToken rep (fixedBody status body) properties).err =
        some Error.syntaxError) := by
  have hdec : Unmarshal ErrorResponse.fields {} body = Except.error Error.syntaxError := by
    simp [Unmarshal, hbad]
  refine ⟨fun name privacy properties => ?_, fun roomName => ?_, fun properties => ?_⟩
  · have h := call_fixedBody_error rep c status body DAILYCO_ROOMS_FRAGMENT (bytes "POST")
      (some (RequestBody.createRoom ⟨name, privacy, properties⟩)) validMethod_POST _ hdec
    simp only [Client.CreateRoom, h.2]
    simp
  · have h := call_fixedBody_error rep c status body (Sprintf DAILYCO_ROOM_FRAGMENT [roomName])
      (bytes "DELETE") none validMethod_DELETE _ hdec
    simp only [Client.DeleteRoom, h.2]
    simp
  · have h := call_fixedBody_error rep c status body DAILYCO_MEETING_TOKENS_FRAGMENT (bytes "POST")
      (some (RequestBody.createMeetingToken ⟨properties⟩)) validMethod_POST _ hdec
    simp only [Client.CreateMeetingToken, h.2]
    simp

/-- Witness for C3: the empty body under status 200. -/
theorem invalid_json_is_decode_error_witness :
    parseJSON (bytes "") = none ∧
    (Client.CreateMeetingToken Replacement.rune ⟨bytes "secret"⟩ (fixedBody (fun _ => 200) (bytes "")) none).value
      = none ∧
    (Client.CreateMeetingToken Replacement.rune ⟨bytes "secret"⟩ (fixedBody (fun _ => 200) (bytes "")) none).err
      = some Error.syntaxError :=
  ⟨rfl, (invalid_json_is_decode_error Replacement.rune ⟨bytes "secret"⟩ (fun _ => 200) (bytes "") rfl).2.2 none⟩


/-! ## Field lookup in the response types -/

theorem foldName_error : foldName (bytes "error") = bytes "ERROR" := by decide

theorem foldName_info : foldName (bytes "info") = bytes "INFO" := by decide

theorem foldName_token : foldName (bytes "token") = bytes "TOKEN" := by decide

/-- Which field of the envelope a member name selects. -/
theorem findField_envelope (key : GoString) :
    findField ErrorResponse.fields key =
      if foldName key = bytes "ERROR" then some ErrorResponse.errorField
      else if foldName key = bytes "INFO" then some ErrorResponse.infoField
      else none := by
  have hne : bytes "ERROR" ≠ bytes "INFO" := by decide
  by_cases h1 : key = bytes "error"
  · subst h1
    simp [findField, ErrorResponse.fields, ErrorResponse.errorField, foldName_error]
  · by_cases h2 : key = bytes "info"
    · subst h2
      simp only [foldName_info]
      rw [if_neg (Ne.symm hne)]
      rfl
    · have e1 : ¬ bytes "error" = key := fun h => h1 h.symm
      have e2 : ¬ bytes "info" = key := fun h => h2 h.symm
      by_cases h3 : foldName key = bytes "ERROR"
      · simp [findField, ErrorResponse.fields, ErrorResponse.errorField,
          ErrorResponse.infoField, e1, e2, h3, foldName_error]
      · have h3' : ¬ bytes "ERROR" = foldName key := fun h => h3 h.symm
        by_cases h4 : foldName key = bytes "INFO"
        · simp [findField, ErrorResponse.fields, ErrorResponse.errorField,
            ErrorResponse.infoField, e1, e2, h3, h4, foldName_error, foldName_info, hne, hne.symm]
        · have h4' : ¬ bytes "INFO" = foldName key := fun h => h4 h.symm
          simp [findField, ErrorResponse.fields, ErrorResponse.errorField,
            ErrorResponse.infoField, e1, e2, h3, h4, h3', h4', foldName_error, foldName_info]

/-- Which member names select the field `Token`. -/
theorem findField_token (key : GoString) :
    findField MeetingTokenResponse.fields key =
      if foldName key = bytes "TOKEN" then some MeetingTokenResponse.tokenField else none := by
  by_cases h1 : key = bytes "token"
  · subst h1
    simp [findField, MeetingTokenResponse.fields, MeetingTokenResponse.tokenField, foldName_token]
  · have e1 : ¬ bytes "token" = key := fun h => h1 h.symm
    by_cases h3 : foldName key = bytes "TOKEN"
    · simp [findField, MeetingTokenResponse.fields, MeetingTokenResponse.tokenField, e1, h3,
        foldName_token]
    · have h3' : ¬ bytes "TOKEN" = foldName key := fun h => h3 h.symm
      simp [findField, MeetingTokenResponse.fields, MeetingTokenResponse.tokenField, e1, h3, h3',
        foldName_token]

/-- Members without a field are skipped. -/
theorem decodeObject_skip {S : Type} (fields : List (Field S)) (ms : List (GoString × Value))
    (st : S) (h : ∀ m ∈ ms, findField fields m.1 = none) : decodeObject fields ms st = some st := by
  induction ms generalizing st with
  | nil => rfl
  | cons m ms ih =>
    obtain ⟨k, v⟩ := m
    have hk : findField fields k = none := h (k, v) (List.mem_cons_self _ _)
    simp only [decodeObject, hk]
    exact ih st (fun m hm => h m (List.mem_cons_of_mem _ hm))

/-- Skipped members in front of the others. -/
theorem decodeObject_append_skip {S : Type} (fields : List (Field S))
    (pre ms : List (GoString × Value)) (st : S) (h : ∀ m ∈ pre, findField fields m.1 = none) :
    decodeObject fields (pre ++ ms) st = decodeObject fields ms st := by
  induction pre with
  | nil => rfl
  | cons m pre ih =>
    obtain ⟨k, v⟩ := m
    have hk : findField fields k = none := h (k, v) (List.mem_cons_self _ _)
    simp only [List.cons_append, decodeObject, hk]
    exact ih (fun m hm => h m (List.mem_cons_of_mem _ hm))

/-- An object whose members matching `error` hold the empty string or null and
whose members matching `info` hold a string or null decodes as an envelope with
an empty error code. -/
theorem decodeObject_envelope_ok (ms : List (GoString × Value)) (st : ErrorResponse)
    (hst : st.Error = [])
    (h : ∀ m ∈ ms,
      (foldName m.1 = bytes "ERROR" → m.2 = Value.string [] ∨ m.2 = Value.null) ∧
      (foldName m.1 = bytes "INFO" → (∃ s, m.2 = Value.string s) ∨ m.2 = Value.null)) :
    ∃ er, decodeObject ErrorResponse.fields ms st = some er ∧ er.Error = [] := by
  induction ms generalizing st with
  | nil => exact ⟨st, rfl, hst⟩
  | cons m ms ih =>
    obtain ⟨k, v⟩ := m
    have hm := h (k, v) (List.mem_cons_self _ _)
    have hrest : ∀ m ∈ ms,
        (foldName m.1 = bytes "ERROR" → m.2 = Value.string [] ∨ m.2 = Value.null) ∧
        (foldName m.1 = bytes "INFO" → (∃ s, m.2 = Value.string s) ∨ m.2 = Value.null) :=
      fun m hm => h m (List.mem_cons_of_mem _ hm)
    simp only [decodeObject, findField_envelope]
    by_cases h1 : foldName k = bytes "ERROR"
    · simp only [h1, if_true]
      rcases hm.1 h1 with hv | hv
      · simp only at hv
        subst hv
        simp only [ErrorResponse.errorField, storeString]
        exact ih _ rfl hrest
      · simp only at hv
        subst hv
        simp only [ErrorResponse.errorField, storeString]
        exact ih _ hst hrest
    · simp only [h1, if_false]
      by_cases h2 : foldName k = bytes "INFO"
      · simp only [h2, if_true]
        rcases hm.2 h2 with ⟨s, hv⟩ | hv
        · simp only at hv
          subst hv
          simp only [ErrorResponse.infoField, storeString]
          exact ih _ hst hrest
        · simp only at hv
          subst hv
          simp only [ErrorResponse.infoField, storeString]
          exact ih _ hst hrest
      · simp only [h2, if_false]
        exact ih _ hst hrest

/-! ## C8: what the dispatcher returns -/

/-- The requests the dispatcher sends do not depend on the answers. -/
theorem call_sent (rep : Replacement) (c : Client) (client : HTTPClient) (fragment verb : GoString)
    (rb : Option RequestBody) :
    (c.call rep client fragment verb rb).sent =
      (c.call rep (fun _ => DoResult.failed []) fragment verb rb).sent := by
  simp only [Client.call]
  cases NewRequest verb _ _ with
  | error e => rfl
  | ok req0 =>
    simp only
    cases client _ with
    | failed msg => rfl
    | response resp =>
      simp only
      cases resp.ReadErr with
      | some e => rfl
      | none =>
        simp only
        cases Unmarshal ErrorResponse.fields {} resp.Body with
        | error e => rfl
        | ok er =>
          simp only
          split <;> rfl

/-- C8: the outcome of `call` does not depend on the status code of the
response (a client that rewrites every status code gives the same result), and
whenever the body of the response to the request `call` sent decodes as the
error envelope with an empty `error` code, `call` returns exactly that body,
unchanged, with a nil error, for every fragment, verb, request body and status
code. -/
theorem call_returns_body_unchanged (rep : Replacement) (c : Client) (client : HTTPClient)
    (fragment verb : GoString) (rb : Option RequestBody) :
    (∀ f : Nat → Nat, c.call rep (withStatus f client) fragment verb rb = c.call rep client fragment verb rb) ∧
    (∀ (req : Request) (status : Nat) (body : GoString) (er : ErrorResponse),
      (c.call rep client fragment verb rb).sent = [req] →
      client req = DoResult.response { StatusCode := status, Body := body, ReadErr := none } →
      Unmarshal ErrorResponse.fields {} body = Except.ok er →
      er.Error = [] →
      (c.call rep client fragment verb rb).value = some body ∧
      (c.call rep client fragment verb rb).err = none) := by
  constructor
  · intro f
    simp only [Client.call, withStatus]
    cases NewRequest verb _ _ with
    | error e => rfl
    | ok req0 =>
      simp only
      cases client _ with
      | failed msg => rfl
      | response resp => rfl
  · intro req status body er hsent hresp hdec he
    have hb : bytes "" = [] := by decide
    rw [call_sent] at hsent
    simp only [Client.call] at hsent ⊢
    cases hreq : NewRequest verb _ _ with
    | error e => rw [hreq] at hsent; simp at hsent
    | ok req0 =>
      rw [hreq] at hsent
      simp only [List.cons.injEq, and_true] at hsent
      simp only [hsent, hresp, hdec, he, hb]
      simp

/-- Witness for C8: the body `null` under status 500 is returned unchanged. -/
theorem call_returns_body_unchanged_witness :
    (Client.call Replacement.rune ⟨bytes "secret"⟩ (fixedBody (fun _ => 500) (bytes "null")) (bytes "/rooms")
      (bytes "GET") none).value = some (bytes "null") ∧
    (Client.call Replacement.rune ⟨bytes "secret"⟩ (fixedBody (fun _ => 500) (bytes "null")) (bytes "/rooms")
      (bytes "GET") none).err = none :=
  (call_returns_body_unchanged Replacement.rune ⟨bytes "secret"⟩ (fixedBody (fun _ => 500) (bytes "null"))
    (bytes "/rooms") (bytes "GET") none).2
    { Method := bytes "GET", URL := bytes "https://api.daily.co/v1/rooms",
      Header := [(bytes "Authorization", bytes "Bearer secret"),
        (bytes "Content-Type", bytes "application/json")],
      Body := [] }
    500 (bytes "null") {} rfl rfl rfl rfl

/-! ## C6: the request of DeleteRoom -/

/-- The requests of `DeleteRoom` are those of the dispatcher. -/
theorem DeleteRoom_sent (rep : Replacement) (c : Client) (client : HTTPClient) (m : GoString) :
    (c.DeleteRoom rep client m).sent =
      (c.call rep client (bytes "/rooms/" ++ m) (bytes "DELETE") none).sent := by
  simp only [Client.DeleteRoom, Sprintf_room]
  cases (c.call rep client (bytes "/rooms/" ++ m) (bytes "DELETE") none).err with
  | some e => rfl
  | none =>
    simp only
    cases Unmarshal deleteMeetingResponse.fields {} _ with
    | error e => rfl
    | ok r => rfl

/-- C6: for every room name `n`, `DeleteRoom` formats the fragment
`"/rooms/" ++ n` (the name verbatim) and sends what the dispatcher sends for
that fragment with the verb `DELETE` and no body: one request, with method
`DELETE` and an empty body; for `n = "abc"` the request URL is
`https://api.daily.co/v1/rooms/abc`. -/
theorem deleteRoom_request (rep : Replacement) (c : Client) (client : HTTPClient) (n : GoString) :
    Sprintf DAILYCO_ROOM_FRAGMENT [n] = bytes "/rooms/" ++ n ∧
    (c.DeleteRoom rep client n).sent =
      (c.call rep client (bytes "/rooms/" ++ n) (bytes "DELETE") none).sent ∧
    (c.DeleteRoom rep client n).sent.map Request.Method = [bytes "DELETE"] ∧
    (c.DeleteRoom rep client n).sent.map Request.Body = [[]] ∧
    (c.DeleteRoom rep client (bytes "abc")).sent.map Request.URL =
      [bytes "https://api.daily.co/v1/rooms/abc"] := by
  have hsent := DeleteRoom_sent rep c client
  have hcall : ∀ m, (c.call rep client (bytes "/rooms/" ++ m) (bytes "DELETE") none).sent =
      [(({ Method := bytes "DELETE",
           URL := URL.String { apiRoot with Path := Join [apiRoot.Path, bytes "/rooms/" ++ m] },
           Header := [], Body := [] } : Request).setHeader (bytes "authorization")
          (Sprintf (bytes "Bearer %s") [c.AuthorizationToken])).setHeader
          (bytes "Content-Type") (bytes "application/json")] := by
    intro m
    have hb : bytes "" = [] := by decide
    rw [call_sent]
    simp only [Client.call, NewRequest_valid _ _ _ validMethod_DELETE, hb]
  refine ⟨Sprintf_room n, hsent n, ?_, ?_, ?_⟩
  · rw [hsent, hcall]; rfl
  · rw [hsent, hcall]; rfl
  · rw [hsent, hcall]
    simp only [List.map, Request.setHeader]
    decide

/-! ## C9: the envelope check and success bodies -/

/-- C9, counterexample: the success bodies `{"token":"tok_123"}` and
`{"deleted":true,"name":"r1"}` are objects without a member `error` or `info`,
and the dispatcher accepts both: it returns the body with a nil error. -/
theorem envelope_check_strict_counterexample :
    parseJSON (bytes "\x7b\"token\":\"tok_123\"\x7d") =
      some (Value.object [(bytes "token", Value.string (bytes "tok_123"))]) ∧
    (Client.call Replacement.rune ⟨bytes "secret"⟩ (fixedBody (fun _ => 200) (bytes "\x7b\"token\":\"tok_123\"\x7d"))
      DAILYCO_MEETING_TOKENS_FRAGMENT (bytes "POST")
      (some (RequestBody.createMeetingToken ⟨none⟩))).value =
      some (bytes "\x7b\"token\":\"tok_123\"\x7d") ∧
    (Client.call Replacement.rune ⟨bytes "secret"⟩ (fixedBody (fun _ => 200) (bytes "\x7b\"token\":\"tok_123\"\x7d"))
      DAILYCO_MEETING_TOKENS_FRAGMENT (bytes "POST")
      (some (RequestBody.createMeetingToken ⟨none⟩))).err = none ∧
    parseJSON (bytes "\x7b\"deleted\":true,\"name\":\"r1\"\x7d") =
      some (Value.object [(bytes "deleted", Value.bool true),
        (bytes "name", Value.string (bytes "r1"))]) ∧
    (Client.call Replacement.rune ⟨bytes "secret"⟩
      (fixedBody (fun _ => 200) (bytes "\x7b\"deleted\":true,\"name\":\"r1\"\x7d"))
      (bytes "/rooms/r1") (bytes "DELETE") none).value =
      some (bytes "\x7b\"deleted\":true,\"name\":\"r1\"\x7d") ∧
    (Client.call Replacement.rune ⟨bytes "secret"⟩
      (fixedBody (fun _ => 200) (bytes "\x7b\"deleted\":true,\"name\":\"r1\"\x7d"))
      (bytes "/rooms/r1") (bytes "DELETE") none).err = none :=
  ⟨rfl, rfl, rfl, rfl, rfl, rfl⟩

/-- C9 (amended): the envelope check is lenient about shape.  When the response
body is a JSON object none of whose member names matches `error` or `info`
(case-insensitively), it decodes as the envelope with an empty error code, and
the dispatcher returns the body unchanged with a nil error. -/
theorem envelope_check_is_lenient (rep : Replacement) (c : Client) (status : Request → Nat)
    (body fragment verb : GoString) (rb : Option RequestBody) (ms : List (GoString × Value))
    (hv : validMethod verb = true)
    (hobj : parseJSON body = some (Value.object ms))
    (hkeys : ∀ m ∈ ms, foldName m.1 ≠ bytes "ERROR" ∧ foldName m.1 ≠ bytes "INFO") :
    Unmarshal ErrorResponse.fields {} body = Except.ok {} ∧
    (c.call rep (fixedBody status body) fragment verb rb).value = some body ∧
    (c.call rep (fixedBody status body) fragment verb rb).err = none := by
  have hskip : ∀ m ∈ ms, findField ErrorResponse.fields m.1 = none := by
    intro m hm
    rw [findField_envelope, if_neg (hkeys m hm).1, if_neg (hkeys m hm).2]
  have hdec : Unmarshal ErrorResponse.fields {} body = Except.ok {} := by
    simp only [Unmarshal, hobj, decodeStruct, decodeObject_skip _ _ _ hskip]
  exact ⟨hdec, call_fixedBody_accept rep c status body fragment verb rb hv _ hdec rfl⟩

/-- Witness for C9 (amended): the body `{"token":"tok_123"}`. -/
theorem envelope_check_is_lenient_witness :
    validMethod (bytes "POST") = true ∧
    parseJSON (bytes "\x7b\"token\":\"tok_123\"\x7d") =
      some (Value.object [(bytes "token", Value.string (bytes "tok_123"))]) ∧
    (Client.call Replacement.rune ⟨bytes "secret"⟩ (fixedBody (fun _ => 200) (bytes "\x7b\"token\":\"tok_123\"\x7d"))
      (bytes "/meeting-tokens") (bytes "POST") none).err = none :=
  ⟨by decide, rfl,
    (envelope_check_is_lenient Replacement.rune ⟨bytes "secret"⟩ (fun _ => 200)
      (bytes "\x7b\"token\":\"tok_123\"\x7d") (bytes "/meeting-tokens") (bytes "POST") none
      [(bytes "token", Value.string (bytes "tok_123"))] (by decide) rfl
      (by decide)).2.2⟩

/-! ## C4: CreateMeetingToken with nil properties -/

/-- C4, counterexample: the body `{"token":"tok_123","info":5}` is a JSON
object with a string `token` and no `error` member, and `CreateMeetingToken`
returns a type error and no token; on `{"token":"a","TOKEN":"b"}` it returns the
token `b`, not the value of the member named `token`. -/
theorem createMeetingToken_counterexample :
    parseJSON (bytes "\x7b\"token\":\"tok_123\",\"info\":5\x7d") =
      some (Value.object [(bytes "token", Value.string (bytes "tok_123")),
        (bytes "info", Value.number (bytes "5"))]) ∧
    (Client.CreateMeetingToken Replacement.rune ⟨bytes "secret"⟩
      (fixedBody (fun _ => 200) (bytes "\x7b\"token\":\"tok_123\",\"info\":5\x7d")) none).value = none ∧
    (Client.CreateMeetingToken Replacement.rune ⟨bytes "secret"⟩
      (fixedBody (fun _ => 200) (bytes "\x7b\"token\":\"tok_123\",\"info\":5\x7d")) none).err =
      some Error.unmarshalTypeError ∧
    (Client.CreateMeetingToken Replacement.rune ⟨bytes "secret"⟩
      (fixedBody (fun _ => 200) (bytes "\x7b\"token\":\"a\",\"TOKEN\":\"b\"\x7d")) none).value =
      some { Token := bytes "b" } :=
  ⟨rfl, rfl, rfl, rfl⟩

/-- C4 (amended): `CreateMeetingToken` with nil properties sends one `POST`
whose body is exactly `{}`; and when the response body is a JSON object with a
member named `token` whose value is a string `t`, no other member whose name
matches `token` case-insensitively, and whose members matching `error` or `info`
are strings or null with `error` empty, it returns the token response with
`Token = t` and a nil error. -/
theorem createMeetingToken_nil_properties (rep : Replacement) (c : Client) (client : HTTPClient)
    (status : Request → Nat) (body t : GoString) (pre post : List (GoString × Value))
    (hobj : parseJSON body = some (Value.object (pre ++ (bytes "token", Value.string t) :: post)))
    (hothers : ∀ m ∈ pre ++ post,
      foldName m.1 ≠ bytes "TOKEN" ∧
      (foldName m.1 = bytes "ERROR" → m.2 = Value.string [] ∨ m.2 = Value.null) ∧
      (foldName m.1 = bytes "INFO" → (∃ s, m.2 = Value.string s) ∨ m.2 = Value.null)) :
    (c.CreateMeetingToken rep client none).sent.map Request.Method = [bytes "POST"] ∧
    (c.CreateMeetingToken rep client none).sent.map Request.Body = [bytes "\x7b\x7d"] ∧
    (c.CreateMeetingToken rep (fixedBody status body) none).value = some { Token := t } ∧
    (c.CreateMeetingToken rep (fixedBody status body) none).err = none := by
  have hsent : (c.CreateMeetingToken rep client none).sent =
      (c.call rep client DAILYCO_MEETING_TOKENS_FRAGMENT (bytes "POST")
        (some (RequestBody.createMeetingToken ⟨none⟩))).sent := by
    simp only [Client.CreateMeetingToken]
    cases (c.call rep client DAILYCO_MEETING_TOKENS_FRAGMENT (bytes "POST")
        (some (RequestBody.createMeetingToken ⟨none⟩))).err with
    | some e => rfl
    | none =>
      simp only
      cases Unmarshal MeetingTokenResponse.fields {} _ with
      | error e => rfl
      | ok r => rfl
  have hcall : (c.call rep client DAILYCO_MEETING_TOKENS_FRAGMENT (bytes "POST")
        (some (RequestBody.createMeetingToken ⟨none⟩))).sent =
      [(({ Method := bytes "POST",
           URL := URL.String
             { apiRoot with Path := Join [apiRoot.Path, DAILYCO_MEETING_TOKENS_FRAGMENT] },
           Header := [],
           Body := Marshal rep (RequestBody.createMeetingToken ⟨none⟩) } : Request).setHeader
          (bytes "authorization") (Sprintf (bytes "Bearer %s") [c.AuthorizationToken])).setHeader
          (bytes "Content-Type") (bytes "application/json")] := by
    rw [call_sent]
    simp only [Client.call, NewRequest_valid _ _ _ validMethod_POST]
  -- the envelope check
  have henv : ∃ er, Unmarshal ErrorResponse.fields {} body = Except.ok er ∧ er.Error = [] := by
    have htok : foldName (bytes "token") ≠ bytes "ERROR" ∧ foldName (bytes "token") ≠ bytes "INFO" := by
      decide
    obtain ⟨er, h1, h2⟩ := decodeObject_envelope_ok
      (pre ++ (bytes "token", Value.string t) :: post) {} rfl (by
        intro m hm
        rcases List.mem_append.1 hm with h | h
        · exact (hothers m (List.mem_append.2 (Or.inl h))).2
        · rcases List.mem_cons.1 h with h | h
          · subst h
            exact ⟨fun h => absurd h htok.1, fun h => absurd h htok.2⟩
          · exact (hothers m (List.mem_append.2 (Or.inr h))).2)
    exact ⟨er, by simp only [Unmarshal, hobj, decodeStruct, h1], h2⟩
  obtain ⟨er, hdec, he⟩ := henv
  have hacc := call_fixedBody_accept rep c status body DAILYCO_MEETING_TOKENS_FRAGMENT (bytes "POST")
    (some (RequestBody.createMeetingToken ⟨none⟩)) validMethod_POST er hdec he
  -- the typed decoding
  have hskip : ∀ l : List (GoString × Value), (∀ m ∈ l, foldName m.1 ≠ bytes "TOKEN") →
      ∀ m ∈ l, findField MeetingTokenResponse.fields m.1 = none := by
    intro l hl m hm
    rw [findField_token, if_neg (hl m hm)]
  have htyped : Unmarshal MeetingTokenResponse.fields {} body = Except.ok { Token := t } := by
    have h1 := decodeObject_append_skip MeetingTokenResponse.fields pre
      ((bytes "token", Value.string t) :: post) {}
      (hskip pre (fun m hm => (hothers m (List.mem_append.2 (Or.inl hm))).1))
    have h2 : ∀ st, decodeObject MeetingTokenResponse.fields post st = some st := fun st =>
      decodeObject_skip _ _ st
        (hskip post (fun m hm => (hothers m (List.mem_append.2 (Or.inr hm))).1))
    have h3 : findField MeetingTokenResponse.fields (bytes "token") =
        some MeetingTokenResponse.tokenField := by
      rw [findField_token, if_pos foldName_token]
    simp only [Unmarshal, hobj, decodeStruct, h1, decodeObject, h3,
      MeetingTokenResponse.tokenField, storeString, h2]
  refine ⟨?_, ?_, ?_, ?_⟩
  · rw [hsent, hcall]; rfl
  · rw [hsent, hcall]; rfl
  · simp only [Client.CreateMeetingToken, hacc.1, hacc.2, Option.getD, htyped]
  · simp only [Client.CreateMeetingToken, hacc.1, hacc.2, Option.getD, htyped]

/-- Witness for C4 (amended): the response `{"token":"tok_123"}`. -/
theorem createMeetingToken_nil_properties_witness :
    parseJSON (bytes "\x7b\"token\":\"tok_123\"\x7d") =
      some (Value.object ([] ++ (bytes "token", Value.string (bytes "tok_123")) :: [])) ∧
    (Client.CreateMeetingToken Replacement.rune ⟨bytes "secret"⟩
      (fixedBody (fun _ => 200) (bytes "\x7b\"token\":\"tok_123\"\x7d")) none).sent.map Request.Body =
      [bytes "\x7b\x7d"] ∧
    (Client.CreateMeetingToken Replacement.rune ⟨bytes "secret"⟩
      (fixedBody (fun _ => 200) (bytes "\x7b\"token\":\"tok_123\"\x7d")) none).value =
      some { Token := bytes "tok_123" } ∧
    (Client.CreateMeetingToken Replacement.rune ⟨bytes "secret"⟩
      (fixedBody (fun _ => 200) (bytes "\x7b\"token\":\"tok_123\"\x7d")) none).err = none :=
  ⟨rfl,
    (createMeetingToken_nil_properties Replacement.rune ⟨bytes "secret"⟩
      (fixedBody (fun _ => 200) (bytes "\x7b\"token\":\"tok_123\"\x7d")) (fun _ => 200)
      (bytes "\x7b\"token\":\"tok_123\"\x7d") (bytes "tok_123") [] [] rfl
      (by intro m hm; simp at hm)).2⟩
/-! ## The decoder reads an object field by field -/

theorem intercalate_cons_cons (s s1 : GoString) (ss : List GoString) :
    [47].intercalate (s :: s1 :: ss) = s ++ 47 :: [47].intercalate (s1 :: ss) := by
  simp [List.intercalate, List.intersperse]

theorem intercalate_single (s : GoString) : ([47] : GoString).intercalate [s] = s := by
  simp [List.intercalate, List.intersperse]

/-- The inner loop of a real path element copies it up to the next slash. -/
theorem cleanLoop_copy (seg : GoString) (hseg : (47 : Nat) ∉ seg) (dotdot : Nat) (rout t : GoString) :
    cleanLoop true true dotdot rout (seg ++ 47 :: t) =
      cleanLoop true false dotdot (seg.reverse ++ rout) t ∧
    cleanLoop true true dotdot rout seg = seg.reverse ++ rout := by
  induction seg generalizing rout with
  | nil => simp [cleanLoop]
  | cons a seg ih =>
    have ha : a ≠ 47 := fun h => hseg (h ▸ List.mem_cons_self _ _)
    have hs : (47 : Nat) ∉ seg := fun h => hseg (List.mem_cons_of_mem _ h)
    simp [cleanLoop, ha, ih hs]

theorem backtrack_segment (l R : GoString) (hl : (47 : Nat) ∉ l) (c : Nat) (hc : c ≠ 47)
    (hR : R ≠ []) : backtrack 1 c (l ++ 47 :: R) = R := by
  induction l generalizing c with
  | nil =>
    cases R with
    | nil => exact absurd rfl hR
    | cons r R => simp [backtrack, hc]
  | cons a l ih =>
    have ha : a ≠ 47 := fun h => hl (h ▸ List.mem_cons_self _ _)
    have hs : (47 : Nat) ∉ l := fun h => hl (List.mem_cons_of_mem _ h)
    simp only [List.cons_append, backtrack]
    rw [if_pos]
    · exact ih hs a ha
    · exact ⟨by simp, hc⟩

theorem backtrack_first (l : GoString) (hl : (47 : Nat) ∉ l) (c : Nat) (hc : c ≠ 47) :
    backtrack 1 c (l ++ [47]) = [47] := by
  induction l generalizing c with
  | nil => simp [backtrack]
  | cons a l ih =>
    have ha : a ≠ 47 := fun h => hl (h ▸ List.mem_cons_self _ _)
    have hs : (47 : Nat) ∉ l := fun h => hl (List.mem_cons_of_mem _ h)
    simp only [List.cons_append, backtrack]
    rw [if_pos]
    · exact ih hs a ha
    · exact ⟨by simp, hc⟩

theorem rootedPath_append (stack : List GoString) (s : GoString) :
    rootedPath (stack ++ [s]) =
      if stack = [] then 47 :: s else rootedPath stack ++ 47 :: s := by
  induction stack with
  | nil => simp [rootedPath, List.intercalate, List.intersperse]
  | cons a stack ih =>
    cases stack with
    | nil => simp [rootedPath, List.intercalate, List.intersperse]
    | cons b stack =>
      simp only [rootedPath, List.cons_append, intercalate_cons_cons] at ih ⊢
      simp at ih ⊢
      exact ih

theorem rootedPath_length (stack : List GoString) (h : goodStack stack) :
    (rootedPath stack).length = 1 ↔ stack = [] := by
  cases stack with
  | nil => simp [rootedPath, List.intercalate]
  | cons a stack =>
    have ha := (h a (List.mem_cons_self _ _)).1
    cases stack with
    | nil =>
      simp [rootedPath, intercalate_single]
      exact ha
    | cons b stack =>
      simp [rootedPath, intercalate_cons_cons]

theorem rootedPath_reverse_append (stack : List GoString) (h : goodStack stack) (seg : GoString) :
    (rootedPath (stack ++ [seg])).reverse =
      seg.reverse ++ (if (rootedPath stack).length ≠ 1 then 47 :: (rootedPath stack).reverse
        else (rootedPath stack).reverse) := by
  rw [rootedPath_append]
  by_cases hs : stack = []
  · subst hs
    simp [rootedPath, List.intercalate]
  · have : (rootedPath stack).length ≠ 1 := fun h1 => hs ((rootedPath_length stack h).1 h1)
    simp [hs, this]

/-- The default case of the loop: a real path element starts. -/
theorem cleanLoop_real (dotdot : Nat) (rout : GoString) (c : Nat) (rest : GoString)
    (h1 : c ≠ 47) (h2 : ¬(c = 46 ∧ (rest = [] ∨ rest.head? = some 47)))
    (h3 : ¬(c = 46 ∧ rest.head? = some 46 ∧ (rest.tail = [] ∨ rest.tail.head? = some 47))) :
    cleanLoop true false dotdot rout (c :: rest) =
      cleanLoop true true dotdot (c :: (if rout.length ≠ 1 then 47 :: rout else rout)) rest := by
  cases rest with
  | nil =>
    rw [cleanLoop.eq_3, if_neg h1, if_neg h2, if_neg h3]
    simp
  | cons d rest =>
    rw [cleanLoop.eq_4, if_neg h1, if_neg h2, if_neg h3]
    simp

theorem cleanLoop_plain (stack : List GoString) (hst : goodStack stack) (a : Nat) (seg t : GoString)
    (ha : a ≠ 47) (hseg : (47 : Nat) ∉ seg) (h1 : a :: seg ≠ [46]) (h2 : a :: seg ≠ [46, 46]) :
    cleanLoop true false 1 (rootedPath stack).reverse ((a :: seg) ++ 47 :: t) =
      cleanLoop true false 1 (rootedPath (stack ++ [a :: seg])).reverse t ∧
    cleanLoop true false 1 (rootedPath stack).reverse (a :: seg) =
      (rootedPath (stack ++ [a :: seg])).reverse := by
  have hcopy := fun rout => cleanLoop_copy seg hseg 1 rout t
  rw [rootedPath_reverse_append stack hst]
  have key : ∀ tail : GoString, (tail = [] ∨ tail.head? = some 47) →
      ¬(a = 46 ∧ (seg ++ tail = [] ∨ (seg ++ tail).head? = some 47)) ∧
      ¬(a = 46 ∧ (seg ++ tail).head? = some 46 ∧
        ((seg ++ tail).tail = [] ∨ (seg ++ tail).tail.head? = some 47)) := by
    intro tail htail
    cases seg with
    | nil =>
      have ha46 : a ≠ 46 := fun h => h1 (by rw [h])
      simp [ha46]
    | cons b seg =>
      have hb : b ≠ 47 := fun h => hseg (h ▸ List.mem_cons_self _ _)
      cases seg with
      | nil =>
        have hab : a = 46 → b ≠ 46 := fun h h' => h2 (by rw [h, h'])
        constructor
        · simp [hb]
        · intro h
          exact hab h.1 (by simpa using h.2.1)
      | cons d seg =>
        have hd : d ≠ 47 := fun h => hseg (h ▸ List.mem_cons_of_mem _ (List.mem_cons_self _ _))
        simp [hb, hd]
  constructor
  · have k := key (47 :: t) (Or.inr rfl)
    rw [List.cons_append, cleanLoop_real 1 _ a _ ha k.1 k.2, (hcopy _).1]
    simp
  · have k := key [] (Or.inl rfl)
    rw [List.append_nil] at k
    rw [cleanLoop_real 1 _ a _ ha k.1 k.2, (hcopy _).2]
    simp

theorem goodStack_append (stack : List GoString) (seg : GoString) (h : goodStack stack)
    (h1 : seg ≠ []) (h2 : (47 : Nat) ∉ seg) : goodStack (stack ++ [seg]) := by
  intro s hs
  rcases List.mem_append.1 hs with h' | h'
  · exact h s h'
  · simp at h'; subst h'; exact ⟨h1, h2⟩

theorem goodStack_dropLast (stack : List GoString) (h : goodStack stack) :
    goodStack stack.dropLast :=
  fun s hs => h s (List.dropLast_subset _ hs)

theorem goodStack_cleanSegment (stack : List GoString) (seg : GoString) (h : goodStack stack)
    (h2 : (47 : Nat) ∉ seg) : goodStack (cleanSegment stack seg) := by
  unfold cleanSegment
  split
  · exact h
  · split
    · exact goodStack_dropLast _ h
    · rename_i h1 _
      exact goodStack_append _ _ h (fun h0 => h1 (Or.inl h0)) h2

/-- The `..` element on a rooted path. -/
theorem cleanLoop_dotdot (stack : List GoString) (hst : goodStack stack) (t : GoString) :
    cleanLoop true false 1 (rootedPath stack).reverse (46 :: 46 :: 47 :: t) =
      cleanLoop true false 1 (rootedPath stack.dropLast).reverse t ∧
    cleanLoop true false 1 (rootedPath stack).reverse [46, 46] =
      (rootedPath stack.dropLast).reverse := by
  have hback : (rootedPath stack).length > 1 →
      backtrackFrom 1 (rootedPath stack).reverse = (rootedPath stack.dropLast).reverse := by
    intro hlen
    rcases List.eq_nil_or_concat stack with h | ⟨init, s, h⟩
    · subst h; simp [rootedPath, List.intercalate] at hlen
    · rw [List.concat_eq_append] at h
      subst h
      have hinit : goodStack init := fun x hx => hst x (List.mem_append.2 (Or.inl hx))
      have hs := hst s (List.mem_append.2 (Or.inr (List.mem_singleton.2 rfl)))
      rw [List.dropLast_append_of_ne_nil _ (by simp), List.dropLast_single, List.append_nil, rootedPath_append]
      obtain ⟨hne, hslash⟩ := hs
      rcases List.eq_nil_or_concat s with h0 | ⟨s0, last, h0⟩
      · exact absurd h0 hne
      · rw [List.concat_eq_append] at h0
        subst h0
        have hlast : last ≠ 47 := fun h => hslash (by simp [h])
        have hs0 : (47 : Nat) ∉ s0.reverse := fun h => hslash (by
          simp at h; simp [h])
        by_cases hi : init = []
        · subst hi
          simp only [if_true, rootedPath, List.intercalate, List.intersperse, List.flatten]
          simp only [List.reverse_cons, List.reverse_append, List.reverse_nil, List.nil_append,
            List.singleton_append, backtrackFrom, List.cons_append]
          exact backtrack_first _ hs0 last hlast
        · simp only [hi, if_false]
          simp only [List.reverse_append, List.reverse_cons, List.reverse_nil, List.nil_append,
            List.singleton_append, backtrackFrom, List.cons_append, List.append_assoc]
          have hR : (rootedPath init).reverse ≠ [] := by simp [rootedPath]
          exact backtrack_segment _ _ hs0 last hlast hR
  have hroot : ¬ (rootedPath stack).length > 1 → stack.dropLast = stack := by
    intro hlen
    have : (rootedPath stack).length = 1 := by
      have : 0 < (rootedPath stack).length := by simp [rootedPath]
      omega
    rw [(rootedPath_length stack hst).1 this]
    rfl
  constructor
  · rw [cleanLoop.eq_4]
    simp only [show ¬ ((46 : Nat) = 47) by decide, if_false]
    rw [if_neg (by simp), if_pos (by simp)]
    by_cases hlen : (rootedPath stack).length > 1
    · rw [List.length_reverse, if_pos hlen, hback hlen]
      rw [cleanLoop.eq_def]
      cases t <;> simp
    · rw [List.length_reverse, if_neg hlen]
      simp only [Bool.not_true, Bool.false_eq_true, if_false]
      rw [hroot hlen]
      rw [cleanLoop.eq_def]
      cases t <;> simp
  · rw [cleanLoop.eq_4]
    simp only [show ¬ ((46 : Nat) = 47) by decide, if_false]
    rw [if_neg (by simp), if_pos (by simp)]
    by_cases hlen : (rootedPath stack).length > 1
    · rw [List.length_reverse, if_pos hlen, hback hlen, cleanLoop.eq_1]
    · rw [List.length_reverse, if_neg hlen]
      simp only [Bool.not_true, Bool.false_eq_true, if_false]
      rw [hroot hlen, cleanLoop.eq_1]

/-- One path element followed by a slash, or at the end of the path. -/
theorem cleanLoop_segment (stack : List GoString) (hst : goodStack stack) (seg t : GoString)
    (hseg : (47 : Nat) ∉ seg) :
    cleanLoop true false 1 (rootedPath stack).reverse (seg ++ 47 :: t) =
      cleanLoop true false 1 (rootedPath (cleanSegment stack seg)).reverse t ∧
    cleanLoop true false 1 (rootedPath stack).reverse seg =
      (rootedPath (cleanSegment stack seg)).reverse := by
  by_cases h0 : seg = []
  · subst h0
    simp only [cleanSegment, true_or, if_true, List.nil_append, cleanLoop.eq_1, and_true]
    rw [cleanLoop.eq_def]
    cases t <;> simp
  · by_cases h1 : seg = [46]
    · subst h1
      simp only [cleanSegment, or_true, if_true, List.singleton_append]
      constructor
      · rw [cleanLoop.eq_4]
        simp only [show ¬ ((46 : Nat) = 47) by decide, if_false]
        rw [if_pos (by simp)]
        rw [cleanLoop.eq_def]
        cases t <;> simp
      · rw [cleanLoop.eq_3]
        simp [cleanLoop.eq_1]
    · by_cases h2 : seg = [46, 46]
      · subst h2
        have := cleanLoop_dotdot stack hst t
        simp only [cleanSegment, h0, h1, false_or, if_false, if_true, List.cons_append,
          List.nil_append]
        exact this
      · cases seg with
        | nil => exact absurd rfl h0
        | cons a seg =>
          have ha : a ≠ 47 := fun h => hseg (h ▸ List.mem_cons_self _ _)
          have hs : (47 : Nat) ∉ seg := fun h => hseg (List.mem_cons_of_mem _ h)
          have := cleanLoop_plain stack hst a seg t ha hs h1 h2
          simp only [cleanSegment, h0, h1, h2, false_or, if_false]
          exact this

/-- The loop of `path.Clean` on a rooted path, element by element. -/
theorem cleanLoop_segments (segs : List GoString) (hne : segs ≠ [])
    (hsegs : ∀ s ∈ segs, (47 : Nat) ∉ s) (stack : List GoString) (hst : goodStack stack) :
    cleanLoop true false 1 (rootedPath stack).reverse ([47].intercalate segs) =
      (rootedPath (segs.foldl cleanSegment stack)).reverse := by
  induction segs generalizing stack with
  | nil => exact absurd rfl hne
  | cons s segs ih =>
    have hs : (47 : Nat) ∉ s := hsegs s (List.mem_cons_self _ _)
    cases segs with
    | nil =>
      rw [intercalate_single]
      exact (cleanLoop_segment stack hst s [] hs).2
    | cons s1 ss =>
      rw [intercalate_cons_cons, (cleanLoop_segment stack hst s _ hs).1]
      rw [ih (by simp) (fun x hx => hsegs x (List.mem_cons_of_mem _ hx)) _
        (goodStack_cleanSegment stack s hst hs)]
      rfl

theorem splitOn_no_sep (xs : GoString) : ∀ s ∈ xs.splitOn 47, (47 : Nat) ∉ s := by
  induction xs with
  | nil => simp [List.splitOn]
  | cons x xs ih =>
    intro s hs
    simp only [List.splitOn] at ih hs
    rw [List.splitOnP_cons] at hs
    by_cases hx : x = 47
    · simp only [hx, beq_self_eq_true, if_true, List.mem_cons] at hs
      rcases hs with h | h
      · subst h; simp
      · exact ih s h
    · have hx' : (x == 47) = false := by simpa using hx
      simp only [hx', Bool.false_eq_true, if_false] at hs
      cases hsp : List.splitOnP (fun x => x == 47) xs with
      | nil => exact absurd hsp (List.splitOnP_ne_nil _ _)
      | cons h tl =>
        rw [hsp] at hs ih
        simp only [List.modifyHead, List.mem_cons] at hs
        rcases hs with h' | h'
        · subst h'
          intro hmem
          rcases List.mem_cons.1 hmem with h1 | h1
          · exact hx h1.symm
          · exact ih h (List.mem_cons_self _ _) h1
        · exact ih s (List.mem_cons_of_mem _ h')

theorem splitOn_ne_nil (xs : GoString) : xs.splitOn 47 ≠ [] := by
  simp only [List.splitOn]
  exact List.splitOnP_ne_nil _ _

/-- Function `path.Clean` on a rooted path: the elements are processed from
left to right on a stack. -/
theorem Clean_rooted (text : GoString) :
    Clean (47 :: text) = rootedPath ((text.splitOn 47).foldl cleanSegment []) := by
  have h := cleanLoop_segments (text.splitOn 47) (splitOn_ne_nil text) (splitOn_no_sep text) []
    (fun s hs => absurd hs (List.not_mem_nil s))
  rw [List.intercalate_splitOn] at h
  have h0 : (rootedPath []).reverse = [47] := by simp [rootedPath, List.intercalate]
  rw [h0] at h
  simp only [Clean, if_true, h, List.reverse_reverse]
  rw [if_neg (by simp [rootedPath])]

theorem plainStack_cleanSegment (stack : List GoString) (seg : GoString)
    (h : ∀ s ∈ stack, plainSegment s) : ∀ s ∈ cleanSegment stack seg, plainSegment s := by
  have hd1 : bytes "." = [46] := by decide
  have hd2 : bytes ".." = [46, 46] := by decide
  unfold cleanSegment
  split
  · exact h
  · split
    · exact fun s hs => h s (List.dropLast_subset _ hs)
    · rename_i h1 h2
      intro s hs
      rcases List.mem_append.1 hs with h' | h'
      · exact h s h'
      · simp at h'; subst h'
        refine ⟨fun h0 => h1 (Or.inl h0), ?_, ?_⟩
        · rw [hd1]; exact fun h0 => h1 (Or.inr h0)
        · rw [hd2]; exact h2

theorem plainStack_foldl (segs stack : List GoString) (h : ∀ s ∈ stack, plainSegment s) :
    ∀ s ∈ segs.foldl cleanSegment stack, plainSegment s := by
  induction segs generalizing stack with
  | nil => exact h
  | cons a segs ih => exact ih _ (plainStack_cleanSegment stack a h)

theorem goodStack_foldl (segs stack : List GoString) (h : goodStack stack)
    (hsegs : ∀ s ∈ segs, (47 : Nat) ∉ s) : goodStack (segs.foldl cleanSegment stack) := by
  induction segs generalizing stack with
  | nil => exact h
  | cons a segs ih =>
    exact ih _ (goodStack_cleanSegment stack a h (hsegs a (List.mem_cons_self _ _)))
      (fun s hs => hsegs s (List.mem_cons_of_mem _ hs))

theorem foldl_plain (segs stack : List GoString) (h : ∀ s ∈ segs, plainSegment s) :
    segs.foldl cleanSegment stack = stack ++ segs := by
  have hd1 : bytes "." = [46] := by decide
  have hd2 : bytes ".." = [46, 46] := by decide
  induction segs generalizing stack with
  | nil => simp
  | cons a segs ih =>
    have ha := h a (List.mem_cons_self _ _)
    unfold plainSegment at ha
    rw [hd1, hd2] at ha
    rw [List.foldl_cons, ih _ (fun s hs => h s (List.mem_cons_of_mem _ hs))]
    simp [cleanSegment, ha.1, ha.2.1, ha.2.2]

/-- The path `call` requests for `DeleteRoom`, as a stack computation. -/
theorem Join_room (name : GoString) :
    Join [apiRoot.Path, bytes "/rooms/" ++ name] =
      rootedPath ((name.splitOn 47).foldl cleanSegment [bytes "v1", bytes "rooms"]) ∧
    Clean (bytes "/v1/rooms/" ++ name) =
      rootedPath ((name.splitOn 47).foldl cleanSegment [bytes "v1", bytes "rooms"]) := by
  have hp : apiRoot.Path = 47 :: 118 :: 49 :: [47] := by decide
  have hr : bytes "/rooms/" = [47, 114, 111, 111, 109, 115, 47] := by decide
  have hr2 : bytes "/v1/rooms/" = [47, 118, 49, 47, 114, 111, 111, 109, 115, 47] := by decide
  have hv1 : bytes "v1" = [118, 49] := by decide
  have hrooms : bytes "rooms" = [114, 111, 111, 109, 115] := by decide
  have hsp : ∀ (xs as : GoString), (47 : Nat) ∉ xs →
      (xs ++ 47 :: as).splitOn 47 = xs :: as.splitOn 47 := by
    intro xs as hxs
    simp only [List.splitOn]
    exact List.splitOnP_first _ _ (fun x hx => by
      have : x ≠ 47 := fun h => hxs (h ▸ hx)
      simpa using this) 47 (by simp) as
  constructor
  · have hj : Join [apiRoot.Path, bytes "/rooms/" ++ name] =
        Clean (47 :: ([118, 49] ++ 47 :: ([] ++ 47 :: ([] ++ 47 ::
          ([114, 111, 111, 109, 115] ++ 47 :: name))))) := by
      rw [hp, hr]
      simp [Join, joinBuf]
    rw [hj, Clean_rooted, hsp _ _ (by decide), hsp _ _ (by decide), hsp _ _ (by decide),
      hsp _ _ (by decide), hv1, hrooms]
    rfl
  · have hj : Clean (bytes "/v1/rooms/" ++ name) =
        Clean (47 :: ([118, 49] ++ 47 :: ([114, 111, 111, 109, 115] ++ 47 :: name))) := by
      rw [hr2]; rfl
    rw [hj, Clean_rooted, hsp _ _ (by decide), hsp _ _ (by decide), hv1, hrooms]
    rfl

theorem rootedPath_room (name : GoString) :
    rootedPath ([bytes "v1", bytes "rooms"] ++ name.splitOn 47) = bytes "/v1/rooms/" ++ name := by
  have hr2 : bytes "/v1/rooms/" = [47, 118, 49, 47, 114, 111, 111, 109, 115, 47] := by decide
  have hv1 : bytes "v1" = [118, 49] := by decide
  have hrooms : bytes "rooms" = [114, 111, 111, 109, 115] := by decide
  cases hs : name.splitOn 47 with
  | nil => exact absurd hs (splitOn_ne_nil name)
  | cons s ss =>
    have := List.intercalate_splitOn name 47
    rw [hs] at this
    simp only [rootedPath, List.cons_append, List.nil_append, intercalate_cons_cons, this, hr2, hv1,
      hrooms]

/-- C10: the URL path `DeleteRoom` requests is the cleaning path join of `/v1/`
and `/rooms/` followed by the name, which is `path.Clean` of
`"/v1/rooms/" ++ name`; it equals `"/v1/rooms/" ++ name` if and only if every
`/`-separated element of the name is neither empty nor `.` nor `..` (so the
name is not empty and has no leading, trailing or doubled slash); for the names
`""` and `"."` the `DELETE` goes to `/v1/rooms`, for `".."` to `/v1`. -/
theorem deleteRoom_path (rep : Replacement) (c : Client) (client : HTTPClient) (name : GoString) :
    (c.DeleteRoom rep client name).sent.map Request.URL =
      [URL.String { apiRoot with Path := Join [apiRoot.Path, bytes "/rooms/" ++ name] }] ∧
    Join [apiRoot.Path, bytes "/rooms/" ++ name] = Clean (bytes "/v1/rooms/" ++ name) ∧
    (Join [apiRoot.Path, bytes "/rooms/" ++ name] = bytes "/v1/rooms/" ++ name ↔
      ∀ seg ∈ name.splitOn 47, plainSegment seg) ∧
    Join [apiRoot.Path, bytes "/rooms/" ++ bytes ""] = bytes "/v1/rooms" ∧
    Join [apiRoot.Path, bytes "/rooms/" ++ bytes "."] = bytes "/v1/rooms" ∧
    Join [apiRoot.Path, bytes "/rooms/" ++ bytes ".."] = bytes "/v1" ∧
    (c.DeleteRoom rep client (bytes "")).sent.map Request.URL = [bytes "https://api.daily.co/v1/rooms"] ∧
    (c.DeleteRoom rep client (bytes "..")).sent.map Request.URL = [bytes "https://api.daily.co/v1"] := by
  have hurl : ∀ m, (c.DeleteRoom rep client m).sent.map Request.URL =
      [URL.String { apiRoot with Path := Join [apiRoot.Path, bytes "/rooms/" ++ m] }] := by
    intro m
    have hb : bytes "" = [] := by decide
    rw [DeleteRoom_sent rep c client m, call_sent]
    simp only [Client.call, NewRequest_valid _ _ _ validMethod_DELETE, hb]
    rfl
  refine ⟨hurl name, ?_, ?_, by decide, by decide, by decide, ?_, ?_⟩
  · rw [(Join_room name).1, (Join_room name).2]
  · rw [(Join_room name).1, ← rootedPath_room name]
    constructor
    · intro h
      have hA := goodStack_foldl (name.splitOn 47) [bytes "v1", bytes "rooms"]
        (by intro s hs; simp at hs; rcases hs with h | h <;> subst h <;> decide)
        (splitOn_no_sep name)
      have hP := plainStack_foldl (name.splitOn 47) [bytes "v1", bytes "rooms"]
        (by
          intro s hs; simp at hs
          rcases hs with h | h <;> subst h <;> exact ⟨by decide, by decide, by decide⟩)
      have hB : ∀ l ∈ [bytes "v1", bytes "rooms"] ++ name.splitOn 47, (47 : Nat) ∉ l := by
        intro l hl
        rcases List.mem_append.1 hl with h' | h'
        · simp at h'; rcases h' with h' | h' <;> subst h' <;> decide
        · exact splitOn_no_sep name l h'
      have hi : [47].intercalate ((name.splitOn 47).foldl cleanSegment [bytes "v1", bytes "rooms"]) =
          [47].intercalate ([bytes "v1", bytes "rooms"] ++ name.splitOn 47) := by
        simpa [rootedPath] using h
      have hne : (name.splitOn 47).foldl cleanSegment [bytes "v1", bytes "rooms"] ≠ [] := by
        intro h0
        rw [h0] at hi
        simp [List.intercalate, List.intersperse] at hi
      have e1 := List.splitOn_intercalate _ 47 (fun l hl => (hA l hl).2) hne
      have e2 := List.splitOn_intercalate _ 47 hB (by simp)
      rw [hi, e2] at e1
      intro seg hseg
      exact hP seg (by rw [← e1]; exact List.mem_append.2 (Or.inr hseg))
    · intro h
      rw [foldl_plain _ _ h]
  · rw [hurl]; decide
  · rw [hurl]; decide

/-! ## strconv: formatting and parsing are inverse -/

theorem parseDigits_append (l : GoString) (d acc : Nat) (hd : d < 10) :
    parseDigits acc (l ++ [48 + d]) = (parseDigits acc l).map (fun v => v * 10 + d) := by
  induction l generalizing acc with
  | nil =>
    have h1 : 48 ≤ 48 + d ∧ 48 + d ≤ 57 := by omega
    simp [parseDigits, h1]
  | cons c l ih =>
    simp only [List.cons_append, parseDigits]
    split
    · exact ih _
    · rfl

theorem parseDigits_formatDigits (fuel n : Nat) (h : n < 10 ^ fuel) :
    parseDigits 0 (formatDigits fuel n) = some n := by
  induction fuel generalizing n with
  | zero => simp at h; subst h; simp [formatDigits, parseDigits]
  | succ fuel ih =>
    simp only [formatDigits]
    split
    · rename_i h10
      have h1 : 48 ≤ 48 + n ∧ 48 + n ≤ 57 := by omega
      simp [parseDigits, h1]
    · rename_i h10
      have hlt : n / 10 < 10 ^ fuel := by
        rw [Nat.div_lt_iff_lt_mul (by decide)]
        rw [pow_succ] at h
        exact h
      rw [parseDigits_append _ _ _ (Nat.mod_lt _ (by decide)), ih _ hlt]
      simp only [Option.map_some']
      congr 1
      omega

theorem formatDigits_isDigit (fuel n : Nat) : ∀ c ∈ formatDigits fuel n, isDigit c = true := by
  induction fuel generalizing n with
  | zero => simp [formatDigits]
  | succ fuel ih =>
    simp only [formatDigits]
    split
    · intro c hc
      simp at hc; subst hc
      simp [isDigit]; omega
    · intro c hc
      rcases List.mem_append.1 hc with h | h
      · exact ih _ c h
      · simp at h; subst h
        simp [isDigit]; omega

theorem formatDigits_ne_nil (fuel n : Nat) : formatDigits (fuel + 1) n ≠ [] := by
  simp only [formatDigits]
  split <;> simp

/-- The leading digit is zero only for zero. -/
theorem formatDigits_head (fuel n : Nat) (h : n < 10 ^ (fuel + 1)) :
    ∃ c l, formatDigits (fuel + 1) n = c :: l ∧ (c = 48 → n = 0 ∧ l = []) ∧
      (n ≠ 0 → 49 ≤ c ∧ c ≤ 57) := by
  induction fuel generalizing n with
  | zero =>
    have : n < 10 := by simpa using h
    refine ⟨48 + n, [], by simp [formatDigits, this], ?_, ?_⟩
    · intro h0; exact ⟨by omega, rfl⟩
    · intro h0; omega
  | succ fuel ih =>
    rw [formatDigits]
    split
    · rename_i h10
      refine ⟨48 + n, [], rfl, ?_, ?_⟩
      · intro h0; exact ⟨by omega, rfl⟩
      · intro h0; omega
    · rename_i h10
      have hlt : n / 10 < 10 ^ (fuel + 1) := by
        rw [Nat.div_lt_iff_lt_mul (by decide)]
        rw [pow_succ] at h
        exact h
      obtain ⟨c, l, hcl, hz, hnz⟩ := ih (n / 10) hlt
      have hne : n / 10 ≠ 0 := by omega
      refine ⟨c, l ++ [48 + n % 10], by rw [hcl]; rfl, ?_, ?_⟩
      · intro h0
        have := hnz hne
        omega
      · intro _; exact hnz hne

theorem spanDigits_append (l tail : GoString) (hl : ∀ c ∈ l, isDigit c = true)
    (ht : ∀ c, tail.head? = some c → isDigit c = false) : spanDigits (l ++ tail) = (l, tail) := by
  induction l with
  | nil =>
    cases tail with
    | nil => rfl
    | cons c t =>
      have := ht c rfl
      simp [spanDigits, this]
  | cons a l ih =>
    have ha := hl a (List.mem_cons_self _ _)
    have := ih (fun c hc => hl c (List.mem_cons_of_mem _ hc))
    simp [spanDigits, ha, this]

/-- The scanner reads back the digits that `formatDigits` wrote. -/
theorem scanNumber_formatDigits (n : Nat) (h : n < 10 ^ 20) (tail : GoString)
    (ht : endsValue tail) :
    scanNumber (formatDigits 20 n ++ tail) = some (formatDigits 20 n, tail) := by
  obtain ⟨c, l, hcl, hz, hnz⟩ := formatDigits_head 19 n h
  have hdig := formatDigits_isDigit 20 n
  rw [hcl] at hdig ⊢
  have hc : isDigit c = true := hdig c (List.mem_cons_self _ _)
  have hl : ∀ x ∈ l, isDigit x = true := fun x hx => hdig x (List.mem_cons_of_mem _ hx)
  have htail : ∀ x, tail.head? = some x → isDigit x = false := by
    intro x hx
    rcases ht with h1 | h1 <;> rw [h1] at hx <;> injection hx with hx <;> subst hx <;> decide
  have hspan := spanDigits_append l tail hl htail
  have hc45 : c ≠ 45 := by
    intro h0; subst h0; simp [isDigit] at hc
  simp only [isDigit, Bool.and_eq_true, decide_eq_true_eq] at hc
  have hne : ∀ x, tail.head? = some x → x ≠ 46 ∧ x ≠ 101 ∧ x ≠ 69 := by
    intro x hx
    rcases ht with h1 | h1 <;> rw [h1] at hx <;> injection hx with hx <;> subst hx <;> decide
  by_cases hc0 : c = 48
  · obtain ⟨_, hl0⟩ := hz hc0
    subst hl0
    subst hc0
    cases tail with
    | nil => rfl
    | cons x tail =>
      obtain ⟨h1, h2, h3⟩ := hne x rfl
      simp [scanNumber, h1, h2, h3]
  · have hc1 : 49 ≤ c ∧ c ≤ 57 := by omega
    cases tail with
    | nil =>
      simp at hspan
      simp [scanNumber, hc45, hc0, hc1, hspan]
    | cons x tail =>
      obtain ⟨h1, h2, h3⟩ := hne x rfl
      simp [scanNumber, hc45, hc0, hc1, hspan, h1, h2, h3]

theorem scanNumber_neg (n : Nat) (hn : n ≠ 0) (h : n < 10 ^ 20) (tail : GoString)
    (ht : endsValue tail) :
    scanNumber (45 :: formatDigits 20 n ++ tail) = some (45 :: formatDigits 20 n, tail) := by
  obtain ⟨c, l, hcl, hz, hnz⟩ := formatDigits_head 19 n h
  have hdig := formatDigits_isDigit 20 n
  rw [hcl] at hdig ⊢
  have hl : ∀ x ∈ l, isDigit x = true := fun x hx => hdig x (List.mem_cons_of_mem _ hx)
  have htail : ∀ x, tail.head? = some x → isDigit x = false := by
    intro x hx
    rcases ht with h1 | h1 <;> rw [h1] at hx <;> injection hx with hx <;> subst hx <;> decide
  have hspan := spanDigits_append l tail hl htail
  have hne : ∀ x, tail.head? = some x → x ≠ 46 ∧ x ≠ 101 ∧ x ≠ 69 := by
    intro x hx
    rcases ht with h1 | h1 <;> rw [h1] at hx <;> injection hx with hx <;> subst hx <;> decide
  have hc1 : 49 ≤ c ∧ c ≤ 57 := hnz hn
  have hc0 : c ≠ 48 := by omega
  cases tail with
  | nil =>
    simp at hspan
    simp [scanNumber, hc0, hc1, hspan]
  | cons x tail =>
    obtain ⟨h1, h2, h3⟩ := hne x rfl
    simp [scanNumber, hc0, hc1, hspan, h1, h2, h3]

/-- Values of type `int64`. -/
theorem scanNumber_formatInt (i : Int) (hi : -2 ^ 63 ≤ i ∧ i < 2 ^ 63) (tail : GoString)
    (ht : endsValue tail) :
    scanNumber (formatInt i ++ tail) = some (formatInt i, tail) := by
  have hn : i.natAbs < 10 ^ 20 := by omega
  unfold formatInt
  split
  · rename_i hneg
    exact scanNumber_neg _ (by omega) hn tail ht
  · exact scanNumber_formatDigits _ hn tail ht

theorem parseInt_formatInt (i : Int) (hi : -2 ^ 63 ≤ i ∧ i < 2 ^ 63) :
    parseInt (formatInt i) = some i := by
  have hn : i.natAbs < 10 ^ 20 := by omega
  have hp := parseDigits_formatDigits 20 _ hn
  obtain ⟨c, l, hcl, hz, hnz⟩ := formatDigits_head 19 i.natAbs hn
  have hdig := formatDigits_isDigit 20 i.natAbs
  unfold formatInt
  split
  · rename_i hneg
    rw [hcl] at hp ⊢
    have h1 : ¬ (9223372036854775808 < i.natAbs) := by omega
    simp [parseInt, hp, h1, abs_of_neg hneg]
  · rename_i hneg
    rw [hcl] at hp hdig ⊢
    have hc : isDigit c = true := hdig c (List.mem_cons_self _ _)
    simp only [isDigit, Bool.and_eq_true, decide_eq_true_eq] at hc
    have h43 : c ≠ 43 := by omega
    have h45 : c ≠ 45 := by omega
    simp only [parseInt, h43, h45, false_or, if_false, hp]
    have h1 : ¬ (i.natAbs ≥ 2 ^ 63) := by omega
    simp [h1]
    omega

theorem parseUint_formatUint (n : Nat) (hn : n < 2 ^ 64) : parseUint (formatUint n) = some n := by
  have hn' : n < 10 ^ 20 := by omega
  have hp := parseDigits_formatDigits 20 _ hn'
  obtain ⟨c, l, hcl, _, _⟩ := formatDigits_head 19 n hn'
  unfold formatUint
  rw [hcl] at hp ⊢
  have h64 : (2 : Nat) ^ 64 = 18446744073709551616 := by norm_num
  simp [parseUint, hp]
  omega

/-! ## unicode/utf8: decoding and encoding -/

theorem decodeRune_of_wellFormed (p : GoString) (r n : Nat) (h : wellFormedAt p r n) :
    decodeRune p = (r, n) := by
  rcases h with ⟨b0, b1, t, hp, h1, h2, h3, h4, hr, hn⟩ |
    ⟨b0, b1, b2, t, hp, h1, h2, h3, h4, h5, h6, h7, h8, hr, hn⟩ |
    ⟨b0, b1, b2, b3, t, hp, h1, h2, h3, h4, h5, h6, h7, h8, h9, h10, hr, hn⟩
  · subst hp hr hn
    have hf : first b0 = some (2, 0x80, 0xBF) := by simp [first, h1, h2]
    have hs : ¬ b0 < RuneSelf := by simp [RuneSelf]; omega
    have hb : ¬ (b1 < 128 ∨ 191 < b1) := by omega
    simp [decodeRune, hs, hf, hb]
  · subst hp hr hn
    have hs : ¬ b0 < RuneSelf := by simp [RuneSelf]; omega
    have hc2 : isCont b2 = true := by simp [isCont]; omega
    have hf : ∃ lo hi, first b0 = some (3, lo, hi) ∧ lo ≤ b1 ∧ b1 ≤ hi := by
      by_cases e0 : b0 = 0xE0
      · exact ⟨0xA0, 0xBF, by simp [first, e0], h5 e0, h4⟩
      · by_cases ed : b0 = 0xED
        · exact ⟨0x80, 0x9F, by simp [first, ed], h3, h6 ed⟩
        · by_cases ec : b0 ≤ 0xEC
          · have : 0xE1 ≤ b0 := by omega
            refine ⟨0x80, 0xBF, ?_, h3, h4⟩
            simp only [first]
            rw [if_neg (by omega), if_neg e0, if_pos ⟨this, ec⟩]
          · have : 0xEE ≤ b0 := by omega
            refine ⟨0x80, 0xBF, ?_, h3, h4⟩
            simp only [first]
            rw [if_neg (by omega), if_neg e0, if_neg (by omega), if_neg ed, if_pos ⟨this, h2⟩]
    obtain ⟨lo, hi, hf, hlo, hhi⟩ := hf
    have hb : ¬ (b1 < lo ∨ hi < b1) := by omega
    simp [decodeRune, hs, hf, hb, hc2]
  · subst hp hr hn
    have hs : ¬ b0 < RuneSelf := by simp [RuneSelf]; omega
    have hc2 : isCont b2 = true := by simp [isCont]; omega
    have hc3 : isCont b3 = true := by simp [isCont]; omega
    have hf : ∃ lo hi, first b0 = some (4, lo, hi) ∧ lo ≤ b1 ∧ b1 ≤ hi := by
      by_cases e0 : b0 = 0xF0
      · exact ⟨0x90, 0xBF, by simp [first, e0], h5 e0, h4⟩
      · by_cases e4 : b0 = 0xF4
        · exact ⟨0x80, 0x8F, by simp [first, e4], h3, h6 e4⟩
        · have h13 : 0xF1 ≤ b0 ∧ b0 ≤ 0xF3 := by omega
          refine ⟨0x80, 0xBF, ?_, h3, h4⟩
          simp only [first]
          iterate 5 rw [if_neg (by omega)]
          rw [if_neg e0, if_pos h13]
    obtain ⟨lo, hi, hf, hlo, hhi⟩ := hf
    have hb : ¬ (b1 < lo ∨ hi < b1) := by omega
    simp [decodeRune, hs, hf, hb, hc2, hc3]

theorem first_two (b0 : Nat) (h : 0xC2 ≤ b0 ∧ b0 ≤ 0xDF) : first b0 = some (2, 0x80, 0xBF) := by
  simp [first, h.1, h.2]

theorem first_three (b0 : Nat) (h : 0xE0 ≤ b0 ∧ b0 ≤ 0xEF) :
    first b0 = some (3, if b0 = 0xE0 then 0xA0 else 0x80, if b0 = 0xED then 0x9F else 0xBF) := by
  by_cases e0 : b0 = 0xE0
  · subst e0; rfl
  · by_cases ed : b0 = 0xED
    · subst ed; rfl
    · simp only [first, e0, ed, if_false]
      rw [if_neg (by omega)]
      by_cases ec : b0 ≤ 0xEC
      · rw [if_pos (by omega)]
      · rw [if_neg (by omega), if_pos (by omega)]

theorem first_four (b0 : Nat) (h : 0xF0 ≤ b0 ∧ b0 ≤ 0xF4) :
    first b0 = some (4, if b0 = 0xF0 then 0x90 else 0x80, if b0 = 0xF4 then 0x8F else 0xBF) := by
  by_cases e0 : b0 = 0xF0
  · subst e0; rfl
  · by_cases e4 : b0 = 0xF4
    · subst e4; rfl
    · simp only [first, e0, e4, if_false]
      iterate 5 rw [if_neg (by omega)]
      rw [if_pos (by omega)]

theorem first_none (b0 : Nat) (h : b0 < 0xC2 ∨ 0xF4 < b0) : first b0 = none := by
  simp only [first]
  iterate 8 rw [if_neg (by omega)]

/-- A decoding that is not an error found a well-formed sequence. -/
theorem wellFormed_of_decodeRune (b0 : Nat) (rest : GoString) (hs : ¬ b0 < 0x80)
    (hne : ¬((decodeRune (b0 :: rest)).1 = RuneError ∧ (decodeRune (b0 :: rest)).2 = 1)) :
    wellFormedAt (b0 :: rest) (decodeRune (b0 :: rest)).1 (decodeRune (b0 :: rest)).2 := by
  have hs' : ¬ b0 < RuneSelf := hs
  by_cases h2 : 0xC2 ≤ b0 ∧ b0 ≤ 0xDF
  · cases rest with
    | nil => exact absurd (by simp [decodeRune, hs', first_two b0 h2]) hne
    | cons b1 t =>
      by_cases hb : b1 < 0x80 ∨ 0xBF < b1
      · exact absurd (by simp [decodeRune, hs', first_two b0 h2, hb]) hne
      · have hd : decodeRune (b0 :: b1 :: t) = ((b0 % 32) * 64 + b1 % 64, 2) := by
          simp [decodeRune, hs', first_two b0 h2, hb]
        rw [hd]
        exact Or.inl ⟨b0, b1, t, rfl, h2.1, h2.2, by omega, by omega, rfl, rfl⟩
  · by_cases h3 : 0xE0 ≤ b0 ∧ b0 ≤ 0xEF
    · cases rest with
      | nil => exact absurd (by simp [decodeRune, hs', first_three b0 h3]) hne
      | cons b1 t =>
        cases t with
        | nil => exact absurd (by simp [decodeRune, hs', first_three b0 h3]) hne
        | cons b2 t =>
          by_cases hb : b1 < (if b0 = 0xE0 then 0xA0 else 0x80) ∨
              (if b0 = 0xED then 0x9F else 0xBF) < b1
          · exact absurd (by simp [decodeRune, hs', first_three b0 h3, hb]) hne
          · by_cases hc : isCont b2 = true
            · have hd : decodeRune (b0 :: b1 :: b2 :: t) =
                  ((b0 % 16) * 4096 + (b1 % 64) * 64 + b2 % 64, 3) := by
                simp [decodeRune, hs', first_three b0 h3, hb, hc]
              rw [hd]
              simp only [isCont, Bool.and_eq_true, decide_eq_true_eq] at hc
              refine Or.inr (Or.inl ⟨b0, b1, b2, t, rfl, h3.1, h3.2, ?_, ?_, ?_, ?_, hc.1, hc.2,
                rfl, rfl⟩)
              · split at hb <;> split at hb <;> omega
              · split at hb <;> split at hb <;> omega
              · intro e; rw [if_pos e] at hb; omega
              · intro e; rw [if_pos e] at hb; omega
            · exact absurd (by simp [decodeRune, hs', first_three b0 h3, hb, hc]) hne
    · by_cases h4 : 0xF0 ≤ b0 ∧ b0 ≤ 0xF4
      · cases rest with
        | nil => exact absurd (by simp [decodeRune, hs', first_four b0 h4]) hne
        | cons b1 t =>
          cases t with
          | nil => exact absurd (by simp [decodeRune, hs', first_four b0 h4]) hne
          | cons b2 t =>
            cases t with
            | nil => exact absurd (by simp [decodeRune, hs', first_four b0 h4]) hne
            | cons b3 t =>
              by_cases hb : b1 < (if b0 = 0xF0 then 0x90 else 0x80) ∨
                  (if b0 = 0xF4 then 0x8F else 0xBF) < b1
              · exact absurd (by simp [decodeRune, hs', first_four b0 h4, hb]) hne
              · by_cases hc : isCont b2 = true
                · by_cases hc3 : isCont b3 = true
                  · have hd : decodeRune (b0 :: b1 :: b2 :: b3 :: t) =
                        ((b0 % 8) * 262144 + (b1 % 64) * 4096 + (b2 % 64) * 64 + b3 % 64, 4) := by
                      simp [decodeRune, hs', first_four b0 h4, hb, hc, hc3]
                    rw [hd]
                    simp only [isCont, Bool.and_eq_true, decide_eq_true_eq] at hc hc3
                    refine Or.inr (Or.inr ⟨b0, b1, b2, b3, t, rfl, h4.1, h4.2, ?_, ?_, ?_, ?_,
                      hc.1, hc.2, hc3.1, hc3.2, rfl, rfl⟩)
                    · split at hb <;> split at hb <;> omega
                    · split at hb <;> split at hb <;> omega
                    · intro e; rw [if_pos e] at hb; omega
                    · intro e; rw [if_pos e] at hb; omega
                  · exact absurd (by simp [decodeRune, hs', first_four b0 h4, hb, hc, hc3]) hne
                · exact absurd (by simp [decodeRune, hs', first_four b0 h4, hb, hc]) hne
      · have hn : first b0 = none := first_none b0 (by omega)
        exact absurd (by simp [decodeRune, hs', hn]) hne

/-- Encoding the rune of a well-formed sequence gives the sequence back. -/
theorem encodeRune_of_wellFormed (p : GoString) (r n : Nat) (h : wellFormedAt p r n) :
    encodeRune r = p.take n ∧ 0x80 ≤ r ∧ n ≤ p.length ∧ 2 ≤ n ∧ n ≤ 4 ∧
      ∀ b ∈ p.take n, 0x80 ≤ b ∧ b ≤ 0xF4 := by
  rcases h with ⟨b0, b1, t, hp, h1, h2, h3, h4, hr, hn⟩ |
    ⟨b0, b1, b2, t, hp, h1, h2, h3, h4, h5, h6, h7, h8, hr, hn⟩ |
    ⟨b0, b1, b2, b3, t, hp, h1, h2, h3, h4, h5, h6, h7, h8, h9, h10, hr, hn⟩
  · subst hp hn
    have hr1 : ¬ r ≤ 0x7F := by omega
    have hr2 : r ≤ 0x7FF := by omega
    refine ⟨?_, by omega, by simp, by omega, by omega, ?_⟩
    · simp only [encodeRune, hr1, hr2, if_false, if_true, List.take]
      congr 1
      · omega
      · congr 1; omega
    · intro b hb; simp at hb; rcases hb with h | h <;> subst h <;> omega
  · subst hp hn
    have hr1 : ¬ r ≤ 0x7F := by omega
    have hr2 : ¬ r ≤ 0x7FF := by
      have := h5
      omega
    have hr3 : ¬ (r > 0x10FFFF ∨ (0xD800 ≤ r ∧ r ≤ 0xDFFF)) := by
      have := h6
      omega
    have hr4 : r ≤ 0xFFFF := by omega
    refine ⟨?_, by omega, by simp, by omega, by omega, ?_⟩
    · simp only [encodeRune, hr1, hr2, hr3, hr4, if_false, if_true, List.take]
      congr 1
      · omega
      · congr 1
        · omega
        · congr 1; omega
    · intro b hb; simp at hb; rcases hb with h | h | h <;> subst h <;> omega
  · subst hp hn
    have hr1 : ¬ r ≤ 0x7F := by omega
    have hr2 : ¬ r ≤ 0x7FF := by omega
    have hr3 : ¬ (r > 0x10FFFF ∨ (0xD800 ≤ r ∧ r ≤ 0xDFFF)) := by
      have := h5; have := h6
      omega
    have hr4 : ¬ r ≤ 0xFFFF := by
      have := h5
      omega
    refine ⟨?_, by omega, by simp, by omega, by omega, ?_⟩
    · simp only [encodeRune, hr1, hr2, hr3, hr4, if_false, List.take]
      congr 1
      · omega
      · congr 1
        · omega
        · congr 1
          · omega
          · congr 1; omega
    · intro b hb; simp at hb; rcases hb with h | h | h | h <;> subst h <;> omega

/-! ## encoding/json: string literals written by the encoder are read back -/

theorem wellFormedAt_take (p : GoString) (r n : Nat) (h : wellFormedAt p r n) (Y : GoString) :
    wellFormedAt (p.take n ++ Y) r n := by
  rcases h with ⟨b0, b1, t, hp, h1, h2, h3, h4, hr, hn⟩ |
    ⟨b0, b1, b2, t, hp, h1, h2, h3, h4, h5, h6, h7, h8, hr, hn⟩ |
    ⟨b0, b1, b2, b3, t, hp, h1, h2, h3, h4, h5, h6, h7, h8, h9, h10, hr, hn⟩
  · subst hp hn
    exact Or.inl ⟨b0, b1, Y, rfl, h1, h2, h3, h4, hr, rfl⟩
  · subst hp hn
    exact Or.inr (Or.inl ⟨b0, b1, b2, Y, rfl, h1, h2, h3, h4, h5, h6, h7, h8, hr, rfl⟩)
  · subst hp hn
    exact Or.inr (Or.inr ⟨b0, b1, b2, b3, Y, rfl, h1, h2, h3, h4, h5, h6, h7, h8, h9, h10, hr, rfl⟩)

theorem appendStringLoop_skip (rep : Replacement) (k : Nat) (l : GoString) :
    appendStringLoop rep k l = appendStringLoop rep 0 (l.drop k) := by
  induction l generalizing k with
  | nil => cases k <;> simp [appendStringLoop]
  | cons a l ih =>
    cases k with
    | zero => rfl
    | succ k => simp only [appendStringLoop, List.drop_succ_cons]; exact ih k

theorem unquoteLoop_skip (k : Nat) (l : GoString) :
    unquoteLoop k l = unquoteLoop 0 (l.drop k) := by
  induction l generalizing k with
  | nil => cases k <;> simp [unquoteLoop]
  | cons a l ih =>
    cases k with
    | zero => rfl
    | succ k => simp only [unquoteLoop, List.drop_succ_cons]; exact ih k

/-- Every item of the encoder consumes between one and four bytes; a
multi-byte item is a well-formed sequence. -/
theorem appendStringStep_size (rep : Replacement) (b : Nat) (rest : GoString) :
    1 ≤ (appendStringStep rep b rest).2 ∧ (appendStringStep rep b rest).2 ≤ 4 := by
  unfold appendStringStep
  split
  · split
    · simp
    · split
      · simp
      · split
        · simp
        · split
          · simp
          · split
            · simp
            · split
              · simp
              · split <;> simp
  · rename_i hb
    simp only [RuneSelf] at hb
    simp only
    split
    · simp
    · rename_i hne
      have hw := wellFormed_of_decodeRune b (rest.take 3) (by omega) (by simpa using hne)
      obtain ⟨_, _, hlen, h2, h4, hbytes⟩ := encodeRune_of_wellFormed _ _ _ hw
      have hw' : List.take 4 (b :: rest) = b :: List.take 3 rest := rfl
      rw [hw']
      split <;> simp <;> omega

theorem appendStringLoop_cons (rep : Replacement) (b : Nat) (rest : GoString) :
    appendStringLoop rep 0 (b :: rest) =
      (appendStringStep rep b rest).1 ++
        appendStringLoop rep 0 ((b :: rest).drop (appendStringStep rep b rest).2) := by
  rw [appendStringLoop, appendStringLoop_skip]
  have h1 := (appendStringStep_size rep b rest).1
  cases h : (appendStringStep rep b rest).2 with
  | zero => omega
  | succ n => simp

theorem scanChunk_nil : scanChunk [] := by
  intro Z
  cases h : scanString Z <;> simp [h]

theorem scanChunk_append (a b : GoString) (ha : scanChunk a) (hb : scanChunk b) :
    scanChunk (a ++ b) := by
  intro Z
  rw [List.append_assoc, ha, hb]
  cases h : scanString Z <;> simp

theorem scanChunk_plain (c : Nat) (h1 : 32 ≤ c) (h2 : c ≠ 34) (h3 : c ≠ 92) : scanChunk [c] := by
  intro Z
  have h4 : ¬ c < 32 := by omega
  simp only [scanString, List.singleton_append, scanStringFrom, stringStep, h2, h3, h4, and_false,
    if_false]
  rcases h : scanStringFrom StringState.inString Z with _ | ⟨raw, r⟩ <;> simp [h]

theorem scanChunk_plainList (l : GoString) (h : ∀ c ∈ l, 32 ≤ c ∧ c ≠ 34 ∧ c ≠ 92) :
    scanChunk l := by
  induction l with
  | nil => exact scanChunk_nil
  | cons a l ih =>
    have ha := h a (List.mem_cons_self _ _)
    exact scanChunk_append [a] l (scanChunk_plain a ha.1 ha.2.1 ha.2.2)
      (ih (fun c hc => h c (List.mem_cons_of_mem _ hc)))

theorem scanChunk_escape (e : Nat)
    (he : e = 98 ∨ e = 102 ∨ e = 110 ∨ e = 114 ∨ e = 116 ∨ e = 92 ∨ e = 47 ∨ e = 34) :
    scanChunk [92, e] := by
  intro Z
  simp only [scanString, List.cons_append, List.nil_append, scanStringFrom, stringStep, he,
    if_true]
  rcases h : scanStringFrom StringState.inString Z with _ | ⟨raw, r⟩ <;> simp [h]

theorem scanChunk_u (h1 h2 h3 h4 : Nat) (hh : isHex h1 ∧ isHex h2 ∧ isHex h3 ∧ isHex h4) :
    scanChunk [92, 117, h1, h2, h3, h4] := by
  intro Z
  simp only [scanString, List.cons_append, List.nil_append, scanStringFrom, stringStep, hh.1,
    hh.2.1, hh.2.2.1, hh.2.2.2, if_true]
  rcases h : scanStringFrom StringState.inString Z with _ | ⟨raw, r⟩ <;> simp [h]

theorem isHex_hexDigit (d : Nat) (h : d < 16) : isHex (hexDigit d) = true := by
  simp only [hexDigit, isHex]
  split <;> simp <;> omega

/-- Every item the encoder writes is passed over by the scanner as a whole. -/
theorem scanChunk_step (rep : Replacement) (b : Nat) (rest : GoString) : scanChunk (appendStringStep rep b rest).1 := by
  unfold appendStringStep
  split
  · rename_i hb
    simp only [RuneSelf] at hb
    split
    · rename_i hsafe
      simp only [htmlSafe, Bool.and_eq_true, decide_eq_true_eq, bne_iff_ne, ne_eq] at hsafe
      exact scanChunk_plain b (by omega) (by omega) (by omega)
    · split
      · rename_i h
        exact scanChunk_escape b (by omega)
      · split
        · exact scanChunk_escape 98 (by decide)
        · split
          · exact scanChunk_escape 102 (by decide)
          · split
            · exact scanChunk_escape 110 (by decide)
            · split
              · exact scanChunk_escape 114 (by decide)
              · split
                · exact scanChunk_escape 116 (by decide)
                · exact scanChunk_u 48 48 _ _ ⟨by decide, by decide,
                    isHex_hexDigit _ (by omega), isHex_hexDigit _ (by omega)⟩
  · rename_i hb
    simp only [RuneSelf] at hb
    simp only
    split
    · cases rep with
      | escape =>
        have : Replacement.escape.text = [92, 117, 102, 102, 102, 100] := by decide
        rw [this]
        exact scanChunk_u 102 102 102 100 (by decide)
      | rune =>
        exact scanChunk_plainList _ (fun c hc => by
          simp only [Replacement.text, List.mem_cons, List.mem_singleton, List.not_mem_nil,
            or_false] at hc
          omega)
    · rename_i hne
      split
      · exact scanChunk_u 50 48 50 _ ⟨by decide, by decide, by decide,
          isHex_hexDigit _ (Nat.mod_lt _ (by decide))⟩
      · have hw := wellFormed_of_decodeRune b (rest.take 3) (by omega) (by
          simpa using hne)
        have hw' : List.take 4 (b :: rest) = b :: List.take 3 rest := rfl
        rw [hw']
        obtain ⟨_, _, hlen, h2, h4, hbytes⟩ := encodeRune_of_wellFormed _ _ _ hw
        have htake : List.take (decodeRune (b :: List.take 3 rest)).2 (b :: rest) =
            List.take (decodeRune (b :: List.take 3 rest)).2 (b :: List.take 3 rest) := by
          rw [← hw', List.take_take, Nat.min_eq_left (by rw [hw']; exact h4)]
        rw [htake]
        exact scanChunk_plainList _ (fun c hc => by
          have := hbytes c hc
          omega)

/-- The scanner reads the string literal written by the encoder up to its
closing quote. -/
theorem scanString_appendStringLoop (rep : Replacement) (s X : GoString) :
    scanString (appendStringLoop rep 0 s ++ 34 :: X) = some (appendStringLoop rep 0 s, X) := by
  obtain ⟨n, hn⟩ : ∃ n, s.length = n := ⟨_, rfl⟩
  induction n using Nat.strong_induction_on generalizing s X with
  | _ n ih =>
    cases s with
    | nil => simp [appendStringLoop, scanString, scanStringFrom]
    | cons b rest =>
      rw [appendStringLoop_cons, List.append_assoc, scanChunk_step rep b rest]
      have hlt : ((b :: rest).drop (appendStringStep rep b rest).2).length < n := by
        have h1 : 1 ≤ (appendStringStep rep b rest).2 := (appendStringStep_size rep b rest).1
        rw [List.length_drop, ← hn]
        simp
        omega
      rw [ih _ hlt _ _ rfl]
      simp

/-! ## encoding/json: unquoting what the encoder quoted -/

theorem plainPrefix_skip (k : Nat) (l : GoString) :
    plainPrefix k l = min k l.length + plainPrefix 0 (l.drop k) := by
  induction l generalizing k with
  | nil => cases k <;> simp [plainPrefix]
  | cons a l ih =>
    cases k with
    | zero => simp
    | succ k =>
      simp only [plainPrefix, List.drop_succ_cons, List.length_cons, ih k]
      omega

theorem validLoop_skip (k : Nat) (l : GoString) : validLoop k l = validLoop 0 (l.drop k) := by
  induction l generalizing k with
  | nil => cases k <;> simp [validLoop]
  | cons a l ih =>
    cases k with
    | zero => rfl
    | succ k => simp only [validLoop, List.drop_succ_cons]; exact ih k

theorem unquoteLoop_cons (c : Nat) (rest out : GoString) (size : Nat) (hs : 1 ≤ size)
    (h : unquoteStep c rest = some (out, size)) :
    unquoteLoop 0 (c :: rest) =
      (unquoteLoop 0 ((c :: rest).drop size)).map (fun t => out ++ t) := by
  rw [unquoteLoop, h]
  simp only
  rw [unquoteLoop_skip]
  have : (c :: rest).drop size = rest.drop (size - 1) := by
    cases size with
    | zero => omega
    | succ n => simp
  rw [this]
  cases unquoteLoop 0 (rest.drop (size - 1)) <;> simp

/-- The step of the rewriting loop at the start of a well-formed sequence. -/
theorem unquoteStep_wellFormed (c : Nat) (rest : GoString) (r n : Nat)
    (hw : wellFormedAt (c :: rest) r n) :
    unquoteStep c rest = some ((c :: rest).take n, n) := by
  have hd := decodeRune_of_wellFormed _ _ _ hw
  obtain ⟨henc, _, _, _, _, hbytes⟩ := encodeRune_of_wellFormed _ _ _ hw
  have hc : 0x80 ≤ c := by
    have h2 : c ∈ (c :: rest).take n := by
      cases n with
      | zero => omega
      | succ n => simp
    exact (hbytes c h2).1
  unfold unquoteStep
  rw [if_neg (by omega), if_neg (by omega), if_neg (by simp [RuneSelf]; omega), hd, henc]

/-- The slow loop of `unquoteBytes` copies the prefix that the first loop
found plain. -/
theorem unquoteLoop_plainPrefix (raw : GoString) :
    unquoteLoop 0 raw =
      (unquoteLoop 0 (raw.drop (plainPrefix 0 raw))).map
        (fun t => raw.take (plainPrefix 0 raw) ++ t) := by
  obtain ⟨n, hn⟩ : ∃ n, raw.length = n := ⟨_, rfl⟩
  induction n using Nat.strong_induction_on generalizing raw with
  | _ n ih =>
    cases raw with
    | nil => simp [plainPrefix, unquoteLoop]
    | cons c rest =>
      rw [plainPrefix]
      split
      · simp
      · rename_i hsp
        split
        · rename_i hlt
          have hstep : unquoteStep c rest = some ([c], 1) := by
            unfold unquoteStep
            rw [if_neg (by omega), if_neg (by omega), if_pos hlt]
          rw [unquoteLoop_cons c rest _ _ (le_refl 1) hstep]
          have := ih rest.length (by rw [← hn]; simp) rest rfl
          simp only [List.drop_succ_cons, List.drop_zero]
          rw [this, Nat.add_comm 1, List.drop_succ_cons, List.take_succ_cons]
          cases unquoteLoop 0 (List.drop (plainPrefix 0 rest) rest) <;> simp
        · rename_i hge
          split
          · simp
          · rename_i hne
            simp only [RuneSelf] at hge
            have hw := wellFormed_of_decodeRune c rest hge hne
            obtain ⟨_, _, hlen, h2, h4, _⟩ := encodeRune_of_wellFormed _ _ _ hw
            generalize hsz : (decodeRune (c :: rest)).2 = sz at *
            have hstep := unquoteStep_wellFormed c rest _ _ hw
            rw [unquoteLoop_cons c rest _ _ (by omega) hstep, plainPrefix_skip]
            simp only [List.length_cons] at hlen
            have hmin : min (sz - 1) rest.length = sz - 1 := by omega
            have hdrop : (c :: rest).drop sz = rest.drop (sz - 1) := by
              cases sz with
              | zero => omega
              | succ k => simp
            have hlt : (rest.drop (sz - 1)).length < n := by
              rw [List.length_drop, ← hn]; simp; omega
            have := ih _ hlt (rest.drop (sz - 1)) rfl
            have e1 : 1 + (min (sz - 1) rest.length + plainPrefix 0 (rest.drop (sz - 1))) =
                sz + plainPrefix 0 (rest.drop (sz - 1)) := by omega
            rw [hdrop, this, e1, List.take_add, ← List.drop_drop, hdrop]
            cases unquoteLoop 0 (List.drop (plainPrefix 0 (rest.drop (sz - 1))) (rest.drop (sz - 1))) <;>
              simp

/-- Function `unquoteBytes` computes what its rewriting loop computes from the
start: the first loop only saves the copy. -/
theorem unquoteBytes_eq_loop (raw : GoString) : unquoteBytes raw = unquoteLoop 0 raw := by
  have h := unquoteLoop_plainPrefix raw
  unfold unquoteBytes
  simp only
  split
  · rename_i heq
    rw [h, heq]
    simp [unquoteLoop]
  · rw [h]
    cases unquoteLoop 0 (raw.drop (plainPrefix 0 raw)) <;> simp

theorem unquoteChunk_of_step (c : Nat) (out' u : GoString) (size : Nat)
    (h : ∀ Z, unquoteStep c (out' ++ Z) = some (u, size)) (hsize : size = out'.length + 1) :
    unquoteChunk (c :: out') u := by
  intro Z
  rw [List.cons_append, unquoteLoop_cons c _ u size (by omega) (h Z)]
  have : (c :: (out' ++ Z)).drop size = Z := by
    rw [hsize]; simp
  rw [this]

theorem unquoteChunk_plain (c : Nat) (h1 : 32 ≤ c) (h2 : c ≠ 34) (h3 : c ≠ 92) (h4 : c < 128) :
    unquoteChunk [c] [c] := by
  apply unquoteChunk_of_step c [] [c] 1 _ rfl
  intro Z
  unfold unquoteStep
  rw [if_neg h3, if_neg (by omega), if_pos (by simp [RuneSelf]; omega)]

theorem unquoteChunk_escape (e x : Nat)
    (h : (e = 34 ∧ x = 34) ∨ (e = 92 ∧ x = 92) ∨ (e = 98 ∧ x = 8) ∨ (e = 102 ∧ x = 12) ∨
      (e = 110 ∧ x = 10) ∨ (e = 114 ∧ x = 13) ∨ (e = 116 ∧ x = 9)) :
    unquoteChunk [92, e] [x] := by
  apply unquoteChunk_of_step 92 [e] [x] 2 _ rfl
  intro Z
  rcases h with ⟨h1, h2⟩ | ⟨h1, h2⟩ | ⟨h1, h2⟩ | ⟨h1, h2⟩ | ⟨h1, h2⟩ | ⟨h1, h2⟩ | ⟨h1, h2⟩ <;>
    subst h1 <;> subst h2 <;> simp [unquoteStep]

theorem hexVal_hexDigit (d : Nat) (h : d < 16) : hexVal (hexDigit d) = some d := by
  unfold hexDigit
  split
  · rename_i h10
    simp only [hexVal]
    rw [if_pos (by omega)]
    congr 1; omega
  · rename_i h10
    simp only [hexVal]
    rw [if_neg (by omega), if_pos (by omega)]
    congr 1; omega

theorem getu4_hex (a b c d : Nat) (Z : GoString) (va vb vc vd : Nat)
    (ha : hexVal a = some va) (hb : hexVal b = some vb) (hc : hexVal c = some vc)
    (hd : hexVal d = some vd) :
    getu4 (92 :: 117 :: a :: b :: c :: d :: Z) = some (((va * 16 + vb) * 16 + vc) * 16 + vd) := by
  simp [getu4, ha, hb, hc, hd]

/-- An escape `\uXXXX` of a rune that is not a surrogate is rewritten to the
UTF-8 encoding of the rune. -/
theorem unquoteChunk_u (a b c d va vb vc vd : Nat)
    (ha : hexVal a = some va) (hb : hexVal b = some vb) (hc : hexVal c = some vc)
    (hd : hexVal d = some vd)
    (hns : isSurrogate (((va * 16 + vb) * 16 + vc) * 16 + vd) = false) :
    unquoteChunk [92, 117, a, b, c, d] (encodeRune (((va * 16 + vb) * 16 + vc) * 16 + vd)) := by
  apply unquoteChunk_of_step 92 [117, a, b, c, d] _ 6 _ rfl
  intro Z
  have hg := getu4_hex a b c d Z va vb vc vd ha hb hc hd
  unfold unquoteStep
  simp only [List.cons_append, List.nil_append, if_true]
  rw [hg]
  simp only [hns, Bool.false_eq_true, if_false]
  iterate 6 rw [if_neg (by decide)]

/-- The item the encoder writes for an ASCII byte is rewritten to that byte. -/
theorem unquoteChunk_ascii (rep : Replacement) (b : Nat) (rest : GoString) (hb : b < 128) :
    unquoteChunk (appendStringStep rep b rest).1 [b] := by
  have hb' : b < RuneSelf := hb
  unfold appendStringStep
  rw [if_pos hb']
  split
  · rename_i hsafe
    simp only [htmlSafe, Bool.and_eq_true, decide_eq_true_eq, bne_iff_ne, ne_eq] at hsafe
    exact unquoteChunk_plain b (by omega) (by omega) (by omega) hb
  · split
    · rename_i h
      exact unquoteChunk_escape b b (by omega)
    · split
      · rename_i h; subst h; exact unquoteChunk_escape 98 8 (by decide)
      · split
        · rename_i h; subst h; exact unquoteChunk_escape 102 12 (by decide)
        · split
          · rename_i h; subst h; exact unquoteChunk_escape 110 10 (by decide)
          · split
            · rename_i h; subst h; exact unquoteChunk_escape 114 13 (by decide)
            · split
              · rename_i h; subst h; exact unquoteChunk_escape 116 9 (by decide)
              · have h := unquoteChunk_u 48 48 (hexDigit (b / 16)) (hexDigit (b % 16)) 0 0
                  (b / 16) (b % 16) rfl rfl (hexVal_hexDigit _ (by omega))
                  (hexVal_hexDigit _ (by omega)) (by simp [isSurrogate]; omega)
                have e : ((0 * 16 + 0) * 16 + b / 16) * 16 + b % 16 = b := by omega
                rw [e] at h
                have e2 : encodeRune b = [b] := by simp [encodeRune]; omega
                rw [e2] at h
                exact h

/-- A well-formed sequence is rewritten to itself. -/
theorem unquoteChunk_wellFormed (p : GoString) (r n : Nat) (hw : wellFormedAt p r n) :
    unquoteChunk (p.take n) (p.take n) := by
  obtain ⟨_, _, hlen, h2, h4, hbytes⟩ := encodeRune_of_wellFormed _ _ _ hw
  cases p with
  | nil => simp at hlen; omega
  | cons c rest =>
    obtain ⟨k, hk⟩ : ∃ k, n = k + 1 := ⟨n - 1, by omega⟩
    subst hk
    simp only [List.length_cons] at hlen
    have hkl : k ≤ rest.length := by omega
    rw [List.take_succ_cons]
    apply unquoteChunk_of_step c (rest.take k) _ (k + 1)
    · intro Z
      have hw' := wellFormedAt_take _ _ _ hw Z
      rw [List.take_succ_cons, List.cons_append] at hw'
      have := unquoteStep_wellFormed c (rest.take k ++ Z) r (k + 1) hw'
      rw [this, List.take_succ_cons, List.take_append_of_le_length (by simp [hkl])]
      simp [hkl]
    · simp [hkl]

theorem wellFormedAt_take4 (p : GoString) (r n : Nat) (hw : wellFormedAt p r n) :
    wellFormedAt (p.take 4) r n := by
  obtain ⟨_, _, hlen, h2, h4, _⟩ := encodeRune_of_wellFormed _ _ _ hw
  have h := wellFormedAt_take p r n hw ((p.drop n).take (4 - n))
  have e : p.take 4 = p.take n ++ (p.drop n).take (4 - n) := by
    have : 4 = n + (4 - n) := by omega
    rw [this, List.take_add]
    simp
  rw [e]
  exact h

/-- The item the encoder writes for a well-formed multi-byte sequence, and its
rewriting by `unquoteBytes`. -/
theorem appendStringStep_wellFormed (rep : Replacement) (b : Nat) (rest : GoString) (r n : Nat)
    (hw : wellFormedAt (b :: rest) r n) :
    (appendStringStep rep b rest).2 = n ∧
    unquoteChunk (appendStringStep rep b rest).1 ((b :: rest).take n) := by
  have hd := decodeRune_of_wellFormed _ _ _ (wellFormedAt_take4 _ _ _ hw)
  obtain ⟨henc, hr, hlen, h2, h4, hbytes⟩ := encodeRune_of_wellFormed _ _ _ hw
  have hb : ¬ b < RuneSelf := by
    have : b ∈ (b :: rest).take n := by
      cases n with
      | zero => omega
      | succ n => simp
    have := (hbytes b this).1
    simp [RuneSelf]; omega
  have hne : ¬ (r = RuneError ∧ n = 1) := by omega
  unfold appendStringStep
  rw [if_neg hb]
  simp only [hd, hne, if_false]
  split
  · rename_i h28
    refine ⟨rfl, ?_⟩
    rw [← henc]
    rcases h28 with h | h
    · subst h
      exact unquoteChunk_u 50 48 50 56 2 0 2 8 rfl rfl rfl rfl (by decide)
    · subst h
      exact unquoteChunk_u 50 48 50 57 2 0 2 9 rfl rfl rfl rfl (by decide)
  · exact ⟨rfl, unquoteChunk_wellFormed _ _ _ hw⟩

theorem coerceLoop_skip (k : Nat) (l : GoString) : coerceLoop k l = coerceLoop 0 (l.drop k) := by
  induction l generalizing k with
  | nil => cases k <;> simp [coerceLoop]
  | cons a l ih =>
    cases k with
    | zero => rfl
    | succ k => simp only [coerceLoop, List.drop_succ_cons]; exact ih k

/-- A decoding error on the whole input is a decoding error on its first four
bytes. -/
theorem decodeRune_take4_error (b : Nat) (rest : GoString) (hb : ¬ b < 128)
    (he : (decodeRune (b :: rest)).1 = RuneError ∧ (decodeRune (b :: rest)).2 = 1) :
    (decodeRune ((b :: rest).take 4)).1 = RuneError ∧ (decodeRune ((b :: rest).take 4)).2 = 1 := by
  by_contra hne
  have hw' : List.take 4 (b :: rest) = b :: List.take 3 rest := rfl
  rw [hw'] at hne
  have hw := wellFormed_of_decodeRune b (rest.take 3) hb hne
  obtain ⟨_, _, hlen, h2, h4, _⟩ := encodeRune_of_wellFormed _ _ _ hw
  generalize (decodeRune (b :: List.take 3 rest)).1 = r at *
  generalize (decodeRune (b :: List.take 3 rest)).2 = n at *
  have h := wellFormedAt_take _ _ _ hw ((b :: rest).drop n)
  rw [← hw', List.take_take, Nat.min_eq_left h4, List.take_append_drop] at h
  have hd := decodeRune_of_wellFormed _ _ _ h
  rw [hd] at he
  simp only at he
  omega

/-- Both forms of the replacement are rewritten to the three bytes of U+FFFD. -/
theorem unquoteChunk_replacement (rep : Replacement) :
    unquoteChunk rep.text [0xEF, 0xBF, 0xBD] := by
  cases rep with
  | escape =>
    have hch := unquoteChunk_u 102 102 102 100 15 15 15 13 rfl rfl rfl rfl (by decide)
    exact hch
  | rune =>
    exact unquoteChunk_wellFormed [0xEF, 0xBF, 0xBD] 0xFFFD 3
      (Or.inr (Or.inl ⟨0xEF, 0xBF, 0xBD, [], rfl, by decide, by decide, by decide, by decide,
        by decide, by decide, by decide, by decide, by decide, rfl⟩))

/-- Unquoting the text the encoder wrote for a string gives the string with its
invalid bytes replaced by U+FFFD. -/
theorem unquoteLoop_appendStringLoop (rep : Replacement) (s : GoString) :
    unquoteLoop 0 (appendStringLoop rep 0 s) = some (coerceUTF8 s) := by
  obtain ⟨n, hn⟩ : ∃ n, s.length = n := ⟨_, rfl⟩
  induction n using Nat.strong_induction_on generalizing s with
  | _ n ih =>
    cases s with
    | nil => simp [appendStringLoop, unquoteLoop, coerceUTF8, coerceLoop]
    | cons b rest =>
      rw [appendStringLoop_cons]
      simp only [coerceUTF8, coerceLoop]
      by_cases hb : b < 128
      · have hd : decodeRune (b :: rest) = (b, 1) := by
          simp [decodeRune, RuneSelf, hb]
        have hsz : (appendStringStep rep b rest).2 = 1 := by
          have hb' : b < RuneSelf := hb
          unfold appendStringStep
          rw [if_pos hb']
          repeat' split
          all_goals rfl
        rw [hd]
        have hbe : ¬ (b = RuneError) := by simp [RuneError]; omega
        rw [hsz, unquoteChunk_ascii rep b rest hb]
        simp only [List.drop_succ_cons, List.drop_zero]
        rw [ih rest.length (by rw [← hn]; simp) rest rfl]
        simp [coerceUTF8, hbe]
      · split
        · rename_i he
          have he4 := decodeRune_take4_error b rest hb he
          have hstep : appendStringStep rep b rest = (rep.text, 1) := by
            have hb' : ¬ b < RuneSelf := hb
            unfold appendStringStep
            rw [if_neg hb']
            simp only [he4, and_self, if_true]
          rw [hstep]
          simp only [List.drop_succ_cons, List.drop_zero]
          rw [unquoteChunk_replacement rep, ih rest.length (by rw [← hn]; simp) rest rfl]
          simp only [Option.map_some', coerceUTF8]
        · rename_i hne
          have hw := wellFormed_of_decodeRune b rest hb hne
          obtain ⟨_, _, hlen, h2, h4, _⟩ := encodeRune_of_wellFormed _ _ _ hw
          obtain ⟨hsz, hchunk⟩ := appendStringStep_wellFormed rep b rest _ _ hw
          generalize hszn : (decodeRune (b :: rest)).2 = sz at *
          have hdrop : (b :: rest).drop sz = rest.drop (sz - 1) := by
            cases sz with
            | zero => omega
            | succ k => simp
          have hlt : (rest.drop (sz - 1)).length < n := by
            rw [List.length_drop, ← hn]; simp; omega
          rw [hsz, hchunk, hdrop, ih _ hlt _ rfl, coerceLoop_skip]
          simp [coerceUTF8]

/-- Valid UTF-8 is left as it is. -/
theorem coerceUTF8_valid (s : GoString) (hv : utf8Valid s = true) : coerceUTF8 s = s := by
  obtain ⟨n, hn⟩ : ∃ n, s.length = n := ⟨_, rfl⟩
  induction n using Nat.strong_induction_on generalizing s with
  | _ n ih =>
    cases s with
    | nil => simp [coerceUTF8, coerceLoop]
    | cons b rest =>
      simp only [utf8Valid, validLoop] at hv
      simp only [coerceUTF8, coerceLoop]
      split at hv
      · exact absurd hv (by simp)
      · rename_i hne
        rw [if_neg hne]
        have h1 : 1 ≤ (decodeRune (b :: rest)).2 := by
          by_cases hb : b < 128
          · have hd : decodeRune (b :: rest) = (b, 1) := by
              simp [decodeRune, RuneSelf, hb]
            rw [hd]
          · have hw := wellFormed_of_decodeRune b rest hb hne
            obtain ⟨_, _, hlen, h2, h4, _⟩ := encodeRune_of_wellFormed _ _ _ hw
            omega
        generalize hszn : (decodeRune (b :: rest)).2 = sz at *
        have hdrop : (b :: rest).drop sz = rest.drop (sz - 1) := by
          cases sz with
          | zero => omega
          | succ k => simp
        rw [validLoop_skip] at hv
        rw [coerceLoop_skip]
        have hlt : (rest.drop (sz - 1)).length < n := by
          rw [List.length_drop, ← hn]; simp; omega
        have := ih _ hlt _ hv rfl
        simp only [coerceUTF8] at this
        rw [this, ← hdrop, List.take_append_drop]

theorem skipSpace_cons (c : Nat) (r : GoString) (hc : isSpace c = false) :
    skipSpace (c :: r) = c :: r := by
  simp [skipSpace, hc]

/-- A string literal written by the encoder is read back as the string, with
its invalid bytes replaced by U+FFFD. -/
theorem parseValue_appendString (rep : Replacement) (fuel depth : Nat) (s tail : GoString) :
    parseValue (fuel + 1) depth (appendString rep s ++ tail) =
      some (Value.string (coerceUTF8 s), tail) := by
  rw [parseValue]
  simp only [appendString, List.cons_append, List.append_assoc, List.singleton_append,
    List.nil_append]
  rw [skipSpace_cons _ _ (by decide)]
  simp only
  rw [if_neg (by decide), if_neg (by decide), if_pos (by trivial), scanString_appendStringLoop]
  simp only [unquoteBytes_eq_loop, unquoteLoop_appendStringLoop rep s]

theorem parseValue_formatInt (fuel depth : Nat) (i : Int) (hi : -2 ^ 63 ≤ i ∧ i < 2 ^ 63)
    (tail : GoString) (ht : endsValue tail) :
    parseValue (fuel + 1) depth (formatInt i ++ tail) =
      some (Value.number (formatInt i), tail) := by
  have hscan := scanNumber_formatInt i hi tail ht
  have hn : i.natAbs < 10 ^ 20 := by omega
  obtain ⟨c, l, hcl, _, _⟩ := formatDigits_head 19 i.natAbs hn
  have hdig := formatDigits_isDigit 20 i.natAbs
  rw [hcl] at hdig
  have hc := hdig c (List.mem_cons_self _ _)
  simp only [isDigit, Bool.and_eq_true, decide_eq_true_eq] at hc
  have key : ∀ (c0 : Nat) (r : GoString), formatInt i = c0 :: r → (c0 = 45 ∨ 48 ≤ c0 ∧ c0 ≤ 57) →
      parseValue (fuel + 1) depth (formatInt i ++ tail) =
        some (Value.number (formatInt i), tail) := by
    intro c0 r h0 hc0
    rw [h0] at hscan ⊢
    rw [parseValue, List.cons_append, skipSpace_cons _ _ (by
      simp only [isSpace]
      rcases hc0 with h | h
      · subst h; decide
      · simp; omega)]
    simp only
    rw [if_neg (by omega), if_neg (by omega), if_neg (by omega), if_pos hc0]
    rw [List.cons_append] at hscan
    rw [hscan]
  unfold formatInt at key ⊢
  split
  · rename_i hneg
    rw [if_pos hneg] at key
    exact key 45 _ rfl (Or.inl rfl)
  · rename_i hneg
    rw [if_neg hneg] at key
    rw [hcl] at key ⊢
    exact key c l rfl (Or.inr hc)

theorem parseValue_formatUint (fuel depth : Nat) (n : Nat) (hn : n < 2 ^ 64)
    (tail : GoString) (ht : endsValue tail) :
    parseValue (fuel + 1) depth (formatUint n ++ tail) =
      some (Value.number (formatUint n), tail) := by
  have hn' : n < 10 ^ 20 := by omega
  have hscan := scanNumber_formatDigits n hn' tail ht
  obtain ⟨c, l, hcl, _, _⟩ := formatDigits_head 19 n hn'
  have hdig := formatDigits_isDigit 20 n
  unfold formatUint
  rw [hcl] at hdig hscan ⊢
  have hc := hdig c (List.mem_cons_self _ _)
  simp only [isDigit, Bool.and_eq_true, decide_eq_true_eq] at hc
  rw [parseValue, List.cons_append, skipSpace_cons _ _ (by simp [isSpace]; omega)]
  simp only
  rw [if_neg (by omega), if_neg (by omega), if_neg (by omega), if_pos (Or.inr hc)]
  rw [List.cons_append] at hscan
  rw [hscan]

theorem parseValue_encodeBool (fuel depth : Nat) (b : Bool) (tail : GoString) :
    parseValue (fuel + 1) depth (encodeBool b ++ tail) = some (Value.bool b, tail) := by
  have ht : bytes "true" = [116, 114, 117, 101] := by decide
  have hf : bytes "false" = [102, 97, 108, 115, 101] := by decide
  cases b
  · simp only [encodeBool, hf, Bool.false_eq_true, if_false, List.cons_append, List.nil_append]
    rw [parseValue, skipSpace_cons _ _ (by decide)]
    simp
  · simp only [encodeBool, ht, if_true, List.cons_append, List.nil_append]
    rw [parseValue, skipSpace_cons _ _ (by decide)]
    simp

/-! ## encoding/json: objects written by the encoder are read back -/

theorem scanString_plainName (name r : GoString) (h : plainName name) :
    scanString (name ++ 34 :: r) = some (name, r) := by
  have hc := scanChunk_plainList name (fun c hc => by have := h c hc; omega)
  rw [hc]
  simp [scanString, scanStringFrom]

theorem unquoteBytes_plainName (name : GoString) (h : plainName name) :
    unquoteBytes name = some name := by
  rw [unquoteBytes_eq_loop]
  induction name with
  | nil => simp [unquoteLoop]
  | cons c name ih =>
    have hc := h c (List.mem_cons_self _ _)
    have := unquoteChunk_plain c hc.1 hc.2.2.1 hc.2.2.2 hc.2.1 name
    rw [List.singleton_append] at this
    rw [this, ih (fun x hx => h x (List.mem_cons_of_mem _ hx))]
    simp

theorem endsValue_cons44 (l : GoString) : endsValue (44 :: l) := Or.inl rfl

theorem endsValue_cons125 (l : GoString) : endsValue (125 :: l) := Or.inr rfl

theorem skipSpace_endsValue (tail : GoString) (h : endsValue tail) : skipSpace tail = tail := by
  cases tail with
  | nil => rfl
  | cons c t =>
    rcases h with h | h <;> simp at h <;> subst h <;> rfl

/-- The text of the field loop of the encoder is read back by the member loop
of the parser. -/
theorem parseMembers_written (h : Nat) (fs : List WrittenField) (hfs : fieldsReadBack h fs)
    (next : Nat) :
    (writtenMembers fs = [] →
      encodeFields next (writtenEncoding fs) = if next = 123 then [123, 125] else [125]) ∧
    (writtenMembers fs ≠ [] →
      ∃ M, encodeFields next (writtenEncoding fs) = next :: 34 :: M ∧
        ∀ fuel depth rest, M.length + 1 ≤ fuel → depth + h ≤ maxNestingDepth →
          parseMembers fuel depth (34 :: M ++ rest) = some (writtenMembers fs, rest)) := by
  have hb : bytes "\x7b\x7d" = [123, 125] := by decide
  induction fs generalizing next with
  | nil =>
    refine ⟨fun _ => ?_, fun hne => absurd rfl hne⟩
    simp [writtenEncoding, encodeFields, hb]
  | cons f fs ih =>
    obtain ⟨name, o⟩ := f
    have hrest : fieldsReadBack h fs := fun g hg => hfs g (List.mem_cons_of_mem _ hg)
    have hf := hfs (name, o) (List.mem_cons_self _ _)
    cases o with
    | none =>
      have e1 : writtenMembers ((name, none) :: fs) = writtenMembers fs := by
        simp [writtenMembers]
      have e2 : encodeFields next (writtenEncoding ((name, none) :: fs)) =
          encodeFields next (writtenEncoding fs) := by
        simp [writtenEncoding, encodeFields]
      rw [e1, e2]
      exact ih hrest next
    | some ev =>
      obtain ⟨e, v⟩ := ev
      have e1 : writtenMembers ((name, some (e, v)) :: fs) = (name, v) :: writtenMembers fs := by
        simp [writtenMembers]
      have e2 : encodeFields next (writtenEncoding ((name, some (e, v)) :: fs)) =
          next :: 34 :: (name ++ 34 :: 58 :: (e ++ encodeFields 44 (writtenEncoding fs))) := by
        simp [writtenEncoding, encodeFields]
      rw [e1, e2]
      refine ⟨fun h0 => absurd h0 (by simp), fun _ => ⟨_, rfl, ?_⟩⟩
      intro fuel depth rest hfuel hdepth
      obtain ⟨hname, hval⟩ := hf
      obtain ⟨hval, hne⟩ := hval (e, v) rfl
      simp only at hval hne hname
      cases fuel with
      | zero => simp at hfuel
      | succ fuel =>
        have hlen : (name ++ 34 :: 58 :: (e ++ encodeFields 44 (writtenEncoding fs))).length =
            name.length + 2 + e.length + (encodeFields 44 (writtenEncoding fs)).length := by
          simp; omega
        rw [hlen] at hfuel
        rw [parseMembers, List.cons_append, skipSpace_cons _ _ (by decide)]
        simp only [List.append_assoc, List.cons_append]
        rw [scanString_plainName _ _ hname]
        simp only [unquoteBytes_plainName _ hname]
        rw [skipSpace_cons _ _ (by decide)]
        simp only
        obtain ⟨ih1, ih2⟩ := ih hrest 44
        by_cases hm : writtenMembers fs = []
        · have hT := ih1 hm
          simp only [show ¬ ((44 : Nat) = 123) by decide, if_false] at hT
          rw [hT, hm]
          simp only [List.singleton_append]
          rw [hval fuel depth (125 :: rest) (by omega) hdepth (endsValue_cons125 _)]
          simp only
          rw [skipSpace_cons _ _ (by decide)]
        · obtain ⟨M', hT, hM'⟩ := ih2 hm
          rw [hT]
          simp only [List.cons_append]
          rw [hval fuel depth (44 :: 34 :: (M' ++ rest)) (by omega) hdepth (endsValue_cons44 _)]
          simp only
          rw [skipSpace_cons _ _ (by decide)]
          simp only
          have := hM' fuel depth rest (by rw [hT] at hfuel; simp at hfuel; omega) hdepth
          rw [List.cons_append] at this
          rw [this]

/-- An object written by the struct encoder is read back by the parser,
whatever follows it. -/
theorem parseValue_struct (h : Nat) (fs : List WrittenField) (hfs : fieldsReadBack h fs)
    (fuel depth : Nat) (tail : GoString)
    (hfuel : (encodeStruct (writtenEncoding fs)).length ≤ fuel)
    (hdepth : depth + (h + 1) ≤ maxNestingDepth) :
    parseValue fuel depth (encodeStruct (writtenEncoding fs) ++ tail) =
      some (Value.object (writtenMembers fs), tail) := by
  obtain ⟨h1, h2⟩ := parseMembers_written h fs hfs 123
  unfold encodeStruct at hfuel ⊢
  have hd : ¬ (depth + 1 > maxNestingDepth) := by omega
  by_cases hm : writtenMembers fs = []
  · have hT := h1 hm
    simp only [if_true] at hT
    rw [hT] at hfuel ⊢
    rw [hm]
    cases fuel with
    | zero => simp at hfuel
    | succ fuel =>
      rw [parseValue, List.cons_append, skipSpace_cons _ _ (by decide)]
      simp only [if_true, hd, if_false, List.cons_append, List.nil_append]
      rw [skipSpace_cons _ _ (by decide)]
  · obtain ⟨M, hT, hM⟩ := h2 hm
    rw [hT] at hfuel ⊢
    cases fuel with
    | zero => simp at hfuel
    | succ fuel =>
      rw [parseValue, List.cons_append, skipSpace_cons _ _ (by decide)]
      simp only [if_true, hd, if_false, List.cons_append]
      rw [skipSpace_cons _ _ (by decide)]
      simp only [List.length_cons] at hfuel
      have := hM fuel (depth + 1) tail (by omega) (by omega)
      rw [List.cons_append] at this
      simp only [this]

theorem encodeStruct_ne_nil (fs : List (GoString × Option GoString)) : encodeStruct fs ≠ [] := by
  have hb : bytes "\x7b\x7d" = [123, 125] := by decide
  unfold encodeStruct
  generalize (123 : Nat) = next
  induction fs generalizing next with
  | nil => simp only [encodeFields, hb]; split <;> simp
  | cons f fs ih =>
    obtain ⟨name, o⟩ := f
    cases o with
    | none => simp only [encodeFields]; exact ih next
    | some e => simp [encodeFields]

theorem valueReadsBack_struct (h : Nat) (fs : List WrittenField) (hfs : fieldsReadBack h fs) :
    valueReadsBack (h + 1) (encodeStruct (writtenEncoding fs)) (Value.object (writtenMembers fs)) :=
  fun fuel depth tail hfuel hdepth _ => parseValue_struct h fs hfs fuel depth tail hfuel hdepth

theorem valueReadsBack_mono (h h' : Nat) (e : GoString) (v : Value) (hh : h ≤ h')
    (hv : valueReadsBack h e v) : valueReadsBack h' e v :=
  fun fuel depth tail hfuel hdepth ht => hv fuel depth tail hfuel (by omega) ht

theorem valueReadsBack_int (i : Int) (hi : -2 ^ 63 ≤ i ∧ i < 2 ^ 63) :
    valueReadsBack 0 (formatInt i) (Value.number (formatInt i)) ∧ formatInt i ≠ [] := by
  have hne : formatInt i ≠ [] := by
    unfold formatInt
    split
    · simp
    · exact formatDigits_ne_nil 19 _
  refine ⟨?_, hne⟩
  intro fuel depth tail hfuel _ ht
  cases fuel with
  | zero =>
    have : (formatInt i).length = 0 := by omega
    exact absurd (List.length_eq_zero.1 this) hne
  | succ fuel => exact parseValue_formatInt fuel depth i hi tail ht

theorem valueReadsBack_uint (n : Nat) (hn : n < 2 ^ 64) :
    valueReadsBack 0 (formatUint n) (Value.number (formatUint n)) ∧ formatUint n ≠ [] := by
  have hne : formatUint n ≠ [] := formatDigits_ne_nil 19 _
  refine ⟨?_, hne⟩
  intro fuel depth tail hfuel _ ht
  cases fuel with
  | zero =>
    have : (formatUint n).length = 0 := by omega
    exact absurd (List.length_eq_zero.1 this) hne
  | succ fuel => exact parseValue_formatUint fuel depth n hn tail ht

theorem valueReadsBack_bool (b : Bool) :
    valueReadsBack 0 (encodeBool b) (Value.bool b) ∧ encodeBool b ≠ [] := by
  have hne : encodeBool b ≠ [] := by cases b <;> decide
  refine ⟨?_, hne⟩
  intro fuel depth tail hfuel _ ht
  cases fuel with
  | zero =>
    have : (encodeBool b).length = 0 := by omega
    exact absurd (List.length_eq_zero.1 this) hne
  | succ fuel => exact parseValue_encodeBool fuel depth b tail

theorem valueReadsBack_string (rep : Replacement) (s : GoString) :
    valueReadsBack 0 (appendString rep s) (Value.string (coerceUTF8 s)) ∧ appendString rep s ≠ [] := by
  have hne : appendString rep s ≠ [] := by simp [appendString]
  refine ⟨?_, hne⟩
  intro fuel depth tail hfuel _ ht
  cases fuel with
  | zero =>
    have : (appendString rep s).length = 0 := by omega
    exact absurd (List.length_eq_zero.1 this) hne
  | succ fuel => exact parseValue_appendString rep fuel depth s tail

/-- The whole input: an object written by the struct encoder parses to the
object of its members. -/
theorem parseJSON_struct (h : Nat) (fs : List WrittenField) (hfs : fieldsReadBack h fs)
    (hh : h + 1 ≤ maxNestingDepth) :
    parseJSON (encodeStruct (writtenEncoding fs)) = some (Value.object (writtenMembers fs)) := by
  have := parseValue_struct h fs hfs ((encodeStruct (writtenEncoding fs)).length + 1) 0 []
    (by omega) (by omega)
  rw [List.append_nil] at this
  simp [parseJSON, this, skipSpace]

theorem decodeObject_append {S : Type} (fields : List (Field S)) (a b : List (GoString × Value))
    (st : S) :
    decodeObject fields (a ++ b) st = (decodeObject fields a st).bind (decodeObject fields b) := by
  induction a generalizing st with
  | nil => rfl
  | cons m a ih =>
    obtain ⟨k, v⟩ := m
    simp only [List.cons_append, decodeObject]
    split
    · exact ih st
    · split
      · rfl
      · exact ih _

/-- Decoding the member of an optional field: nothing changes when the field
was omitted, the value is stored behind the pointer when it was written. -/
theorem decodeObject_optional {S α : Type} (fields : List (Field S)) (k : GoString)
    (conv : Value → Option α) (set : Option α → S → S) (g : α → GoString × Value)
    (res : α → α) (o : Option α) (rest : List (GoString × Value)) (st : S)
    (hfind : findField fields k = some ⟨k, storePtr conv set⟩)
    (hconv : ∀ a ∈ o, conv (g a).2 = some (res a)) (hnn : ∀ a, (g a).2 ≠ Value.null)
    (hst : set none st = st) :
    decodeObject fields (((o.map g).map (fun ev => (k, ev.2))).toList ++ rest) st =
      decodeObject fields rest (set (o.map res) st) := by
  cases o with
  | none => simp [hst]
  | some a =>
    have hc := hconv a rfl
    have hn := hnn a
    simp only [Option.map_some', Option.toList_some, List.singleton_append, decodeObject, hfind]
    have : storePtr conv set (g a).2 st = some (set (some (res a)) st) := by
      unfold storePtr
      cases hv : (g a).2 with
      | null => exact absurd hv hn
      | _ => simp only [← hv, hc]
    rw [this]
    rfl

theorem filterMap_cons_toList {α β : Type} (f : α → Option β) (a : α) (l : List α) :
    List.filterMap f (a :: l) = (f a).toList ++ List.filterMap f l := by
  cases h : f a <;> simp [List.filterMap_cons, h]

/-! ### RoomProperties -/

theorem RoomProperties_written_encoding (rep : Replacement) (p : RoomProperties) :
    writtenEncoding (p.written rep) = (p.encodeList rep) := by
  simp only [writtenEncoding, RoomProperties.written, RoomProperties.encodeList, List.map, Option.map_map]
  rfl

theorem RoomProperties_written_readsBack (rep : Replacement) (p : RoomProperties) (hwt : p.wellTyped) :
    fieldsReadBack 0 (p.written rep) := by
  unfold RoomProperties.wellTyped at hwt
  obtain ⟨hNbf, hExp, hMaxParticipants, hEjectAfterElapsed⟩ := hwt
  intro f hf
  simp only [RoomProperties.written, List.mem_cons, List.mem_singleton, List.not_mem_nil, or_false] at hf
  rcases hf with hf | hf | hf | hf | hf | hf | hf | hf | hf | hf | hf | hf | hf | hf
  · subst hf
    refine ⟨(by unfold plainName; decide : plainName (bytes "nbf")), ?_⟩
    intro ev hev
    simp only [Option.mem_def, Option.map_eq_some'] at hev
    obtain ⟨a, ha, rfl⟩ := hev
    exact valueReadsBack_int a (hNbf a ha)
  · subst hf
    refine ⟨(by unfold plainName; decide : plainName (bytes "exp")), ?_⟩
    intro ev hev
    simp only [Option.mem_def, Option.map_eq_some'] at hev
    obtain ⟨a, ha, rfl⟩ := hev
    exact valueReadsBack_int a (hExp a ha)
  · subst hf
    refine ⟨(by unfold plainName; decide : plainName (bytes "max_participants")), ?_⟩
    intro ev hev
    simp only [Option.mem_def, Option.map_eq_some'] at hev
    obtain ⟨a, ha, rfl⟩ := hev
    exact valueReadsBack_uint a (hMaxParticipants a ha)
  · subst hf
    refine ⟨(by unfold plainName; decide : plainName (bytes "autojoin")), ?_⟩
    intro ev hev
    simp only [Option.mem_def, Option.map_eq_some'] at hev
    obtain ⟨a, ha, rfl⟩ := hev
    exact valueReadsBack_bool a
  · subst hf
    refine ⟨(by unfold plainName; decide : plainName (bytes "enable_knocking")), ?_⟩
    intro ev hev
    simp only [Option.mem_def, Option.map_eq_some'] at hev
    obtain ⟨a, ha, rfl⟩ := hev
    exact valueReadsBack_bool a
  · subst hf
    refine ⟨(by unfold plainName; decide : plainName (bytes "enable_screenshare")), ?_⟩
    intro ev hev
    simp only [Option.mem_def, Option.map_eq_some'] at hev
    obtain ⟨a, ha, rfl⟩ := hev
    exact valueReadsBack_bool a
  · subst hf
    refine ⟨(by unfold plainName; decide : plainName (bytes "enable_chat")), ?_⟩
    intro ev hev
    simp only [Option.mem_def, Option.map_eq_some'] at hev
    obtain ⟨a, ha, rfl⟩ := hev
    exact valueReadsBack_bool a
  · subst hf
    refine ⟨(by unfold plainName; decide : plainName (bytes "start_video_off")), ?_⟩
    intro ev hev
    simp only [Option.mem_def, Option.map_eq_some'] at hev
    obtain ⟨a, ha, rfl⟩ := hev
    exact valueReadsBack_bool a
  · subst hf
    refine ⟨(by unfold plainName; decide : plainName (bytes "start_audio_off")), ?_⟩
    intro ev hev
    simp only [Option.mem_def, Option.map_eq_some'] at hev
    obtain ⟨a, ha, rfl⟩ := hev
    exact valueReadsBack_bool a
  · subst hf
    refine ⟨(by unfold plainName; decide : plainName (bytes "owner_only_broadcast")), ?_⟩
    intro ev hev
    simp only [Option.mem_def, Option.map_eq_some'] at hev
    obtain ⟨a, ha, rfl⟩ := hev
    exact valueReadsBack_bool a
  · subst hf
    refine ⟨(by unfold plainName; decide : plainName (bytes "enable_recording")), ?_⟩
    intro ev hev
    simp only [Option.mem_def, Option.map_eq_some'] at hev
    obtain ⟨a, ha, rfl⟩ := hev
    exact valueReadsBack_string rep a
  · subst hf
    refine ⟨(by unfold plainName; decide : plainName (bytes "eject_at_room_exp")), ?_⟩
    intro ev hev
    simp only [Option.mem_def, Option.map_eq_some'] at hev
    obtain ⟨a, ha, rfl⟩ := hev
    exact valueReadsBack_bool a
  · subst hf
    refine ⟨(by unfold plainName; decide : plainName (bytes "eject_after_elapsed")), ?_⟩
    intro ev hev
    simp only [Option.mem_def, Option.map_eq_some'] at hev
    obtain ⟨a, ha, rfl⟩ := hev
    exact valueReadsBack_uint a (hEjectAfterElapsed a ha)
  · subst hf
    refine ⟨(by unfold plainName; decide : plainName (bytes "lang")), ?_⟩
    intro ev hev
    simp only [Option.mem_def, Option.map_eq_some'] at hev
    obtain ⟨a, ha, rfl⟩ := hev
    exact valueReadsBack_string rep a

theorem RoomProperties_decode_written (rep : Replacement) (p : RoomProperties) (hwt : p.wellTyped) :
    decodeObject RoomProperties.fields (writtenMembers (p.written rep)) {} = some p.coerced := by
  unfold RoomProperties.wellTyped at hwt
  obtain ⟨hNbf, hExp, hMaxParticipants, hEjectAfterElapsed⟩ := hwt
  simp only [writtenMembers, RoomProperties.written, filterMap_cons_toList, List.filterMap_nil]
  rw [decodeObject_optional RoomProperties.fields (bytes "nbf") asInt64
    (fun v p => { p with Nbf := v }) (fun i => (formatInt i, Value.number (formatInt i))) id p.Nbf _ _ rfl
    (fun a ha => parseInt_formatInt a (hNbf a ha)) (fun _ => by simp) rfl]
  rw [decodeObject_optional RoomProperties.fields (bytes "exp") asInt64
    (fun v p => { p with Exp := v }) (fun i => (formatInt i, Value.number (formatInt i))) id p.Exp _ _ rfl
    (fun a ha => parseInt_formatInt a (hExp a ha)) (fun _ => by simp) rfl]
  rw [decodeObject_optional RoomProperties.fields (bytes "max_participants") asUint
    (fun v p => { p with MaxParticipants := v }) (fun n => (formatUint n, Value.number (formatUint n))) id p.MaxParticipants _ _ rfl
    (fun a ha => parseUint_formatUint a (hMaxParticipants a ha)) (fun _ => by simp) rfl]
  rw [decodeObject_optional RoomProperties.fields (bytes "autojoin") asBool
    (fun v p => { p with Autojoin := v }) (fun b => (encodeBool b, Value.bool b)) id p.Autojoin _ _ rfl
    (fun _ _ => rfl) (fun _ => by simp) rfl]
  rw [decodeObject_optional RoomProperties.fields (bytes "enable_knocking") asBool
    (fun v p => { p with EnableKnocking := v }) (fun b => (encodeBool b, Value.bool b)) id p.EnableKnocking _ _ rfl
    (fun _ _ => rfl) (fun _ => by simp) rfl]
  rw [decodeObject_optional RoomProperties.fields (bytes "enable_screenshare") asBool
    (fun v p => { p with EnableScreenshare := v }) (fun b => (encodeBool b, Value.bool b)) id p.EnableScreenshare _ _ rfl
    (fun _ _ => rfl) (fun _ => by simp) rfl]
  rw [decodeObject_optional RoomProperties.fields (bytes "enable_chat") asBool
    (fun v p => { p with EnableChat := v }) (fun b => (encodeBool b, Value.bool b)) id p.EnableChat _ _ rfl
    (fun _ _ => rfl) (fun _ => by simp) rfl]
  rw [decodeObject_optional RoomProperties.fields (bytes "start_video_off") asBool
    (fun v p => { p with StartVideoOff := v }) (fun b => (encodeBool b, Value.bool b)) id p.StartVideoOff _ _ rfl
    (fun _ _ => rfl) (fun _ => by simp) rfl]
  rw [decodeObject_optional RoomProperties.fields (bytes "start_audio_off") asBool
    (fun v p => { p with StartAudioOff := v }) (fun b => (encodeBool b, Value.bool b)) id p.StartAudioOff _ _ rfl
    (fun _ _ => rfl) (fun _ => by simp) rfl]
  rw [decodeObject_optional RoomProperties.fields (bytes "owner_only_broadcast") asBool
    (fun v p => { p with OwnerOnlyBroadcast := v }) (fun b => (encodeBool b, Value.bool b)) id p.OwnerOnlyBroadcast _ _ rfl
    (fun _ _ => rfl) (fun _ => by simp) rfl]
  rw [decodeObject_optional RoomProperties.fields (bytes "enable_recording") asString
    (fun v p => { p with EnableRecording := v }) (fun s => (appendString rep s, Value.string (coerceUTF8 s))) coerceUTF8 p.EnableRecording _ _ rfl
    (fun _ _ => rfl) (fun _ => by simp) rfl]
  rw [decodeObject_optional RoomProperties.fields (bytes "eject_at_room_exp") asBool
    (fun v p => { p with EjectAtRoomExp := v }) (fun b => (encodeBool b, Value.bool b)) id p.EjectAtRoomExp _ _ rfl
    (fun _ _ => rfl) (fun _ => by simp) rfl]
  rw [decodeObject_optional RoomProperties.fields (bytes "eject_after_elapsed") asUint
    (fun v p => { p with EjectAfterElapsed := v }) (fun n => (formatUint n, Value.number (formatUint n))) id p.EjectAfterElapsed _ _ rfl
    (fun a ha => parseUint_formatUint a (hEjectAfterElapsed a ha)) (fun _ => by simp) rfl]
  rw [decodeObject_optional RoomProperties.fields (bytes "lang") asString
    (fun v p => { p with Lang := v }) (fun s => (appendString rep s, Value.string (coerceUTF8 s))) coerceUTF8 p.Lang _ _ rfl
    (fun _ _ => rfl) (fun _ => by simp) rfl]
  simp only [decodeObject, Option.map_id_fun, id_eq]
  cases p
  rfl

/-- Decoding the encoding of a `RoomProperties` gives the value back, with its
string fields coerced to valid UTF-8. -/
theorem RoomProperties_unmarshal_encode (rep : Replacement) (p : RoomProperties) (hwt : p.wellTyped) :
    Unmarshal RoomProperties.fields {} (p.encode rep) = Except.ok p.coerced := by
  have h1 := parseJSON_struct 0 (p.written rep) (RoomProperties_written_readsBack rep p hwt) (by decide)
  rw [RoomProperties_written_encoding rep p] at h1
  simp only [Unmarshal, RoomProperties.encode, h1, decodeStruct, RoomProperties_decode_written rep p hwt]

theorem RoomProperties_coerced_valid (p : RoomProperties) (hv : p.validStrings) : p.coerced = p := by
  unfold RoomProperties.validStrings at hv
  obtain ⟨hEnableRecording, hLang⟩ := hv
  have key : ∀ o : Option GoString, (∀ s ∈ o, utf8Valid s = true) →
      o.map coerceUTF8 = o := by
    intro o ho
    cases o with
    | none => rfl
    | some s => simp [coerceUTF8_valid s (ho s rfl)]
  cases p
  simp only [RoomProperties.coerced]
  simp only at hEnableRecording hLang
  rw [key _ hEnableRecording, key _ hLang]


/-! ### MeetingTokenProperties -/

theorem MeetingTokenProperties_written_encoding (rep : Replacement) (p : MeetingTokenProperties) :
    writtenEncoding (p.written rep) = (p.encodeList rep) := by
  simp only [writtenEncoding, MeetingTokenProperties.written, MeetingTokenProperties.encodeList, List.map, Option.map_map]
  rfl

theorem MeetingTokenProperties_written_readsBack (rep : Replacement) (p : MeetingTokenProperties) (hwt : p.wellTyped) :
    fieldsReadBack 0 (p.written rep) := by
  unfold MeetingTokenProperties.wellTyped at hwt
  obtain ⟨hNbf, hExp⟩ := hwt
  intro f hf
  simp only [MeetingTokenProperties.written, List.mem_cons, List.mem_singleton, List.not_mem_nil, or_false] at hf
  rcases hf with hf | hf | hf | hf | hf | hf | hf | hf | hf | hf | hf | hf | hf | hf | hf
  · subst hf
    refine ⟨(by unfold plainName; decide : plainName (bytes "nbf")), ?_⟩
    intro ev hev
    simp only [Option.mem_def, Option.map_eq_some'] at hev
    obtain ⟨a, ha, rfl⟩ := hev
    exact valueReadsBack_int a (hNbf a ha)
  · subst hf
    refine ⟨(by unfold plainName; decide : plainName (bytes "exp")), ?_⟩
    intro ev hev
    simp only [Option.mem_def, Option.map_eq_some'] at hev
    obtain ⟨a, ha, rfl⟩ := hev
    exact valueReadsBack_int a (hExp a ha)
  · subst hf
    refine ⟨(by unfold plainName; decide : plainName (bytes "room_name")), ?_⟩
    intro ev hev
    simp only [Option.mem_def, Option.map_eq_some'] at hev
    obtain ⟨a, ha, rfl⟩ := hev
    exact valueReadsBack_string rep a
  · subst hf
    refine ⟨(by unfold plainName; decide : plainName (bytes "is_owner")), ?_⟩
    intro ev hev
    simp only [Option.mem_def, Option.map_eq_some'] at hev
    obtain ⟨a, ha, rfl⟩ := hev
    exact valueReadsBack_bool a
  · subst hf
    refine ⟨(by unfold plainName; decide : plainName (bytes "user_name")), ?_⟩
    intro ev hev
    simp only [Option.mem_def, Option.map_eq_some'] at hev
    obtain ⟨a, ha, rfl⟩ := hev
    exact valueReadsBack_string rep a
  · subst hf
    refine ⟨(by unfold plainName; decide : plainName (bytes "user_id")), ?_⟩
    intro ev hev
    simp only [Option.mem_def, Option.map_eq_some'] at hev
    obtain ⟨a, ha, rfl⟩ := hev
    exact valueReadsBack_string rep a
  · subst hf
    refine ⟨(by unfold plainName; decide : plainName (bytes "enable_screenshare")), ?_⟩
    intro ev hev
    simp only [Option.mem_def, Option.map_eq_some'] at hev
    obtain ⟨a, ha, rfl⟩ := hev
    exact valueReadsBack_bool a
  · subst hf
    refine ⟨(by unfold plainName; decide : plainName (bytes "start_video_off")), ?_⟩
    intro ev hev
    simp only [Option.mem_def, Option.map_eq_some'] at hev
    obtain ⟨a, ha, rfl⟩ := hev
    exact valueReadsBack_bool a
  · subst hf
    refine ⟨(by unfold plainName; decide : plainName (bytes "start_audio_off")), ?_⟩
    intro ev hev
    simp only [Option.mem_def, Option.map_eq_some'] at hev
    obtain ⟨a, ha, rfl⟩ := hev
    exact valueReadsBack_bool a
  · subst hf
    refine ⟨(by unfold plainName; decide : plainName (bytes "enable_recording")), ?_⟩
    intro ev hev
    simp only [Option.mem_def, Option.map_eq_some'] at hev
    obtain ⟨a, ha, rfl⟩ := hev
    exact valueReadsBack_string rep a
  · subst hf
    refine ⟨(by unfold plainName; decide : plainName (bytes "start_cloud_recording")), ?_⟩
    intro ev hev
    simp only [Option.mem_def, Option.map_eq_some'] at hev
    obtain ⟨a, ha, rfl⟩ := hev
    exact valueReadsBack_bool a
  · subst hf
    refine ⟨(by unfold plainName; decide : plainName (bytes "close_tab_on_exit")), ?_⟩
    intro ev hev
    simp only [Option.mem_def, Option.map_eq_some'] at hev
    obtain ⟨a, ha, rfl⟩ := hev
    exact valueReadsBack_bool a
  · subst hf
    refine ⟨(by unfold plainName; decide : plainName (bytes "eject_at_token_exp")), ?_⟩
    intro ev hev
    simp only [Option.mem_def, Option.map_eq_some'] at hev
    obtain ⟨a, ha, rfl⟩ := hev
    exact valueReadsBack_bool a
  · subst hf
    refine ⟨(by unfold plainName; decide : plainName (bytes "eject_after_elapsed")), ?_⟩
    intro ev hev
    simp only [Option.mem_def, Option.map_eq_some'] at hev
    obtain ⟨a, ha, rfl⟩ := hev
    exact valueReadsBack_string rep a
  · subst hf
    refine ⟨(by unfold plainName; decide : plainName (bytes "lang")), ?_⟩
    intro ev hev
    simp only [Option.mem_def, Option.map_eq_some'] at hev
    obtain ⟨a, ha, rfl⟩ := hev
    exact valueReadsBack_string rep a

theorem MeetingTokenProperties_decode_written (rep : Replacement) (p : MeetingTokenProperties) (hwt : p.wellTyped) :
    decodeObject MeetingTokenProperties.fields (writtenMembers (p.written rep)) {} = some p.coerced := by
  unfold MeetingTokenProperties.wellTyped at hwt
  obtain ⟨hNbf, hExp⟩ := hwt
  simp only [writtenMembers, MeetingTokenProperties.written, filterMap_cons_toList, List.filterMap_nil]
  rw [decodeObject_optional MeetingTokenProperties.fields (bytes "nbf") asInt64
    (fun v p => { p with Nbf := v }) (fun i => (formatInt i, Value.number (formatInt i))) id p.Nbf _ _ rfl
    (fun a ha => parseInt_formatInt a (hNbf a ha)) (fun _ => by simp) rfl]
  rw [decodeObject_optional MeetingTokenProperties.fields (bytes "exp") asInt64
    (fun v p => { p with Exp := v }) (fun i => (formatInt i, Value.number (formatInt i))) id p.Exp _ _ rfl
    (fun a ha => parseInt_formatInt a (hExp a ha)) (fun _ => by simp) rfl]
  rw [decodeObject_optional MeetingTokenProperties.fields (bytes "room_name") asString
    (fun v p => { p with RoomName := v }) (fun s => (appendString rep s, Value.string (coerceUTF8 s))) coerceUTF8 p.RoomName _ _ rfl
    (fun _ _ => rfl) (fun _ => by simp) rfl]
  rw [decodeObject_optional MeetingTokenProperties.fields (bytes "is_owner") asBool
    (fun v p => { p with IsOwner := v }) (fun b => (encodeBool b, Value.bool b)) id p.IsOwner _ _ rfl
    (fun _ _ => rfl) (fun _ => by simp) rfl]
  rw [decodeObject_optional MeetingTokenProperties.fields (bytes "user_name") asString
    (fun v p => { p with UserName := v }) (fun s => (appendString rep s, Value.string (coerceUTF8 s))) coerceUTF8 p.UserName _ _ rfl
    (fun _ _ => rfl) (fun _ => by simp) rfl]
  rw [decodeObject_optional MeetingTokenProperties.fields (bytes "user_id") asString
    (fun v p => { p with UserId := v }) (fun s => (appendString rep s, Value.string (coerceUTF8 s))) coerceUTF8 p.UserId _ _ rfl
    (fun _ _ => rfl) (fun _ => by simp) rfl]
  rw [decodeObject_optional MeetingTokenProperties.fields (bytes "enable_screenshare") asBool
    (fun v p => { p with EnableScreenshare := v }) (fun b => (encodeBool b, Value.bool b)) id p.EnableScreenshare _ _ rfl
    (fun _ _ => rfl) (fun _ => by simp) rfl]
  rw [decodeObject_optional MeetingTokenProperties.fields (bytes "start_video_off") asBool
    (fun v p => { p with StartVideoOff := v }) (fun b => (encodeBool b, Value.bool b)) id p.StartVideoOff _ _ rfl
    (fun _ _ => rfl) (fun _ => by simp) rfl]
  rw [decodeObject_optional MeetingTokenProperties.fields (bytes "start_audio_off") asBool
    (fun v p => { p with StartAudioOff := v }) (fun b => (encodeBool b, Value.bool b)) id p.StartAudioOff _ _ rfl
    (fun _ _ => rfl) (fun _ => by simp) rfl]
  rw [decodeObject_optional MeetingTokenProperties.fields (bytes "enable_recording") asString
    (fun v p => { p with EnableRecording := v }) (fun s => (appendString rep s, Value.string (coerceUTF8 s))) coerceUTF8 p.EnableRecording _ _ rfl
    (fun _ _ => rfl) (fun _ => by simp) rfl]
  rw [decodeObject_optional MeetingTokenProperties.fields (bytes "start_cloud_recording") asBool
    (fun v p => { p with StartCloudRecording := v }) (fun b => (encodeBool b, Value.bool b)) id p.StartCloudRecording _ _ rfl
    (fun _ _ => rfl) (fun _ => by simp) rfl]
  rw [decodeObject_optional MeetingTokenProperties.fields (bytes "close_tab_on_exit") asBool
    (fun v p => { p with CloseTabOnExit := v }) (fun b => (encodeBool b, Value.bool b)) id p.CloseTabOnExit _ _ rfl
    (fun _ _ => rfl) (fun _ => by simp) rfl]
  rw [decodeObject_optional MeetingTokenProperties.fields (bytes "eject_at_token_exp") asBool
    (fun v p => { p with EjectAtTokenExp := v }) (fun b => (encodeBool b, Value.bool b)) id p.EjectAtTokenExp _ _ rfl
    (fun _ _ => rfl) (fun _ => by simp) rfl]
  rw [decodeObject_optional MeetingTokenProperties.fields (bytes "eject_after_elapsed") asString
    (fun v p => { p with EjectAfterElapsed := v }) (fun s => (appendString rep s, Value.string (coerceUTF8 s))) coerceUTF8 p.EjectAfterElapsed _ _ rfl
    (fun _ _ => rfl) (fun _ => by simp) rfl]
  rw [decodeObject_optional MeetingTokenProperties.fields (bytes "lang") asString
    (fun v p => { p with Lang := v }) (fun s => (appendString rep s, Value.string (coerceUTF8 s))) coerceUTF8 p.Lang _ _ rfl
    (fun _ _ => rfl) (fun _ => by simp) rfl]
  simp only [decodeObject, Option.map_id_fun, id_eq]
  cases p
  rfl

/-- Decoding the encoding of a `MeetingTokenProperties` gives the value back, with its
string fields coerced to valid UTF-8. -/
theorem MeetingTokenProperties_unmarshal_encode (rep : Replacement) (p : MeetingTokenProperties) (hwt : p.wellTyped) :
    Unmarshal MeetingTokenProperties.fields {} (p.encode rep) = Except.ok p.coerced := by
  have h1 := parseJSON_struct 0 (p.written rep) (MeetingTokenProperties_written_readsBack rep p hwt) (by decide)
  rw [MeetingTokenProperties_written_encoding rep p] at h1
  simp only [Unmarshal, MeetingTokenProperties.encode, h1, decodeStruct, MeetingTokenProperties_decode_written rep p hwt]

theorem MeetingTokenProperties_coerced_valid (p : MeetingTokenProperties) (hv : p.validStrings) : p.coerced = p := by
  unfold MeetingTokenProperties.validStrings at hv
  obtain ⟨hRoomName, hUserName, hUserId, hEnableRecording, hEjectAfterElapsed, hLang⟩ := hv
  have key : ∀ o : Option GoString, (∀ s ∈ o, utf8Valid s = true) →
      o.map coerceUTF8 = o := by
    intro o ho
    cases o with
    | none => rfl
    | some s => simp [coerceUTF8_valid s (ho s rfl)]
  cases p
  simp only [MeetingTokenProperties.coerced]
  simp only at hRoomName hUserName hUserId hEnableRecording hEjectAfterElapsed hLang
  rw [key _ hRoomName, key _ hUserName, key _ hUserId, key _ hEnableRecording, key _ hEjectAfterElapsed, key _ hLang]


/-! ## Every scanned string literal can be unquoted -/

/-- The raw text of a scanned literal scans again on its own. -/
theorem scanStringFrom_raw (st : StringState) (s raw r : GoString)
    (h : scanStringFrom st s = some (raw, r)) :
    scanStringFrom st (raw ++ [34]) = some (raw, []) := by
  induction s generalizing st raw r with
  | nil => simp [scanStringFrom] at h
  | cons c s ih =>
    rw [scanStringFrom] at h
    split at h
    · rename_i hc
      simp only [Option.some.injEq, Prod.mk.injEq] at h
      rw [← h.1, hc.1]
      rfl
    · rename_i hc
      cases hstep : stringStep st c with
      | none => simp [hstep] at h
      | some st1 =>
        rcases hrec : scanStringFrom st1 s with _ | ⟨raw1, r1⟩
        · simp [hstep, hrec] at h
        · simp only [hstep, hrec, Option.some.injEq, Prod.mk.injEq] at h
          rw [← h.1, List.cons_append, scanStringFrom, if_neg hc, hstep]
          simp only [ih st1 raw1 r1 hrec]

/-- One step of the scanner over raw text. -/
theorem scanStringFrom_step (st : StringState) (c : Nat) (rest : GoString)
    (h : scanStringFrom st (c :: rest ++ [34]) = some (c :: rest, [])) :
    ¬(st = StringState.inString ∧ c = 34) ∧
      ∃ st1, stringStep st c = some st1 ∧
        scanStringFrom st1 (rest ++ [34]) = some (rest, []) := by
  rw [List.cons_append, scanStringFrom] at h
  split at h
  · simp at h
  · rename_i hc
    refine ⟨hc, ?_⟩
    cases hstep : stringStep st c with
    | none => simp [hstep] at h
    | some st1 =>
      rcases hrec : scanStringFrom st1 (rest ++ [34]) with _ | ⟨raw1, r1⟩
      · simp [hstep, hrec] at h
      · simp only [hstep, hrec, Option.some.injEq, Prod.mk.injEq, List.cons.injEq, true_and] at h
        obtain ⟨rfl, rfl⟩ := h
        exact ⟨st1, rfl, hrec⟩

/-- The scanner passes over a byte of a multi-byte sequence. -/
theorem scanString_high (c : Nat) (rest : GoString) (hc : 0x80 ≤ c)
    (h : scanString (c :: rest ++ [34]) = some (c :: rest, [])) :
    scanString (rest ++ [34]) = some (rest, []) := by
  obtain ⟨_, st1, hst, hrec⟩ := scanStringFrom_step _ _ _ h
  simp only [stringStep] at hst
  rw [if_neg (by omega), if_neg (by omega)] at hst
  simp only [Option.some.injEq] at hst
  rw [← hst] at hrec
  exact hrec

/-- The scanner passes over a hexadecimal digit of an escape. -/
theorem scanStringFrom_hex (st st2 : StringState) (rest : GoString)
    (hst : ∀ c, stringStep st c = if isHex c then some st2 else none)
    (hne : st ≠ StringState.inString)
    (h : scanStringFrom st (rest ++ [34]) = some (rest, [])) :
    ∃ c t, rest = c :: t ∧ isHex c = true ∧
      scanStringFrom st2 (t ++ [34]) = some (t, []) := by
  cases rest with
  | nil =>
    rw [List.nil_append, scanStringFrom, if_neg (by simp [hne]), hst] at h
    simp [isHex] at h
  | cons c t =>
    obtain ⟨_, st1, hs1, hrec⟩ := scanStringFrom_step _ _ _ h
    rw [hst] at hs1
    by_cases hx : isHex c = true
    · rw [if_pos hx] at hs1
      simp only [Option.some.injEq] at hs1
      rw [← hs1] at hrec
      exact ⟨c, t, rfl, hx, hrec⟩
    · rw [if_neg hx] at hs1
      exact absurd hs1 (by simp)

theorem hexVal_of_isHex (c : Nat) (h : isHex c = true) : ∃ v, hexVal c = some v := by
  simp only [isHex, Bool.or_eq_true, Bool.and_eq_true, decide_eq_true_eq] at h
  unfold hexVal
  by_cases h1 : 48 ≤ c ∧ c ≤ 57
  · exact ⟨_, if_pos h1⟩
  · rw [if_neg h1]
    by_cases h2 : 97 ≤ c ∧ c ≤ 102
    · exact ⟨_, if_pos h2⟩
    · rw [if_neg h2]
      by_cases h3 : 65 ≤ c ∧ c ≤ 70
      · exact ⟨_, if_pos h3⟩
      · exfalso; omega

/-- The scanner passes over an escape `\uXXXX`. -/
theorem scanString_escapeU (rest : GoString)
    (h : scanStringFrom StringState.inStringEscU (rest ++ [34]) = some (rest, [])) :
    ∃ a b c d t, rest = a :: b :: c :: d :: t ∧
      isHex a = true ∧ isHex b = true ∧ isHex c = true ∧ isHex d = true ∧
      scanString (t ++ [34]) = some (t, []) := by
  obtain ⟨a, t1, rfl, ha, h1⟩ := scanStringFrom_hex StringState.inStringEscU
    StringState.inStringEscU1 _
    (fun _ => rfl) (by decide) h
  obtain ⟨b, t2, rfl, hb, h2⟩ := scanStringFrom_hex StringState.inStringEscU1
    StringState.inStringEscU12 _
    (fun _ => rfl) (by decide) h1
  obtain ⟨c, t3, rfl, hc, h3⟩ := scanStringFrom_hex StringState.inStringEscU12
    StringState.inStringEscU123 _
    (fun _ => rfl) (by decide) h2
  obtain ⟨d, t4, rfl, hd, h4⟩ := scanStringFrom_hex StringState.inStringEscU123
    StringState.inString _
    (fun _ => rfl) (by decide) h3
  exact ⟨a, b, c, d, t4, rfl, ha, hb, hc, hd, h4⟩

theorem getu4_shape (s : GoString) (v : Nat) (h : getu4 s = some v) :
    ∃ a b c d t, s = 92 :: 117 :: a :: b :: c :: d :: t := by
  unfold getu4 at h
  split at h
  · rename_i a b c d t
    exact ⟨a, b, c, d, t, rfl⟩
  · exact absurd h (by simp)

/-- At the raw text of a scanned literal the rewriting loop takes a step, and
what follows the item is again the raw text of a scanned literal. -/
theorem unquoteStep_scanned (c : Nat) (rest : GoString)
    (h : scanString (c :: rest ++ [34]) = some (c :: rest, [])) :
    ∃ out size, 1 ≤ size ∧ unquoteStep c rest = some (out, size) ∧
      scanString ((c :: rest).drop size ++ [34]) = some ((c :: rest).drop size, []) := by
  obtain ⟨hq, st1, hst, hrec⟩ := scanStringFrom_step _ _ _ h
  have hc34 : c ≠ 34 := fun e => hq ⟨rfl, e⟩
  simp only [stringStep] at hst
  by_cases h92 : c = 92
  · subst h92
    rw [if_pos rfl] at hst
    simp only [Option.some.injEq] at hst
    subst hst
    cases rest with
    | nil => simp [scanStringFrom, stringStep] at hrec
    | cons e rest1 =>
      obtain ⟨_, st2, hst2, hrec2⟩ := scanStringFrom_step _ _ _ hrec
      simp only [stringStep] at hst2
      by_cases hs : e = 98 ∨ e = 102 ∨ e = 110 ∨ e = 114 ∨ e = 116 ∨ e = 92 ∨ e = 47 ∨ e = 34
      · rw [if_pos hs] at hst2
        simp only [Option.some.injEq] at hst2
        subst hst2
        have : ∃ out, unquoteStep 92 (e :: rest1) = some (out, 2) := by
          rcases hs with rfl | rfl | rfl | rfl | rfl | rfl | rfl | rfl <;>
            exact ⟨_, by simp only [unquoteStep]; rfl⟩
        obtain ⟨out, ho⟩ := this
        exact ⟨out, 2, by omega, ho, hrec2⟩
      · rw [if_neg hs] at hst2
        by_cases hu : e = 117
        · subst hu
          rw [if_pos rfl] at hst2
          simp only [Option.some.injEq] at hst2
          subst hst2
          obtain ⟨a, b, c, d, t, rfl, ha, hb, hc, hd, ht⟩ := scanString_escapeU _ hrec2
          obtain ⟨va, hva⟩ := hexVal_of_isHex a ha
          obtain ⟨vb, hvb⟩ := hexVal_of_isHex b hb
          obtain ⟨vc, hvc⟩ := hexVal_of_isHex c hc
          obtain ⟨vd, hvd⟩ := hexVal_of_isHex d hd
          have hg := getu4_hex a b c d t va vb vc vd hva hvb hvc hvd
          unfold unquoteStep
          rw [if_pos rfl]
          simp only
          rw [if_pos trivial, hg]
          simp only [List.drop_succ_cons, List.drop_zero]
          by_cases hsur : isSurrogate ((((va * 16 + vb) * 16 + vc) * 16 + vd)) = true
          · rw [if_pos hsur]
            by_cases hdec : utf16DecodeRune ((((va * 16 + vb) * 16 + vc) * 16 + vd)) (getu4 t)
                ≠ RuneError
            · rw [if_pos hdec]
              refine ⟨_, 12, by omega, rfl, ?_⟩
              rcases hg2 : getu4 t with _ | v2
              · rw [hg2] at hdec; exact absurd rfl hdec
              · obtain ⟨a2, b2, c2, d2, t2, rfl⟩ := getu4_shape _ _ hg2
                obtain ⟨_, s1, hs1, hr1⟩ := scanStringFrom_step _ _ _ ht
                simp only [stringStep, if_true, Option.some.injEq] at hs1
                subst hs1
                obtain ⟨_, s2, hs2, hr2⟩ := scanStringFrom_step _ _ _ hr1
                simp only [stringStep] at hs2
                rw [if_neg hs] at hs2
                simp only [if_true, Option.some.injEq] at hs2
                subst hs2
                obtain ⟨a3, b3, c3, d3, t3, he, _, _, _, _, ht3⟩ := scanString_escapeU _ hr2
                simp only [List.cons.injEq] at he
                obtain ⟨_, _, _, _, rfl⟩ := he
                simpa using ht3
            · rw [if_neg hdec]
              exact ⟨_, 6, by omega, rfl, by simpa using ht⟩
          · rw [if_neg hsur]
            exact ⟨_, 6, by omega, rfl, by simpa using ht⟩
        · rw [if_neg hu] at hst2
          exact absurd hst2 (by simp)
  · rw [if_neg h92] at hst
    by_cases h32 : c < 32
    · rw [if_pos h32] at hst
      exact absurd hst (by simp)
    · rw [if_neg h32] at hst
      simp only [Option.some.injEq] at hst
      subst hst
      unfold unquoteStep
      rw [if_neg h92, if_neg (by omega)]
      by_cases hself : c < RuneSelf
      · rw [if_pos hself]
        exact ⟨_, 1, by omega, rfl, by simpa using hrec⟩
      · rw [if_neg hself]
        have hhigh : ¬ c < 0x80 := hself
        by_cases herr : (decodeRune (c :: rest)).1 = RuneError ∧ (decodeRune (c :: rest)).2 = 1
        · refine ⟨_, _, by rw [herr.2], rfl, ?_⟩
          rw [herr.2]
          simpa using hrec
        · have hw := wellFormed_of_decodeRune c rest hhigh herr
          refine ⟨_, _, ?_, rfl, ?_⟩
          · rcases hw with ⟨_, _, _, _, _, _, _, _, _, hn⟩ |
              ⟨_, _, _, _, _, _, _, _, _, _, _, _, _, _, hn⟩ |
              ⟨_, _, _, _, _, _, _, _, _, _, _, _, _, _, _, _, _, hn⟩ <;> omega
          · rcases hw with ⟨b0, b1, t, he, _, _, h1, _, _, hn⟩ |
              ⟨b0, b1, b2, t, he, _, _, h1, _, _, _, h2, _, _, hn⟩ |
              ⟨b0, b1, b2, b3, t, he, _, _, h1, _, _, _, h2, _, h3, _, _, hn⟩
            · rw [hn]
              simp only [List.cons.injEq] at he
              obtain ⟨rfl, rfl⟩ := he
              simp only [List.drop_succ_cons, List.drop_zero]
              exact scanString_high _ _ h1 hrec
            · rw [hn]
              simp only [List.cons.injEq] at he
              obtain ⟨rfl, rfl⟩ := he
              simp only [List.drop_succ_cons, List.drop_zero]
              exact scanString_high _ _ h2 (scanString_high _ _ h1 hrec)
            · rw [hn]
              simp only [List.cons.injEq] at he
              obtain ⟨rfl, rfl⟩ := he
              simp only [List.drop_succ_cons, List.drop_zero]
              exact scanString_high _ _ h3 (scanString_high _ _ h2 (scanString_high _ _ h1 hrec))

/-- The rewriting loop of `unquoteBytes` succeeds on the raw text of every
scanned literal. -/
theorem unquoteLoop_scanned (raw : GoString)
    (h : scanString (raw ++ [34]) = some (raw, [])) : ∃ t, unquoteLoop 0 raw = some t := by
  obtain ⟨n, hn⟩ : ∃ n, raw.length = n := ⟨_, rfl⟩
  induction n using Nat.strong_induction_on generalizing raw with
  | _ n ih =>
    cases raw with
    | nil => exact ⟨[], rfl⟩
    | cons c rest =>
      obtain ⟨out, size, hs, hstep, hrest⟩ := unquoteStep_scanned c rest h
      rw [unquoteLoop_cons c rest out size hs hstep]
      obtain ⟨t, ht⟩ := ih ((c :: rest).drop size).length
        (by rw [← hn]; simp only [List.length_drop, List.length_cons]; omega) _ hrest rfl
      rw [ht]
      exact ⟨_, rfl⟩

/-- Function `unquoteBytes` succeeds on every literal that the scanner accepts:
the decoder never meets its "unreachable" failure. -/
theorem unquoteBytes_scanned (s raw r : GoString) (h : scanString s = some (raw, r)) :
    ∃ t, unquoteBytes raw = some t := by
  rw [unquoteBytes_eq_loop]
  exact unquoteLoop_scanned raw (scanStringFrom_raw _ _ _ _ h)


/-! ## The fuel of the parser -/

theorem skipSpace_length (s : GoString) : (skipSpace s).length ≤ s.length := by
  induction s with
  | nil => simp [skipSpace]
  | cons c s ih =>
    simp only [skipSpace]
    split
    · simp only [List.length_cons]; omega
    · rfl

theorem scanStringFrom_length (st : StringState) (s raw r : GoString)
    (h : scanStringFrom st s = some (raw, r)) : r.length < s.length := by
  induction s generalizing st raw with
  | nil => simp [scanStringFrom] at h
  | cons c s ih =>
    rw [scanStringFrom] at h
    split at h
    · simp only [Option.some.injEq, Prod.mk.injEq] at h
      rw [← h.2]; simp
    · cases hstep : stringStep st c with
      | none => simp [hstep] at h
      | some st1 =>
        rcases hrec : scanStringFrom st1 s with _ | ⟨raw1, r1⟩
        · simp [hstep, hrec] at h
        · simp only [hstep, hrec, Option.some.injEq, Prod.mk.injEq] at h
          have := ih st1 raw1 (h.2 ▸ hrec)
          simp only [List.length_cons]
          omega

theorem spanDigits_length (s : GoString) : (spanDigits s).2.length ≤ s.length := by
  induction s with
  | nil => simp [spanDigits]
  | cons c s ih =>
    simp only [spanDigits]
    split
    · simp only [List.length_cons]; omega
    · rfl

theorem scanNumber_length (s lit r : GoString) (h : scanNumber s = some (lit, r)) :
    r.length < s.length := by
  unfold scanNumber at h
  simp only at h
  split at h
  · exact absurd h (by simp)
  · rename_i c r1 hs1
    have hlen1 : r1.length < s.length := by
      split at hs1
      · cases s with
        | nil => simp at hs1
        | cons a t => simp only [List.tail_cons] at hs1; rw [hs1]; simp; omega
      · rw [hs1]; simp
    split at h
    · exact absurd h (by simp)
    · rename_i ip s2 hint
      have hlen2 : s2.length ≤ r1.length := by
        split at hint
        · simp only [Option.some.injEq, Prod.mk.injEq] at hint; rw [← hint.2]
        · split at hint
          · simp only [Option.some.injEq, Prod.mk.injEq] at hint
            rw [← hint.2]; exact spanDigits_length r1
          · exact absurd hint (by simp)
      split at h
      · exact absurd h (by simp)
      · rename_i fp s3 hfrac
        have hlen3 : s3.length ≤ s2.length := by
          split at hfrac
          · rename_i r2
            split at hfrac
            · exact absurd hfrac (by simp)
            · simp only [Option.some.injEq, Prod.mk.injEq] at hfrac
              rw [← hfrac.2]
              have := spanDigits_length r2
              simp only [List.length_cons]; omega
          · simp only [Option.some.injEq, Prod.mk.injEq] at hfrac; rw [← hfrac.2]
        split at h
        · exact absurd h (by simp)
        · rename_i ep s4 hexp
          have hlen4 : s4.length ≤ s3.length := by
            cases s3 with
            | nil => simp only [Option.some.injEq, Prod.mk.injEq] at hexp; rw [← hexp.2]
            | cons e r3 =>
              have h2 : (if r3.head? = some 43 ∨ r3.head? = some 45 then r3.tail else r3).length
                  ≤ r3.length := by
                split
                · simp
                · rfl
              have h1 := spanDigits_length
                (if r3.head? = some 43 ∨ r3.head? = some 45 then r3.tail else r3)
              by_cases he : e = 101 ∨ e = 69
              · simp only [he, if_true] at hexp
                by_cases hd : (spanDigits
                    (if r3.head? = some 43 ∨ r3.head? = some 45 then r3.tail else r3)).1 = []
                · rw [if_pos hd] at hexp; exact absurd hexp (by simp)
                · rw [if_neg hd] at hexp
                  simp only [Option.some.injEq, Prod.mk.injEq] at hexp
                  rw [← hexp.2]
                  simp only [List.length_cons]; omega
              · simp only [he, if_false, Option.some.injEq, Prod.mk.injEq] at hexp
                rw [← hexp.2]
          simp only [Option.some.injEq, Prod.mk.injEq] at h
          rw [← h.2]
          omega

theorem parse_fuel (f : Nat) :
    (∀ d s v r, parseValue f d s = some (v, r) →
      r.length < s.length ∧
        ∀ f2, s.length ≤ f2 + r.length → parseValue f2 d s = some (v, r)) ∧
    (∀ d s ms r, parseMembers f d s = some (ms, r) →
      r.length < s.length ∧
        ∀ f2, s.length ≤ f2 + r.length → parseMembers f2 d s = some (ms, r)) ∧
    (∀ d s vs r, parseElements f d s = some (vs, r) →
      r.length < s.length ∧
        ∀ f2, s.length ≤ f2 + r.length → parseElements f2 d s = some (vs, r)) := by
  induction f with
  | zero => simp [parseValue, parseMembers, parseElements]
  | succ f ih =>
    obtain ⟨ihV, ihM, ihE⟩ := ih
    refine ⟨?_, ?_, ?_⟩
    · intro d s v r h
      rw [parseValue] at h
      have hsp := skipSpace_length s
      rcases hsk : skipSpace s with _ | ⟨c, r0⟩
      · simp [hsk] at h
      · rw [hsk] at h hsp
        simp only [List.length_cons] at hsp
        simp only at h
        by_cases h123 : c = 123
        · rw [if_pos h123] at h
          by_cases hd : d + 1 > maxNestingDepth
          · simp [hd] at h
          · rw [if_neg hd] at h
            have hsp0 := skipSpace_length r0
            split at h
            · rename_i r1 heq
              simp only [Option.some.injEq, Prod.mk.injEq] at h
              obtain ⟨rfl, rfl⟩ := h
              rw [heq] at hsp0
              simp only [List.length_cons] at hsp0
              refine ⟨by omega, fun f2 hf2 => ?_⟩
              cases f2 with
              | zero => exfalso; omega
              | succ f3 =>
                rw [parseValue, hsk]
                simp only
                rw [if_pos h123, if_neg hd, heq]
            · rename_i hne
              rcases hm : parseMembers f (d + 1) r0 with _ | ⟨ms, r1⟩
              · simp [hm] at h
              · simp only [hm, Option.some.injEq, Prod.mk.injEq] at h
                obtain ⟨rfl, rfl⟩ := h
                obtain ⟨hl, hre⟩ := ihM _ _ _ _ hm
                refine ⟨by omega, fun f2 hf2 => ?_⟩
                cases f2 with
                | zero => exfalso; omega
                | succ f3 =>
                  rw [parseValue, hsk]
                  simp only
                  rw [if_pos h123, if_neg hd]
                  rw [hre f3 (by omega)]
        · rw [if_neg h123] at h
          by_cases h91 : c = 91
          · rw [if_pos h91] at h
            by_cases hd : d + 1 > maxNestingDepth
            · simp [hd] at h
            · rw [if_neg hd] at h
              have hsp0 := skipSpace_length r0
              split at h
              · rename_i r1 heq
                simp only [Option.some.injEq, Prod.mk.injEq] at h
                obtain ⟨rfl, rfl⟩ := h
                rw [heq] at hsp0
                simp only [List.length_cons] at hsp0
                refine ⟨by omega, fun f2 hf2 => ?_⟩
                cases f2 with
                | zero => exfalso; omega
                | succ f3 =>
                  rw [parseValue, hsk]
                  simp only
                  rw [if_neg h123, if_pos h91, if_neg hd, heq]
              · rename_i hne
                rcases hm : parseElements f (d + 1) r0 with _ | ⟨vs, r1⟩
                · simp [hm] at h
                · simp only [hm, Option.some.injEq, Prod.mk.injEq] at h
                  obtain ⟨rfl, rfl⟩ := h
                  obtain ⟨hl, hre⟩ := ihE _ _ _ _ hm
                  refine ⟨by omega, fun f2 hf2 => ?_⟩
                  cases f2 with
                  | zero => exfalso; omega
                  | succ f3 =>
                    rw [parseValue, hsk]
                    simp only
                    rw [if_neg h123, if_pos h91, if_neg hd]
                    rw [hre f3 (by omega)]
          · rw [if_neg h91] at h
            -- the scalar values read the same with every positive fuel
            have hscalar : ∀ f2, parseValue (f2 + 1) d s = parseValue (f + 1) d s := by
              intro f2
              rw [parseValue, parseValue, hsk]
              simp only
              rw [if_neg h123, if_neg h91, if_neg h123, if_neg h91]
            have hlen : r.length < r0.length + 1 := by
              by_cases h34 : c = 34
              · rw [if_pos h34] at h
                rcases hs : scanString r0 with _ | ⟨raw, r1⟩
                · simp [hs] at h
                · have := scanStringFrom_length _ _ _ _ hs
                  rcases hu : unquoteBytes raw with _ | t
                  · simp [hs, hu] at h
                  · simp only [hs, hu, Option.some.injEq, Prod.mk.injEq] at h
                    rw [← h.2]; omega
              · rw [if_neg h34] at h
                by_cases hnum : c = 45 ∨ (48 ≤ c ∧ c ≤ 57)
                · rw [if_pos hnum] at h
                  rcases hs : scanNumber (c :: r0) with _ | ⟨lit, r1⟩
                  · simp [hs] at h
                  · have := scanNumber_length _ _ _ hs
                    simp only [hs, Option.some.injEq, Prod.mk.injEq] at h
                    rw [← h.2]
                    simpa using this
                · rw [if_neg hnum] at h
                  split at h
                  · simp only [Option.some.injEq, Prod.mk.injEq] at h
                    rw [← h.2]; simp; omega
                  · split at h
                    · simp only [Option.some.injEq, Prod.mk.injEq] at h
                      rw [← h.2]; simp; omega
                    · split at h
                      · simp only [Option.some.injEq, Prod.mk.injEq] at h
                        rw [← h.2]; simp; omega
                      · exact absurd h (by simp)
            refine ⟨by omega, fun f2 hf2 => ?_⟩
            cases f2 with
            | zero => exfalso; omega
            | succ f3 =>
              rw [hscalar f3, parseValue, hsk]
              simp only
              rw [if_neg h123, if_neg h91]
              exact h
    · intro d s ms r h
      rw [parseMembers] at h
      have hsp := skipSpace_length s
      split at h
      · rename_i r0 hsk
        rw [hsk] at hsp
        simp only [List.length_cons] at hsp
        rcases hs : scanString r0 with _ | ⟨raw, r1⟩
        · simp [hs] at h
        · have hl1 := scanStringFrom_length _ _ _ _ hs
          rcases hu : unquoteBytes raw with _ | key
          · simp [hs, hu] at h
          · simp only [hs, hu] at h
            have hsp1 := skipSpace_length r1
            split at h
            · rename_i r2 hsk1
              rw [hsk1] at hsp1
              simp only [List.length_cons] at hsp1
              rcases hv : parseValue f d r2 with _ | ⟨v, r3⟩
              · simp [hv] at h
              · simp only [hv] at h
                obtain ⟨hl3, hre3⟩ := ihV _ _ _ _ hv
                have hsp3 := skipSpace_length r3
                split at h
                · rename_i r4 hsk3
                  rw [hsk3] at hsp3
                  simp only [List.length_cons] at hsp3
                  rcases hm : parseMembers f d r4 with _ | ⟨ms1, r5⟩
                  · simp [hm] at h
                  · simp only [hm, Option.some.injEq, Prod.mk.injEq] at h
                    obtain ⟨rfl, rfl⟩ := h
                    obtain ⟨hl5, hre5⟩ := ihM _ _ _ _ hm
                    refine ⟨by omega, fun f2 hf2 => ?_⟩
                    cases f2 with
                    | zero => exfalso; omega
                    | succ f3 =>
                      rw [parseMembers, hsk]
                      simp only [hs, hu, hsk1]
                      rw [hre3 f3 (by omega)]
                      simp only [hsk3]
                      rw [hre5 f3 (by omega)]
                · rename_i r4 hsk3
                  rw [hsk3] at hsp3
                  simp only [List.length_cons] at hsp3
                  simp only [Option.some.injEq, Prod.mk.injEq] at h
                  obtain ⟨rfl, rfl⟩ := h
                  refine ⟨by omega, fun f2 hf2 => ?_⟩
                  cases f2 with
                  | zero => exfalso; omega
                  | succ f3 =>
                    rw [parseMembers, hsk]
                    simp only [hs, hu, hsk1]
                    rw [hre3 f3 (by omega)]
                    simp only [hsk3]
                · exact absurd h (by simp)
            · exact absurd h (by simp)
      · exact absurd h (by simp)
    · intro d s vs r h
      rw [parseElements] at h
      rcases hv : parseValue f d s with _ | ⟨v, r1⟩
      · simp [hv] at h
      · simp only [hv] at h
        obtain ⟨hl1, hre1⟩ := ihV _ _ _ _ hv
        have hsp1 := skipSpace_length r1
        split at h
        · rename_i r2 hsk1
          rw [hsk1] at hsp1
          simp only [List.length_cons] at hsp1
          rcases hm : parseElements f d r2 with _ | ⟨vs1, r3⟩
          · simp [hm] at h
          · simp only [hm, Option.some.injEq, Prod.mk.injEq] at h
            obtain ⟨rfl, rfl⟩ := h
            obtain ⟨hl3, hre3⟩ := ihE _ _ _ _ hm
            refine ⟨by omega, fun f2 hf2 => ?_⟩
            cases f2 with
            | zero => exfalso; omega
            | succ f3 =>
              rw [parseElements, hre1 f3 (by omega)]
              simp only [hsk1]
              rw [hre3 f3 (by omega)]
        · rename_i r2 hsk1
          rw [hsk1] at hsp1
          simp only [List.length_cons] at hsp1
          simp only [Option.some.injEq, Prod.mk.injEq] at h
          obtain ⟨rfl, rfl⟩ := h
          refine ⟨by omega, fun f2 hf2 => ?_⟩
          cases f2 with
          | zero => exfalso; omega
          | succ f3 =>
            rw [parseElements, hre1 f3 (by omega)]
            simp only [hsk1]
        · exact absurd h (by simp)

/-- A value that is read with some amount of fuel is read with the fuel that
`parseJSON` provides. -/
theorem parseValue_fuel (f d : Nat) (s : GoString) (v : Value) (r : GoString)
    (h : parseValue f d s = some (v, r)) : parseValue (s.length + 1) d s = some (v, r) :=
  ((parse_fuel f).1 d s v r h).2 _ (by omega)

/-- More fuel than the length of the input never changes what is read. -/
theorem parseValue_fuel_irrelevant (k d : Nat) (s : GoString) :
    parseValue (s.length + 1 + k) d s = parseValue (s.length + 1) d s := by
  rcases h1 : parseValue (s.length + 1 + k) d s with _ | ⟨v, r⟩
  · rcases h2 : parseValue (s.length + 1) d s with _ | ⟨v, r⟩
    · rfl
    · have := ((parse_fuel _).1 d s v r h2).2 (s.length + 1 + k) (by omega)
      rw [h1] at this
      exact absurd this (by simp)
  · exact (parseValue_fuel _ d s v r h1).symm

/-- The result of `parseJSON` does not depend on its choice of fuel: the parser
is a total function of the input. -/
theorem parseJSON_fuel (k : Nat) (data : GoString) :
    parseJSON data =
      match parseValue (data.length + 1 + k) 0 data with
      | none => none
      | some (v, rest) => if skipSpace rest = [] then some v else none := by
  rw [parseValue_fuel_irrelevant]
  rfl

/-! ## C5: decoding undoes encoding on properties objects -/

/-- C5, counterexample: the room properties whose only set field is `Lang`,
holding the single byte `0xFF` (a Go string that is not valid UTF-8), are encoded
as `{"lang":"\ufffd"}` by a library that writes the escape and as `{"lang":"?"}`
with the three bytes of U+FFFD in place of `?` by a library that writes the
rune; either text is decoded as the properties whose `Lang` holds the three bytes
of U+FFFD, which is a different value. -/
theorem properties_roundtrip_counterexample :
    RoomProperties.encode Replacement.escape { Lang := some [0xFF] } =
      bytes "\x7b\"lang\":\"\\ufffd\"\x7d" ∧
    RoomProperties.encode Replacement.rune { Lang := some [0xFF] } =
      bytes "\x7b\"lang\":\"" ++ [0xEF, 0xBF, 0xBD] ++ bytes "\"\x7d" ∧
    Unmarshal RoomProperties.fields {}
        (RoomProperties.encode Replacement.escape { Lang := some [0xFF] }) =
      Except.ok { Lang := some [0xEF, 0xBF, 0xBD] } ∧
    Unmarshal RoomProperties.fields {}
        (RoomProperties.encode Replacement.rune { Lang := some [0xFF] }) =
      Except.ok { Lang := some [0xEF, 0xBF, 0xBD] } ∧
    ({ Lang := some [0xEF, 0xBF, 0xBD] } : RoomProperties) ≠ { Lang := some [0xFF] } :=
  ⟨by decide, by decide, rfl, rfl, by decide⟩

/-- C5 (amended): for every `RoomProperties` value and every
`MeetingTokenProperties` value whose string fields hold valid UTF-8 (the integer
fields holding values of their Go types), decoding the encoding into a fresh
value yields the value itself, field for field: a nil field stays nil and a set
field keeps its value. -/
theorem properties_roundtrip (rep : Replacement) :
    (∀ p : RoomProperties, p.wellTyped → p.validStrings →
      Unmarshal RoomProperties.fields {} (p.encode rep) = Except.ok p) ∧
    (∀ p : MeetingTokenProperties, p.wellTyped → p.validStrings →
      Unmarshal MeetingTokenProperties.fields {} (p.encode rep) = Except.ok p) := by
  constructor
  · intro p hwt hv
    rw [RoomProperties_unmarshal_encode rep p hwt, RoomProperties_coerced_valid p hv]
  · intro p hwt hv
    rw [MeetingTokenProperties_unmarshal_encode rep p hwt,
      MeetingTokenProperties_coerced_valid p hv]

/-- Witness for C5 (amended): with only `Exp` set, only `Exp` is set after the
round trip. -/
theorem properties_roundtrip_witness :
    RoomProperties.wellTyped { Exp := some 1735689600 } ∧
    RoomProperties.validStrings { Exp := some 1735689600 } ∧
    RoomProperties.encode Replacement.rune { Exp := some 1735689600 } =
      bytes "\x7b\"exp\":1735689600\x7d" ∧
    Unmarshal RoomProperties.fields {}
        (RoomProperties.encode Replacement.rune { Exp := some 1735689600 }) =
      Except.ok { Exp := some 1735689600 } :=
  have hwt : RoomProperties.wellTyped { Exp := some 1735689600 } := by
    simp [RoomProperties.wellTyped]
  have hv : RoomProperties.validStrings { Exp := some 1735689600 } := by
    simp [RoomProperties.validStrings]
  ⟨hwt, hv, by decide,
    (properties_roundtrip Replacement.rune).1 { Exp := some 1735689600 } hwt hv⟩

/-! ## The text and the members of a request body -/

/-- The text the struct encoder writes: the member texts separated by commas,
between braces. -/
theorem encodeStruct_text (fs : List (GoString × Option GoString)) :
    encodeStruct fs = 123 :: ([44].intercalate (memberTexts fs) ++ [125]) := by
  have hb : bytes "\x7b\x7d" = [123, 125] := by decide
  have key : ∀ (fs : List (GoString × Option GoString)) (next : Nat),
      encodeFields next fs =
        if memberTexts fs = [] then (if next = 123 then [123, 125] else [125])
        else next :: ([44].intercalate (memberTexts fs) ++ [125]) := by
    intro fs
    induction fs with
    | nil => intro next; simp [encodeFields, memberTexts, hb]
    | cons f fs ih =>
      intro next
      obtain ⟨name, o⟩ := f
      cases o with
      | none =>
        have e : memberTexts ((name, none) :: fs) = memberTexts fs := by simp [memberTexts]
        rw [e, encodeFields, ih next]
      | some v =>
        have e : memberTexts ((name, some v) :: fs) =
            (34 :: name ++ [34, 58] ++ v) :: memberTexts fs := by simp [memberTexts]
        rw [e, encodeFields, ih 44]
        simp only [if_false, reduceCtorEq]
        cases hm : memberTexts fs with
        | nil => simp [List.intercalate, List.intersperse]
        | cons m ms => simp [List.intercalate, List.intersperse]
  rw [encodeStruct, key fs 123]
  split
  · rename_i h; rw [h]; simp [List.intercalate]
  · rfl

/-- The requests of `CreateRoom` are those of the dispatcher. -/
theorem CreateRoom_sent (rep : Replacement) (c : Client) (client : HTTPClient) (name privacy : GoString)
    (properties : Option RoomProperties) :
    (c.CreateRoom rep client name privacy properties).sent.map Request.Body =
      [createRoomRequest.encode rep ⟨name, privacy, properties⟩] := by
  have h1 : (c.CreateRoom rep client name privacy properties).sent =
      (c.call rep client DAILYCO_ROOMS_FRAGMENT (bytes "POST")
        (some (RequestBody.createRoom ⟨name, privacy, properties⟩))).sent := by
    simp only [Client.CreateRoom]
    cases (c.call rep client DAILYCO_ROOMS_FRAGMENT (bytes "POST")
        (some (RequestBody.createRoom ⟨name, privacy, properties⟩))).err with
    | some e => rfl
    | none =>
      simp only
      cases Unmarshal RoomResponse.fields {} _ with
      | error e => rfl
      | ok r => rfl
  rw [h1, call_sent]
  simp only [Client.call, NewRequest_valid _ _ _ validMethod_POST]
  rfl


theorem formatDigits_digits (fuel n : Nat) (h : n < 10 ^ fuel) (hpos : 0 < n) :
    formatDigits fuel n = (Nat.digits 10 n).reverse.map (fun d => 48 + d) := by
  induction fuel generalizing n with
  | zero => simp at h; omega
  | succ fuel ih =>
    rw [formatDigits]
    by_cases h10 : n < 10
    · rw [if_pos h10, Nat.digits_of_lt 10 n (by omega) h10]
      rfl
    · rw [if_neg h10, Nat.digits_def' (by decide) hpos]
      have hlt : n / 10 < 10 ^ fuel := by
        rw [Nat.div_lt_iff_lt_mul (by decide)]
        rw [pow_succ] at h
        exact h
      rw [ih (n / 10) hlt (by omega)]
      simp

/-- Function `strconv.FormatInt` writes the decimal numeral. -/
theorem formatInt_decimal (i : Int) (hi : -2 ^ 63 ≤ i ∧ i < 2 ^ 63) : formatInt i = decimal i := by
  have hn : i.natAbs < 10 ^ 20 := by omega
  unfold formatInt decimal
  by_cases h0 : i = 0
  · subst h0
    rfl
  · have hpos : 0 < i.natAbs := by omega
    rw [if_neg h0, formatDigits_digits 20 _ hn hpos]
    split <;> rfl

/-- Function `strconv.FormatUint` writes the decimal numeral. -/
theorem formatUint_decimal (n : Nat) (hn : n < 2 ^ 64) : formatUint n = decimal n := by
  have hn' : n < 10 ^ 20 := by omega
  unfold formatUint decimal
  by_cases h0 : n = 0
  · subst h0
    rfl
  · have hpos : 0 < n := by omega
    have h1 : ¬ ((n : Int) < 0) := by omega
    have h2 : ¬ ((n : Int) = 0) := by omega
    rw [if_neg h1, if_neg h2, formatDigits_digits 20 _ hn' hpos]
    simp

/-- The members the encoder writes for a well-typed `RoomProperties` with valid
strings are the members of the value. -/
theorem RoomProperties_written_members (rep : Replacement) (p : RoomProperties)
    (hwt : p.wellTyped) (hv : p.validStrings) :
    writtenMembers (p.written rep) = p.members := by
  unfold RoomProperties.wellTyped at hwt
  unfold RoomProperties.validStrings at hv
  obtain ⟨hNbf, hExp, hMax, hEject⟩ := hwt
  obtain ⟨hRec, hLang⟩ := hv
  have kint : ∀ (o : Option Int) (k : GoString), (∀ i ∈ o, -2 ^ 63 ≤ i ∧ i < 2 ^ 63) →
      ((o.map (fun i => (formatInt i, Value.number (formatInt i)))).map
        (fun ev => (k, ev.2))).toList =
      (o.map (fun i => (k, Value.number (decimal i)))).toList := by
    intro o k ho
    cases o with
    | none => rfl
    | some i => simp [formatInt_decimal i (ho i rfl)]
  have knat : ∀ (o : Option Nat) (k : GoString), (∀ n ∈ o, n < 2 ^ 64) →
      ((o.map (fun n => (formatUint n, Value.number (formatUint n)))).map
        (fun ev => (k, ev.2))).toList =
      (o.map (fun (n : Nat) => (k, Value.number (decimal (n : Int))))).toList := by
    intro o k ho
    cases o with
    | none => rfl
    | some n => simp [formatUint_decimal n (ho n rfl)]
  have kbool : ∀ (o : Option Bool) (k : GoString),
      ((o.map (fun b => (encodeBool b, Value.bool b))).map (fun ev => (k, ev.2))).toList =
      (o.map (fun b => (k, Value.bool b))).toList := by
    intro o k
    cases o <;> rfl
  have kstr : ∀ (o : Option GoString) (k : GoString), (∀ s ∈ o, utf8Valid s = true) →
      ((o.map (fun s => (appendString rep s, Value.string (coerceUTF8 s)))).map
        (fun ev => (k, ev.2))).toList =
      (o.map (fun s => (k, Value.string s))).toList := by
    intro o k ho
    cases o with
    | none => rfl
    | some s => simp [coerceUTF8_valid s (ho s rfl)]
  simp only [writtenMembers, RoomProperties.written, filterMap_cons_toList, List.filterMap_nil,
    List.append_nil, RoomProperties.members]
  rw [kint _ _ hNbf, kint _ _ hExp, knat _ _ hMax, knat _ _ hEject, kstr _ _ hRec,
    kstr _ _ hLang]
  simp only [kbool, List.append_assoc]

theorem RoomProperties_members_keys (p : RoomProperties) :
    p.members.map Prod.fst = p.presentKeys := by
  have key : ∀ {α : Type} (o : Option α) (g : α → Value) (k : GoString),
      List.map Prod.fst (o.map (fun a => (k, g a))).toList = if o.isSome then [k] else [] := by
    intro α o g k
    cases o <;> rfl
  simp only [RoomProperties.members, List.map_append, key, RoomProperties.presentKeys]

theorem RoomProperties_members_not_null (p : RoomProperties) :
    ∀ m ∈ p.members, m.2 ≠ Value.null := by
  intro m hm
  simp only [RoomProperties.members, List.mem_append, Option.mem_toList, Option.mem_def,
    Option.map_eq_some'] at hm
  rcases hm with ((((((((((((h | h) | h) | h) | h) | h) | h) | h) | h) | h) | h) | h) | h) | h <;>
    obtain ⟨a, _, rfl⟩ := h <;> simp

theorem createRoomRequest_written_encoding (rep : Replacement) (r : createRoomRequest) :
    writtenEncoding (r.written rep) = [(bytes "name", some (appendString rep r.Name)),
      (bytes "privacy", some (appendString rep r.Privacy)),
      (bytes "properties", r.Properties.map (RoomProperties.encode rep))] := by
  simp only [writtenEncoding, createRoomRequest.written, List.map, Option.map_map, Option.map_some']
  rfl

theorem createRoomRequest_written_readsBack (rep : Replacement) (r : createRoomRequest)
    (hwt : ∀ p ∈ r.Properties, p.wellTyped) : fieldsReadBack 1 (r.written rep) := by
  intro f hf
  simp only [createRoomRequest.written, List.mem_cons, List.mem_singleton, List.not_mem_nil,
    or_false] at hf
  rcases hf with hf | hf | hf
  · subst hf
    refine ⟨(by unfold plainName; decide : plainName (bytes "name")), ?_⟩
    intro ev hev
    simp only [Option.mem_def, Option.some.injEq] at hev
    subst hev
    exact ⟨valueReadsBack_mono 0 1 _ _ (by omega) (valueReadsBack_string rep _).1,
      (valueReadsBack_string rep _).2⟩
  · subst hf
    refine ⟨(by unfold plainName; decide : plainName (bytes "privacy")), ?_⟩
    intro ev hev
    simp only [Option.mem_def, Option.some.injEq] at hev
    subst hev
    exact ⟨valueReadsBack_mono 0 1 _ _ (by omega) (valueReadsBack_string rep _).1,
      (valueReadsBack_string rep _).2⟩
  · subst hf
    refine ⟨(by unfold plainName; decide : plainName (bytes "properties")), ?_⟩
    intro ev hev
    simp only [Option.mem_def, Option.map_eq_some'] at hev
    obtain ⟨p, hp, rfl⟩ := hev
    have h := valueReadsBack_struct 0 (p.written rep) (RoomProperties_written_readsBack rep p (hwt p hp))
    rw [RoomProperties_written_encoding rep p] at h
    exact ⟨h, encodeStruct_ne_nil _⟩


/-- Plain text is written between the quotes as it is. -/
theorem appendString_plain (rep : Replacement) (s : GoString) (hs : plainText s) :
    appendString rep s = 34 :: s ++ [34] := by
  have key : appendStringLoop rep 0 s = s := by
    induction s with
    | nil => rfl
    | cons b rest ih =>
      have hb := hs b (List.mem_cons_self _ _)
      have hstep : appendStringStep rep b rest = ([b], 1) := by
        unfold appendStringStep
        have h1 : b < RuneSelf := by simp only [RuneSelf]; omega
        have h2 : htmlSafe b = true := by
          simp only [htmlSafe, Bool.and_eq_true, decide_eq_true_eq, bne_iff_ne, ne_eq]
          omega
        rw [if_pos h1, if_pos h2]
      rw [appendStringLoop, hstep]
      simp only [List.singleton_append, Nat.sub_self]
      rw [ih (fun c hc => hs c (List.mem_cons_of_mem _ hc))]
  rw [appendString, key]
  rfl

/-- The member texts the encoder writes for a well-typed `RoomProperties` with
plain strings are the compact texts of the members of the value. -/
theorem RoomProperties_memberTexts (rep : Replacement) (p : RoomProperties)
    (hwt : p.wellTyped) (hv : p.plainStrings) :
    memberTexts (p.encodeList rep) =
      p.members.map (fun m => 34 :: m.1 ++ [34, 58] ++ scalarText m.2) := by
  unfold RoomProperties.wellTyped at hwt
  unfold RoomProperties.plainStrings at hv
  obtain ⟨hNbf, hExp, hMax, hEject⟩ := hwt
  obtain ⟨hRec, hLang⟩ := hv
  have kint : ∀ (o : Option Int) (k : GoString), (∀ i ∈ o, -2 ^ 63 ≤ i ∧ i < 2 ^ 63) →
      ((o.map formatInt).map (fun v => 34 :: k ++ [34, 58] ++ v)).toList =
      (o.map (fun i => (k, Value.number (decimal i)))).toList.map
        (fun m => 34 :: m.1 ++ [34, 58] ++ scalarText m.2) := by
    intro o k ho
    cases o with
    | none => rfl
    | some i => simp [formatInt_decimal i (ho i rfl), scalarText]
  have knat : ∀ (o : Option Nat) (k : GoString), (∀ n ∈ o, n < 2 ^ 64) →
      ((o.map formatUint).map (fun v => 34 :: k ++ [34, 58] ++ v)).toList =
      (o.map (fun (n : Nat) => (k, Value.number (decimal (n : Int))))).toList.map
        (fun m => 34 :: m.1 ++ [34, 58] ++ scalarText m.2) := by
    intro o k ho
    cases o with
    | none => rfl
    | some n => simp [formatUint_decimal n (ho n rfl), scalarText]
  have kbool : ∀ (o : Option Bool) (k : GoString),
      ((o.map encodeBool).map (fun v => 34 :: k ++ [34, 58] ++ v)).toList =
      (o.map (fun b => (k, Value.bool b))).toList.map
        (fun m => 34 :: m.1 ++ [34, 58] ++ scalarText m.2) := by
    intro o k
    cases o with
    | none => rfl
    | some b => cases b <;> rfl
  have kstr : ∀ (o : Option GoString) (k : GoString), (∀ s ∈ o, plainText s) →
      ((o.map (appendString rep)).map (fun v => 34 :: k ++ [34, 58] ++ v)).toList =
      (o.map (fun s => (k, Value.string s))).toList.map
        (fun m => 34 :: m.1 ++ [34, 58] ++ scalarText m.2) := by
    intro o k ho
    cases o with
    | none => rfl
    | some s => simp [appendString_plain rep s (ho s rfl), scalarText]
  simp only [memberTexts, RoomProperties.encodeList, filterMap_cons_toList, List.filterMap_nil,
    List.append_nil, RoomProperties.members, List.map_append]
  rw [kint _ _ hNbf, kint _ _ hExp, knat _ _ hMax, knat _ _ hEject, kstr _ _ hRec,
    kstr _ _ hLang]
  simp only [kbool]
  simp only [List.append_assoc]

/-! ## C2: the body of CreateRoom -/

/-- C2, counterexample: the names `"\xff"` and `"\xfe"` (Go strings that are not
valid UTF-8) give the same request body, whichever form the library writes the
replacement in, and the `name` member of that body is U+FFFD: the body does not
carry the name. -/
theorem createRoom_body_counterexample :
    (Client.CreateRoom Replacement.escape ⟨bytes "secret"⟩ (fixedBody (fun _ => 200) (bytes ""))
      [0xFF] (bytes "private") none).sent.map Request.Body =
      [bytes "\x7b\"name\":\"\\ufffd\",\"privacy\":\"private\"\x7d"] ∧
    (Client.CreateRoom Replacement.escape ⟨bytes "secret"⟩ (fixedBody (fun _ => 200) (bytes ""))
      [0xFE] (bytes "private") none).sent.map Request.Body =
      [bytes "\x7b\"name\":\"\\ufffd\",\"privacy\":\"private\"\x7d"] ∧
    (Client.CreateRoom Replacement.rune ⟨bytes "secret"⟩ (fixedBody (fun _ => 200) (bytes ""))
      [0xFF] (bytes "private") none).sent.map Request.Body =
      [bytes "\x7b\"name\":\"" ++ [0xEF, 0xBF, 0xBD] ++ bytes "\",\"privacy\":\"private\"\x7d"] ∧
    (Client.CreateRoom Replacement.rune ⟨bytes "secret"⟩ (fixedBody (fun _ => 200) (bytes ""))
      [0xFE] (bytes "private") none).sent.map Request.Body =
      [bytes "\x7b\"name\":\"" ++ [0xEF, 0xBF, 0xBD] ++ bytes "\",\"privacy\":\"private\"\x7d"] ∧
    parseJSON (bytes "\x7b\"name\":\"\\ufffd\",\"privacy\":\"private\"\x7d") =
      some (Value.object [(bytes "name", Value.string [0xEF, 0xBF, 0xBD]),
        (bytes "privacy", Value.string (bytes "private"))]) ∧
    parseJSON (bytes "\x7b\"name\":\"" ++ [0xEF, 0xBF, 0xBD] ++
        bytes "\",\"privacy\":\"private\"\x7d") =
      some (Value.object [(bytes "name", Value.string [0xEF, 0xBF, 0xBD]),
        (bytes "privacy", Value.string (bytes "private"))]) ∧
    ([0xEF, 0xBF, 0xBD] : GoString) ≠ [0xFF] :=
  ⟨by decide, by decide, by decide, by decide, rfl, rfl, by decide⟩

/-- C2 (amended): for every name, privacy and properties whose strings are valid
UTF-8 (the integer fields holding values of their Go types), the one request
`CreateRoom` sends has as body exactly the text `{"name":<name>,"privacy":<privacy>`,
then `,"properties":<object>` when properties is not nil, then `}`, where
`<name>` and `<privacy>` are the JSON string literals of the arguments and
`<object>` is the text of the members of the fields that are not nil, separated
by commas, between braces.  Read as JSON, the body is the object with the
members `name` and `privacy` holding the arguments and, unless properties is
nil, `properties`, in that order; the properties object has a member for
exactly the fields that are not nil, in declaration order, each holding the
value behind the pointer (integers as decimal numerals), and no member is null.
When the strings are plain text (printable ASCII without quote, backslash, `<`,
`>` and `&`), the body is, byte for byte, the compact text of that object with
the strings between quotes as they are. -/
theorem createRoom_body (rep : Replacement) (c : Client) (client : HTTPClient)
    (name privacy : GoString) (properties : Option RoomProperties)
    (hname : utf8Valid name = true) (hprivacy : utf8Valid privacy = true)
    (hprops : ∀ p ∈ properties, p.wellTyped ∧ p.validStrings) :
    (c.CreateRoom rep client name privacy properties).sent.map Request.Body =
      [bytes "\x7b\"name\":" ++ appendString rep name ++ bytes ",\"privacy\":" ++
        appendString rep privacy ++
        properties.elim [] (fun p => bytes ",\"properties\":" ++ p.encode rep) ++
        bytes "\x7d"] ∧
    (c.CreateRoom rep client name privacy properties).sent.map (fun r => parseJSON r.Body) =
      [some (Value.object ([(bytes "name", Value.string name),
        (bytes "privacy", Value.string privacy)] ++
        properties.elim [] (fun p => [(bytes "properties", Value.object p.members)])))] ∧
    (∀ p ∈ properties,
      p.encode rep =
        bytes "\x7b" ++ [44].intercalate (memberTexts (p.encodeList rep)) ++ bytes "\x7d" ∧
      p.members.map Prod.fst = p.presentKeys ∧
      (∀ m ∈ p.members, m.2 ≠ Value.null)) ∧
    (plainText name → plainText privacy → (∀ p ∈ properties, p.plainStrings) →
      (c.CreateRoom rep client name privacy properties).sent.map Request.Body =
        [bytes "\x7b\"name\":\"" ++ name ++ bytes "\",\"privacy\":\"" ++ privacy ++
          bytes "\"" ++
          properties.elim [] (fun p => bytes ",\"properties\":" ++ objectText p.members) ++
          bytes "\x7d"]) := by
  have h1 : bytes "\x7b\"name\":" = [123, 34, 110, 97, 109, 101, 34, 58] := by decide
  have h2 : bytes ",\"privacy\":" = [44, 34, 112, 114, 105, 118, 97, 99, 121, 34, 58] := by decide
  have h3 : bytes ",\"properties\":" =
      [44, 34, 112, 114, 111, 112, 101, 114, 116, 105, 101, 115, 34, 58] := by decide
  have h4 : bytes "\x7d" = [125] := by decide
  have h5 : bytes "\x7b" = [123] := by decide
  have hn : bytes "name" = [110, 97, 109, 101] := by decide
  have hp : bytes "privacy" = [112, 114, 105, 118, 97, 99, 121] := by decide
  have hpr : bytes "properties" = [112, 114, 111, 112, 101, 114, 116, 105, 101, 115] := by decide
  have hbody := CreateRoom_sent rep c client name privacy properties
  have htext : (c.CreateRoom rep client name privacy properties).sent.map Request.Body =
      [bytes "\x7b\"name\":" ++ appendString rep name ++ bytes ",\"privacy\":" ++
        appendString rep privacy ++
        properties.elim [] (fun p => bytes ",\"properties\":" ++ p.encode rep) ++
        bytes "\x7d"] := by
    rw [hbody, h1, h2, h3, h4]
    congr 1
    cases properties with
    | none => simp [createRoomRequest.encode, encodeStruct, encodeFields, hn, hp]
    | some p => simp [createRoomRequest.encode, encodeStruct, encodeFields, hn, hp, hpr]
  refine ⟨htext, ?_, ?_, ?_⟩
  · have hmap : (c.CreateRoom rep client name privacy properties).sent.map
        (fun r => parseJSON r.Body) =
        ((c.CreateRoom rep client name privacy properties).sent.map Request.Body).map
          parseJSON := by
      rw [List.map_map]
      rfl
    rw [hmap, hbody]
    have hr := createRoomRequest_written_readsBack rep ⟨name, privacy, properties⟩
      (fun p hp => (hprops p hp).1)
    have := parseJSON_struct 1 _ hr (by decide)
    rw [createRoomRequest_written_encoding] at this
    simp only [List.map_cons, List.map_nil]
    rw [createRoomRequest.encode, this]
    simp only [writtenMembers, createRoomRequest.written, filterMap_cons_toList,
      List.filterMap_nil, coerceUTF8_valid name hname, coerceUTF8_valid privacy hprivacy]
    cases properties with
    | none => rfl
    | some p =>
      have hm := RoomProperties_written_members rep p (hprops p rfl).1 (hprops p rfl).2
      simp only [writtenMembers] at hm
      simp [hm]
  · intro p _
    refine ⟨?_, RoomProperties_members_keys p, RoomProperties_members_not_null p⟩
    rw [RoomProperties.encode, encodeStruct_text, h4, h5]
    simp
  · intro hpn hpp hpl
    have h6 : bytes "\x7b\"name\":\"" = [123, 34, 110, 97, 109, 101, 34, 58, 34] := by decide
    have h7 : bytes "\",\"privacy\":\"" =
        [34, 44, 34, 112, 114, 105, 118, 97, 99, 121, 34, 58, 34] := by decide
    have h8 : bytes "\"" = [34] := by decide
    rw [htext, appendString_plain rep name hpn, appendString_plain rep privacy hpp, h1, h2, h4,
      h6, h7, h8]
    congr 1
    cases properties with
    | none => simp
    | some p =>
      have hobj : p.encode rep = objectText p.members := by
        rw [RoomProperties.encode, encodeStruct_text,
          RoomProperties_memberTexts rep p (hprops p rfl).1 (hpl p rfl), objectText, h4, h5]
        simp
      simp [hobj]

/-- Witness for C2 (amended): pointers to the zero values `0`, `false` and `""`
are written, nothing else is. -/
theorem createRoom_body_witness :
    utf8Valid (bytes "") = true ∧ utf8Valid (bytes "private") = true ∧
    (∀ p ∈ some ({ Exp := some 0, Autojoin := some false, Lang := some [] } : RoomProperties),
      p.wellTyped ∧ p.validStrings) ∧
    (Client.CreateRoom Replacement.rune ⟨bytes "secret"⟩ (fixedBody (fun _ => 200) (bytes ""))
      (bytes "") (bytes "private")
      (some { Exp := some 0, Autojoin := some false, Lang := some [] })).sent.map Request.Body =
      [bytes ("\x7b\"name\":\"\",\"privacy\":\"private\"," ++
        "\"properties\":\x7b\"exp\":0,\"autojoin\":false,\"lang\":\"\"\x7d\x7d")] ∧
    (Client.CreateRoom Replacement.rune ⟨bytes "secret"⟩ (fixedBody (fun _ => 200) (bytes ""))
      (bytes "") (bytes "private")
      (some { Exp := some 0, Autojoin := some false, Lang := some [] })).sent.map
        (fun r => parseJSON r.Body) =
      [some (Value.object [(bytes "name", Value.string []),
        (bytes "privacy", Value.string (bytes "private")),
        (bytes "properties", Value.object [(bytes "exp", Value.number (bytes "0")),
          (bytes "autojoin", Value.bool false), (bytes "lang", Value.string [])])])] :=
  have hwt : ∀ p ∈ some ({ Exp := some 0, Autojoin := some false, Lang := some [] } :
      RoomProperties), p.wellTyped ∧ p.validStrings := by
    intro p hp
    simp only [Option.mem_def, Option.some.injEq] at hp
    subst hp
    constructor
    · simp [RoomProperties.wellTyped]
    · simp only [RoomProperties.validStrings, Option.mem_def, Option.some.injEq, reduceCtorEq,
        false_implies, implies_true, true_and]
      intro s hs
      subst hs
      rfl
  ⟨by decide, by decide, hwt,
    ((createRoom_body Replacement.rune ⟨bytes "secret"⟩ (fixedBody (fun _ => 200) (bytes ""))
      (bytes "") (bytes "private") (some { Exp := some 0, Autojoin := some false, Lang := some [] })
      (by decide) (by decide) hwt).1).trans (by decide),
    ((createRoom_body Replacement.rune ⟨bytes "secret"⟩ (fixedBody (fun _ => 200) (bytes ""))
      (bytes "") (bytes "private") (some { Exp := some 0, Autojoin := some false, Lang := some [] })
      (by decide) (by decide) hwt).2.1).trans rfl⟩

end Dailyco
